import Mathlib

/-!
Verification of the curate-preservation-core repository.

The Go sources are shallowly embedded: Go strings are lists of characters
(`GoStr`), one `Char` standing for one byte; pure Go functions become Lean
functions translated statement by statement from the source; side-effecting
loops (archive extraction) become functions that additionally return the
chronological trace of file-system writes they would perform; the gRPC
client's admission control becomes a labelled transition system.

Sections follow the source layout:
  * `pkg/utils/archive.go` — path cleaning, zip-slip validation, extraction,
    compression, retry policy, transient-error classification.
  * `internal/server.go` — request fingerprints and in-flight deduplication.
  * `internal/a3mclient/a3mclient.go` — admission semaphore model.
  * `internal/preservation/preservation.go` — failure tagging, tag-namespace
    selection.
  * `internal/cells/cells.go`, `cec.go` — path resolution, argument
    sanitisation.
  * `internal/processor` — transfer-package preprocessing (PREMIS emission).
-/

namespace Curate

/-- A Go string, modelled as its byte sequence (one `Char` per byte). -/
abbrev GoStr := List Char

/-- Coerce a Lean string literal to the byte-list model. -/
def gs (s : String) : GoStr := s.data

/-! ### Generic string helpers (Go `strings` package fragments) -/

/-- `s.take pre.length = pre`: the model of Go `strings.HasPrefix pre s`
as a proposition. -/
def hasPref (pre s : GoStr) : Prop := s.take pre.length = pre

instance (pre s : GoStr) : Decidable (hasPref pre s) := by
  unfold hasPref; infer_instance

/-- Go `strings.HasPrefix s pre` (note Go's argument order: string first). -/
def goHasPref (s pre : GoStr) : Bool := pre.isPrefixOf s

/-! ### `filepath.Clean` (Go standard library, Unix rules), byte for byte.

`pkg/utils/archive.go` and `internal/cells/cec.go` both rely on
`filepath.Clean`, `filepath.Join` and `filepath.Dir`; we embed the lexical
algorithm of Go's `path/filepath.Clean` directly.  The output buffer `out`
is kept in reverse order (`outRev`), so Go's `out.append(c)` is `c :: outRev`
and backtracking pops from the head. -/

/-- The `..` backtracking step of `Clean`: Go pops one byte from `out`,
then keeps popping while `out.w > dotdot` and the byte at the boundary is
not a separator. -/
def backRev (dotdot : Nat) : List Char → List Char
  | [] => []
  | c :: rest =>
    if rest.length > dotdot ∧ c ≠ '/' then backRev dotdot rest else rest

/-- The `..` element handling of `Clean` (shared by the two continuations
below): backtrack when possible, else (when not rooted) append a literal
`..` and advance `dotdot`, else drop the element. -/
def dotdotStep (rooted : Bool) (dotdot : Nat) (out : List Char) :
    Nat × List Char :=
  if dotdot < out.length then (dotdot, backRev dotdot out)
  else if !rooted then
    let out2 : List Char :=
      '.' :: '.' :: (if out.length > 0 then '/' :: out else out)
    (out2.length, out2)
  else (dotdot, out)

/-- Main loop of Go `filepath.Clean`, over the remaining input, one byte at
a time.  Go copies a whole path element inside the `default:` branch; here
the copy is byte-by-byte, with the `midSeg` flag recording that the cursor
is inside an element (so that `.` and `..` are only recognised at element
starts, exactly as in Go, where the outer loop only ever stops at element
boundaries).  The `.`/`..` cases consume the following separator at once,
which the Go loop does in its next `empty path element` iteration.  Returns
the final `(midSeg, dotdot, outRev)` state. -/
def cleanLoop (rooted : Bool) :
    Bool → Nat → List Char → List Char → Bool × Nat × List Char
  | midSeg, dotdot, out, [] => (midSeg, dotdot, out)
  | _, dotdot, out, '/' :: rest =>
    -- empty path element / end of the current element
    cleanLoop rooted false dotdot out rest
  | false, dotdot, out, '.' :: [] =>
    -- "." element at the end of the path
    (false, dotdot, out)
  | false, dotdot, out, '.' :: '/' :: rest =>
    -- "." element
    cleanLoop rooted false dotdot out rest
  | false, dotdot, out, '.' :: '.' :: [] =>
    -- ".." element at the end of the path
    let s := dotdotStep rooted dotdot out
    (false, s.1, s.2)
  | false, dotdot, out, '.' :: '.' :: '/' :: rest =>
    -- ".." element
    let s := dotdotStep rooted dotdot out
    cleanLoop rooted false s.1 s.2 rest
  | false, dotdot, out, c :: rest =>
    -- start of a real path element: add slash if needed, copy first byte
    let out1 : List Char :=
      if (rooted ∧ out.length ≠ 1) ∨ (¬rooted ∧ out.length ≠ 0)
      then '/' :: out else out
    cleanLoop rooted true dotdot (c :: out1) rest
  | true, dotdot, out, c :: rest =>
    -- inside a real path element: copy byte
    cleanLoop rooted true dotdot (c :: out) rest

/-- Go `filepath.Clean` (Unix separator). -/
def goClean (path : List Char) : List Char :=
  if path = [] then ['.']
  else
    let rooted := path.head? = some '/'
    let res :=
      if rooted then cleanLoop true false 1 ['/'] path.tail
      else cleanLoop false false 0 [] path
    if res.2.2 = [] then ['.'] else res.2.2.reverse

/-- Go `filepath.Dir` (Unix): strip everything after the final separator,
then `Clean`. -/
def goDir (path : List Char) : List Char :=
  goClean ((path.reverse.dropWhile (fun c => decide (c ≠ '/'))).reverse)

/-- Go `filepath.Join(a, b)`: empty elements are skipped, result cleaned
(and `Join()` of only empty elements is `""`, not cleaned). -/
def goJoin2 (a b : List Char) : List Char :=
  if a = [] ∧ b = [] then []
  else if a = [] then goClean b
  else if b = [] then goClean a
  else goClean (a ++ '/' :: b)

/-- `validatePath` from `pkg/utils/archive.go` (lines 23-29): `target` must,
after cleaning, have `Clean(destDir) + "/"` as a prefix.  `true` means the
check passed (the source returns an `illegal file path` error otherwise). -/
def validatePath (target destDir : List Char) : Bool :=
  let cleanDest := goClean destDir ++ ['/']
  goHasPref (goClean target) cleanDest

/-! ### Canonical paths

`goClean` always returns a path in canonical form — either `"."`, or a
rooted path `/seg(/seg)*` (possibly just `/`), or a relative path
`..(/..)*(/seg)*` — where every `seg` is nonempty, separator-free and
neither `"."` nor `".."`.  The definitions below name these shapes; the
theorems section proves that `goClean` produces them and fixes them. -/

/-- Segments joined by a single separator (no leading/trailing one). -/
def joinSl : List (List Char) → List Char
  | [] => []
  | [s] => s
  | s :: rest => s ++ '/' :: joinSl rest

/-- A path element that `Clean` copies verbatim. -/
def goodSeg (s : List Char) : Prop :=
  s ≠ [] ∧ (∀ c ∈ s, c ≠ '/') ∧ s ≠ ['.'] ∧ s ≠ ['.', '.']

instance (s : List Char) : Decidable (goodSeg s) := by
  unfold goodSeg; infer_instance

/-- The `..` path element. -/
def ddSeg : List Char := ['.', '.']

/-- A rooted canonical path. -/
def rendRoot (segs : List (List Char)) : List Char := '/' :: joinSl segs

/-- A relative canonical path: `k` leading `..` elements, then `segs`. -/
def rendRel (k : Nat) (segs : List (List Char)) : List Char :=
  joinSl (List.replicate k ddSeg ++ segs)

/-- Length of the rendered run of `k` leading `..` elements — the value Go
keeps in `dotdot`. -/
def ddLen (k : Nat) : Nat := (rendRel k []).length

/-- Shape of the reversed output buffer at a path-element boundary. -/
def outForm (r : Bool) (k : Nat) (cur : List (List Char)) : List Char :=
  if r then (rendRoot cur).reverse else (rendRel k cur).reverse

/-- Value of `dotdot` at a path-element boundary. -/
def ddForm (r : Bool) (k : Nat) : Nat := if r then 1 else ddLen k

/-- The possible outputs of `goClean`. -/
def Canonical (p : List Char) : Prop :=
  p = ['.'] ∨
  (∃ segs, (∀ s ∈ segs, goodSeg s) ∧ p = rendRoot segs) ∨
  (∃ k segs, (∀ s ∈ segs, goodSeg s) ∧ 1 ≤ k + segs.length ∧
    p = rendRel k segs)

/-! ### Archive extraction (`pkg/utils/archive.go`)

The extraction functions are modelled with the file system abstracted into
the chronological list of writes they perform; OS errors other than the
path-validation failure are not modelled (each OS call is assumed to
succeed), and the context-cancellation check between entries is elided (a
cancelled run fails with the context error having performed a prefix of
the writes, which only removes writes from the trace).  The returned
extracted-package path, which Go derives from the source archive's file
name alone, is not part of the trace and is omitted. -/

/-- One entry of a ZIP or 7z archive, as the extraction loops see it:
the stored name, the directory flag, the file bytes, the recorded mode. -/
structure ArchiveEntry where
  name : GoStr
  isDir : Bool
  content : GoStr
  mode : Nat

/-- One entry of a TAR archive: `typeflag` is the tar type byte
(`'5'` directory, `'0'` regular file; anything else is skipped). -/
structure TarEntry where
  name : GoStr
  typeflag : Char
  content : GoStr
  mode : Nat

/-- A file-system write performed during extraction: `mkdir` covers
`utils.CreateDir` / `os.Mkdir` (creation of a possibly existing directory
with the given permission argument), `create` covers
`os.Create`/`os.OpenFile` plus the `io.Copy` of the entry bytes, with the
permission argument passed to the OS call. -/
inductive FsWrite where
  | mkdir (path : GoStr) (perm : Nat)
  | create (path : GoStr) (content : GoStr) (perm : Nat)
deriving DecidableEq

/-- The path a write touches. -/
def FsWrite.path : FsWrite → GoStr
  | mkdir p _ => p
  | create p _ _ => p

/-- The per-entry loop of `ExtractZip` (archive.go lines 108-145):
join the entry name onto `cleanDest`, validate (zip-slip check), then
either create the directory, or create the parent directory and write the
file.  On a validation failure the loop stops with an error. -/
def extractZipLoop (cleanDest : GoStr) :
    List ArchiveEntry → Option GoStr × List FsWrite
  | [] => (none, [])
  | e :: rest =>
    let filePath := goJoin2 cleanDest e.name
    if validatePath filePath cleanDest = false then
      (some (gs "invalid file path"), [])
    else if e.isDir then
      let res := extractZipLoop cleanDest rest
      (res.1, FsWrite.mkdir filePath 0o755 :: res.2)
    else
      let res := extractZipLoop cleanDest rest
      (res.1, FsWrite.mkdir (goDir filePath) 0o755 ::
        FsWrite.create filePath e.content 0o666 :: res.2)

/-- `ExtractZip` (archive.go lines 95-150): create `dest` (mode 0755 via
`utils.CreateDir`), then run the entry loop against
`Clean(dest) + "/"`. -/
def extractZip (dest : GoStr) (entries : List ArchiveEntry) :
    Option GoStr × List FsWrite :=
  let cleanDest := goClean dest ++ ['/']
  let res := extractZipLoop cleanDest entries
  (res.1, FsWrite.mkdir dest 0o755 :: res.2)

/-- The per-entry loop of `Extract7z` (archive.go lines 168-208):
directories are created with the entry's recorded mode, files are opened
with the recorded mode; the parent directory is created (0755) when
missing. -/
def extract7zLoop (cleanDest : GoStr) :
    List ArchiveEntry → Option GoStr × List FsWrite
  | [] => (none, [])
  | e :: rest =>
    let outPath := goJoin2 cleanDest e.name
    if validatePath outPath cleanDest = false then
      (some (gs "illegal file path"), [])
    else if e.isDir then
      let res := extract7zLoop cleanDest rest
      (res.1, FsWrite.mkdir outPath e.mode :: res.2)
    else
      let res := extract7zLoop cleanDest rest
      (res.1, FsWrite.mkdir (goDir outPath) 0o755 ::
        FsWrite.create outPath e.content e.mode :: res.2)

/-- `Extract7z` (archive.go lines 153-213). -/
def extract7z (dest : GoStr) (entries : List ArchiveEntry) :
    Option GoStr × List FsWrite :=
  let cleanDest := goClean dest ++ ['/']
  let res := extract7zLoop cleanDest entries
  (res.1, FsWrite.mkdir dest 0o755 :: res.2)

/-- The per-header loop of `ExtractTar` (archive.go lines 244-284):
every header is validated; directory headers are created with the recorded
mode, regular-file headers get a parent directory (0755) and an
`os.Create` (0666); all other type flags are skipped. -/
def extractTarLoop (cleanDest : GoStr) :
    List TarEntry → Option GoStr × List FsWrite
  | [] => (none, [])
  | e :: rest =>
    let filePath := goJoin2 cleanDest e.name
    if validatePath filePath cleanDest = false then
      (some (gs "illegal file path"), [])
    else if e.typeflag = '5' then
      let res := extractTarLoop cleanDest rest
      (res.1, FsWrite.mkdir filePath e.mode :: res.2)
    else if e.typeflag = '0' then
      let res := extractTarLoop cleanDest rest
      (res.1, FsWrite.mkdir (goDir filePath) 0o755 ::
        FsWrite.create filePath e.content 0o666 :: res.2)
    else
      extractTarLoop cleanDest rest

/-- `ExtractTar` (archive.go lines 217-289). -/
def extractTar (dest : GoStr) (entries : List TarEntry) :
    Option GoStr × List FsWrite :=
  let cleanDest := goClean dest ++ ['/']
  let res := extractTarLoop cleanDest entries
  (res.1, FsWrite.mkdir dest 0o755 :: res.2)

/-- A path is inside the destination directory: after cleaning it is the
destination itself or strictly below it. -/
def insideDest (dest w : GoStr) : Prop :=
  goClean w = goClean dest ∨ hasPref (goClean dest ++ ['/']) (goClean w)

/-- The zip-slip condition of claim C1 for a single archive entry: the
entry name, joined onto the (cleaned, slash-terminated) destination and
cleaned, fails to have the destination as a prefix. -/
def escapes (dest name : GoStr) : Prop :=
  ¬ hasPref (goClean dest ++ ['/'])
    (goClean (goJoin2 (goClean dest ++ ['/']) name))

instance (dest name : GoStr) : Decidable (escapes dest name) := by
  unfold escapes; infer_instance

/-! ### Retry and the transient-error classifier (`pkg/utils/archive.go`,
`IsTransientError` lines 492-531, `WithRetry`/`Retry` lines 533-558) -/

/-- Go `strings.Contains s sub`: `sub` occurs as a contiguous substring
of `s` (always true for the empty `sub`). -/
def goContains : GoStr → GoStr → Bool
  | [], sub => sub.isPrefixOf []
  | c :: rest, sub => sub.isPrefixOf (c :: rest) || goContains rest sub

/-- A Go error as `IsTransientError` inspects it: its `Error()` message,
whether `errors.As` finds a `net.Error` in its chain, and the gRPC status
code when `status.FromError` reports one (`none` when `ok` is false). -/
structure GoError where
  msg : GoStr
  isNetErr : Bool
  grpcCode : Option Nat
deriving DecidableEq

/-- `IsTransientError`: `nil` is not transient; network errors, the four
message substrings, the four HTTP status-code substrings, and gRPC codes
`Unavailable` (14), `DeadlineExceeded` (4), `ResourceExhausted` (8) and
`Unknown` (2) are transient; everything else is not. -/
def isTransientError : Option GoError → Bool
  | none => false
  | some err =>
    if err.isNetErr then true
    else if goContains err.msg (gs "timeout") ||
        goContains err.msg (gs "temporary unavailable") then true
    else if goContains err.msg (gs "no such host") ||
        goContains err.msg (gs "server misbehaving") then true
    else if goContains err.msg (gs "500") || goContains err.msg (gs "502") ||
        goContains err.msg (gs "503") || goContains err.msg (gs "504") then
      true
    else
      match err.grpcCode with
      | some c => c = 14 || c = 4 || c = 8 || c = 2
      | none => false

/-- `DefaultRetryAttempts` (archive.go line 488). -/
def DefaultRetryAttempts : Nat := 3

/-- The loop of `Retry`: `ops i` is the result of the `i`-th invocation of
`operation()` (`none` = success); `lastErr` is Go's `err` variable; the
result pairs Go's return value with the number of invocations performed.
`time.Sleep` and the doubling delay do not affect either and are
dropped. -/
def retryLoop (ops : Nat → Option GoError) (isTr : Option GoError → Bool)
    (lastErr : Option GoError) : Nat → Nat → Option GoError × Nat
  | i, 0 => (lastErr, i)
  | i, rem + 1 =>
    match ops i with
    | none => (none, i + 1)
    | some e =>
      if isTr (some e) then retryLoop ops isTr (some e) (i + 1) rem
      else (some e, i + 1)

/-- `Retry(attempts, delay, operation, isTransient)`. -/
def goRetry (attempts : Nat) (ops : Nat → Option GoError)
    (isTr : Option GoError → Bool) : Option GoError × Nat :=
  retryLoop ops isTr none 0 attempts

/-- `WithRetry(operation)`: `Retry` with the default policy and
`IsTransientError`. -/
def withRetry (ops : Nat → Option GoError) : Option GoError × Nat :=
  goRetry DefaultRetryAttempts ops isTransientError

/-! ### Failure tagging (`internal/preservation/preservation.go`)

The multi-byte status glyphs are kept as the literal characters of the
source text. -/

/-- `strings.ReplaceAll` for a one-byte pattern (every call site in the
repository replaces a single byte). -/
def goReplaceAllCh (old : Char) (new : GoStr) : GoStr → GoStr
  | [] => []
  | c :: rest =>
    (if c = old then new else [c]) ++ goReplaceAllCh old new rest

/-- `TruncateError` (archive.go lines 392-401): strip line breaks, then
truncate to `maxLength` bytes with a `...` suffix.  (Go computes
`maxLength-3` with `int` arithmetic; every call site passes 100, so the
natural-number truncation at 0 is never reached.) -/
def TruncateError (errMsg : GoStr) (maxLength : Nat) : GoStr :=
  let errMsg := goReplaceAllCh '\n' [' '] errMsg
  if errMsg.length ≤ maxLength then errMsg
  else errMsg.take (maxLength - 3) ++ gs "..."

/-- `preservationTagFailed` (preservation.go line 356). -/
def preservationTagFailed : GoStr := gs "‚ùå Failed"

/-- `preservationTagDipFailed` (preservation.go line 357). -/
def preservationTagDipFailed : GoStr := gs "‚ùå DIP Failed"

/-- `dipTagFailed` (preservation.go line 363): the same value as
`preservationTagFailed`. -/
def dipTagFailed : GoStr := preservationTagFailed

/-- The deferred failure-tagging block of `Preserver.Run`
(preservation.go lines 438-457): given whether the DIP stage was in
progress (`processingDip`) and the failing error's message, the values
written to the preservation tag and to the DIP tag (`none` = that tag is
not written by the block). -/
def runFailureTags (processingDip : Bool) (errMsg : GoStr) :
    Option GoStr × Option GoStr :=
  if ¬processingDip then
    (some (preservationTagFailed ++ gs ": " ++ TruncateError errMsg 100),
     none)
  else
    (some preservationTagDipFailed,
     some (dipTagFailed ++ gs ": " ++ TruncateError errMsg 100))

/-! ### Request fingerprints and in-flight deduplication
(`internal/server.go`) -/

/-- A Cells node reference in a request: `generateRequestID` reads only
its path. -/
structure CellsNode where
  path : GoStr
  uuid : GoStr
deriving DecidableEq

/-- The fields of `ServiceArgs` that `generateRequestID` and the dedup
step inspect. -/
structure ServiceArgs where
  cellsUsername : GoStr
  cellsPaths : List GoStr
  cellsNodes : List CellsNode

/-- `generateRequestID` (server.go lines 137-148): the username, then a
`:`-prefixed copy of every path in order, then of every node path in
order. -/
def generateRequestID (req : ServiceArgs) : GoStr :=
  let id := req.cellsUsername
  let id := req.cellsPaths.foldl (fun acc p => acc ++ ':' :: p) id
  let id := req.cellsNodes.foldl (fun acc n => acc ++ ':' :: n.path) id
  id

/-- The dedup step of `Handler` (server.go lines 116-123):
`activeRequests.LoadOrStore` — an already-present fingerprint is rejected
with HTTP 409 and the set is unchanged; otherwise it is inserted and the
request proceeds (`none`). -/
def handleDedup (active : List GoStr) (req : ServiceArgs) :
    Option Nat × List GoStr :=
  let requestID := generateRequestID req
  if requestID ∈ active then (some 409, active)
  else (none, requestID :: active)

/-- The deferred `activeRequests.Delete(requestID)` run on completion
(server.go line 123). -/
def completeRequest (active : List GoStr) (req : ServiceArgs) :
    List GoStr :=
  active.erase (generateRequestID req)

/-! ### Tag-namespace selection (`internal/preservation/preservation.go`
lines 344-345 and 780-788) -/

/-- The two package-level tag-namespace variables, shared by every run in
the process. -/
structure TagNamespaceState where
  preservationTagNamespace : GoStr
  dipTagNamespace : GoStr
deriving DecidableEq

/-- Their initial values (lines 344-345). -/
def initialTagNamespaces : TagNamespaceState :=
  ⟨gs "usermeta-preservation-status", gs "usermeta-dip-status"⟩

/-- The namespace step of `gatherNodeEnvironment` (lines 780-788):
`parentMeta` is the parent node's metaStore as a total map (absent key =
empty value).  A non-empty legacy key overwrites the corresponding
package-level variable; nothing ever resets it. -/
def gatherNamespaces (st : TagNamespaceState)
    (parentMeta : GoStr → GoStr) : TagNamespaceState :=
  let st1 :=
    if parentMeta (gs "usermeta-a3m-progress") ≠ [] then
      { st with preservationTagNamespace := gs "usermeta-a3m-progress" }
    else st
  if parentMeta (gs "usermeta-dip-progress") ≠ [] then
    { st1 with dipTagNamespace := gs "usermeta-dip-progress" }
  else st1

/-- The process state after a sequence of runs, each observing its parent
node's metaStore. -/
def foldRuns (st : TagNamespaceState) :
    List (GoStr → GoStr) → TagNamespaceState
  | [] => st
  | m :: rest => foldRuns (gatherNamespaces st m) rest

/-! ### CEC argument sanitisation (`internal/cells/cec.go`) -/

/-- `sanitizePathArg` (cec.go lines 14-24): `filepath.Clean`, then remove
`;`, `&`, `|`, backquote and `$` (and nothing else — in particular not
the two quote characters). -/
def sanitizePathArg (path : GoStr) : GoStr :=
  let cleaned := goClean path
  let cleaned := goReplaceAllCh ';' [] cleaned
  let cleaned := goReplaceAllCh '&' [] cleaned
  let cleaned := goReplaceAllCh '|' [] cleaned
  let cleaned := goReplaceAllCh (Char.ofNat 96) [] cleaned
  let cleaned := goReplaceAllCh '$' [] cleaned
  cleaned

/-- `sanitizeStringArg` (cec.go lines 27-39): remove `;`, `&`, `|`,
backquote, `$`, `"` and the apostrophe (no path cleaning). -/
def sanitizeStringArg (arg : GoStr) : GoStr :=
  let cleaned := goReplaceAllCh ';' [] arg
  let cleaned := goReplaceAllCh '&' [] cleaned
  let cleaned := goReplaceAllCh '|' [] cleaned
  let cleaned := goReplaceAllCh (Char.ofNat 96) [] cleaned
  let cleaned := goReplaceAllCh '$' [] cleaned
  let cleaned := goReplaceAllCh (Char.ofNat 34) [] cleaned
  let cleaned := goReplaceAllCh (Char.ofNat 39) [] cleaned
  cleaned

/-- The argument vector `cecDownloadNode` (cec.go lines 43-60) passes to
`exec.CommandContext` — the binary path first, then the flags; the token
is passed through unsanitised. -/
def cecDownloadArgs (cecPath address username token cellsSrc dest :
    GoStr) : List GoStr :=
  let cecPath := sanitizePathArg cecPath
  let address := sanitizeStringArg address
  let username := sanitizeStringArg username
  let cellsSrc := sanitizePathArg cellsSrc
  let dest := sanitizePathArg dest
  [cecPath, gs "scp", gs "-n", gs "--url", address, gs "--skip-verify",
   gs "--login", username, gs "--token", token,
   gs "cells://" ++ cellsSrc ++ gs "/", dest]

/-- The argument vector `cecUploadNode` (cec.go lines 64-81) passes to
`exec.CommandContext`. -/
def cecUploadArgs (cecPath address username token src cellsDest :
    GoStr) : List GoStr :=
  let cecPath := sanitizePathArg cecPath
  let address := sanitizeStringArg address
  let username := sanitizeStringArg username
  let src := sanitizePathArg src
  let cellsDest := sanitizePathArg cellsDest
  [cecPath, gs "scp", gs "-n", gs "--url", address, gs "--skip-verify",
   gs "--login", username, gs "--token", token, src,
   gs "cells://" ++ cellsDest ++ gs "/"]

/-- The five shell metacharacters `sanitizePathArg` removes. -/
def pathBadChars : List Char := [';', '&', '|', Char.ofNat 96, '$']

/-- The seven shell metacharacters `sanitizeStringArg` removes. -/
def strBadChars : List Char :=
  [';', '&', '|', Char.ofNat 96, '$', Char.ofNat 34, Char.ofNat 39]

/-! ### PREMIS preprocessing (`src/unnamed` processor package and
`pkg/premis`) -/

/-- Go `strings.Replace(s, old, new, 1)` inner loop: replace the first
occurrence of `old` (non-empty) in `s`. -/
def replaceFirstLoop (old new : GoStr) : GoStr → GoStr
  | [] => []
  | c :: rest =>
    if old.isPrefixOf (c :: rest) then new ++ (c :: rest).drop old.length
    else c :: replaceFirstLoop old new rest

/-- Go `strings.Replace(s, old, new, 1)`: with an empty `old` the single
allowed replacement is inserted before the string; otherwise the first
occurrence of `old` is replaced. -/
def goReplaceFirst (s old new : GoStr) : GoStr :=
  if old = [] then new ++ s else replaceFirstLoop old new s

/-- Go `strings.Trim(s, "\"")`: strip leading and trailing double-quote
characters. -/
def goTrimQuotes (s : GoStr) : GoStr :=
  ((s.dropWhile (fun c => decide (c = Char.ofNat 34))).reverse.dropWhile
    (fun c => decide (c = Char.ofNat 34))).reverse

/-- A decoded JSON value (the image of Go's `any` after
`json.Unmarshal`). -/
inductive JVal where
  | str : GoStr → JVal
  | num : Int → JVal
  | bool : Bool → JVal
  | null : JVal
  | arr : List JVal → JVal
  | obj : List (GoStr × JVal) → JVal

/-- A decoded JSON object (`map[string]any`). -/
abbrev JObj := List (GoStr × JVal)

/-- Go map lookup `m[k]` on a decoded JSON object (`nil` for an absent
key). -/
def jLookup (m : JObj) (k : GoStr) : Option JVal :=
  match m.find? (fun p => decide (p.1 = k)) with
  | some p => some p.2
  | none => none

/-- The Go type assertion `v.(map[string]any)` with its error message. -/
def fieldObj (v : Option JVal) (emsg : GoStr) : Except GoStr JObj :=
  match v with
  | some (JVal.obj o) => Except.ok o
  | _ => Except.error emsg

/-- The Go type assertion `v.(string)` with its error message. -/
def fieldStr (v : Option JVal) (emsg : GoStr) : Except GoStr GoStr :=
  match v with
  | some (JVal.str s) => Except.ok s
  | _ => Except.error emsg

/-- A PREMIS agent identifier (`premis.AgentIdentifier`). -/
structure AgentIdentifier where
  identifierType : GoStr
  identifierValue : GoStr

/-- A PREMIS agent (`premis.Agent`). -/
structure Agent where
  identifier : AgentIdentifier
  agentType : GoStr
  agentName : GoStr

/-- A PREMIS event (`premis.Event`), flattened to the fields the
processor fills in. -/
structure PremisEvent where
  identifierType : GoStr
  identifierValue : GoStr
  eventType : GoStr
  eventDateTime : GoStr
  eventDetail : GoStr
  eventOutcome : GoStr
  eventOutcomeDetailNote : GoStr
  linkingAgentIdentifiers : List AgentIdentifier

/-- A PREMIS object (`premis.Object`), flattened to the fields the
processor fills in. -/
structure PremisObject where
  xsiType : GoStr
  identifierType : GoStr
  identifierValue : GoStr
  formatName : GoStr
  originalName : GoStr
  linkingEventIdentifiers : List (GoStr × GoStr)

/-- The Go zero value `premis.Object{}`. -/
def emptyPremisObject : PremisObject := ⟨[], [], [], [], [], []⟩

/-- The PREMIS document root (`premis.Premis`). -/
structure Premis where
  xmlns : GoStr
  xsi : GoStr
  version : GoStr
  schema : GoStr
  objects : List PremisObject
  events : List PremisEvent
  agents : List Agent

/-- A Cells tree node as the processor sees it: path, UUID and the
metaStore as a total map (absent key = empty value). -/
structure TreeNode where
  path : GoStr
  uuid : GoStr
  metaStore : GoStr → GoStr

/-- `models.RestNodesCollection`: the parent node and the children. -/
structure NodesCollection where
  parent : TreeNode
  children : List TreeNode

/-- `models.IdmUser`, restricted to the fields the processor reads. -/
structure IdmUser where
  uuid : GoStr
  login : GoStr
  groupPath : GoStr

/-- The per-event field extraction of `constructPremisObjectsFromNode`
(part_019 lines 241-316): every field is fetched with a type assertion
and a mismatch aborts with the matching error message. -/
def buildPremisEvent (agents : List Agent) (ev : JObj) :
    Except GoStr PremisEvent := do
  let eventIdentifier ← fieldObj (jLookup ev (gs "event_identifier"))
    (gs "invalid event_identifier format")
  let identifierType ← fieldStr
    (jLookup eventIdentifier (gs "event_identifier_type"))
    (gs "invalid event_identifier_type format")
  let identifierValue ← fieldStr
    (jLookup eventIdentifier (gs "event_identifier_value"))
    (gs "invalid event_identifier_value format")
  let eventType ← fieldStr (jLookup ev (gs "event_type"))
    (gs "invalid event_type format")
  let eventDateTime ← fieldStr (jLookup ev (gs "event_date_time"))
    (gs "invalid event_date_time format")
  let eventDetailInfo ← fieldObj
    (jLookup ev (gs "event_detail_information"))
    (gs "invalid event_detail_information format")
  let eventDetail ← fieldStr (jLookup eventDetailInfo (gs "event_detail"))
    (gs "invalid event_detail format")
  let eventOutcomeInfo ← fieldObj
    (jLookup ev (gs "event_outcome_information"))
    (gs "invalid event_outcome_information format")
  let eventOutcome ← fieldStr
    (jLookup eventOutcomeInfo (gs "event_outcome"))
    (gs "invalid event_outcome format")
  let eventOutcomeDetail ← fieldObj
    (jLookup eventOutcomeInfo (gs "event_outcome_detail"))
    (gs "invalid event_outcome_detail format")
  let eventOutcomeDetailNote ← fieldStr
    (jLookup eventOutcomeDetail (gs "event_outcome_detail_note"))
    (gs "invalid event_outcome_detail_note format")
  Except.ok
    { identifierType := identifierType
      identifierValue := identifierValue
      eventType := eventType
      eventDateTime := eventDateTime
      eventDetail := eventDetail
      eventOutcome := eventOutcome
      eventOutcomeDetailNote := eventOutcomeDetailNote
      linkingAgentIdentifiers := agents.map (fun a => a.identifier) }

/-- The event-construction loop of `constructPremisObjectsFromNode`: one
`premis.Event` per decoded JSON event, in order, aborting on the first
malformed event. -/
def buildEvents (agents : List Agent) :
    List JObj → Except GoStr (List PremisEvent)
  | [] => Except.ok []
  | ev :: rest =>
    match buildPremisEvent agents ev with
    | Except.error e => Except.error e
    | Except.ok pe =>
      match buildEvents agents rest with
      | Except.error e => Except.error e
      | Except.ok pes => Except.ok (pe :: pes)

/-- `constructPremisObjectsFromNode` (part_019 lines 192-324).  JSON
array decoding (`json.Unmarshal` into `[]map[string]any`) is abstracted
as the parameter `decode`; the Go code skips the unmarshal when the
metaStore value is the empty string, and a decode failure aborts with an
unmarshalling error.  When neither key yields an event the zero object
and `nil` events (here `[]`) are returned. -/
def constructPremisObjectsFromNode (decode : GoStr → Option (List JObj))
    (premisAgents : List Agent) (node : TreeNode) (objectPath : GoStr) :
    Except GoStr (PremisObject × List PremisEvent) :=
  let premisObject : PremisObject :=
    { xsiType := gs "premis:file"
      identifierType := gs "UUID"
      identifierValue := node.uuid
      formatName := goTrimQuotes (node.metaStore (gs "mime"))
      originalName := objectPath
      linkingEventIdentifiers := [] }
  match (if node.metaStore (gs "premis") = [] then some []
         else decode (node.metaStore (gs "premis"))) with
  | none => Except.error (gs "error unmarshalling premis json array")
  | some evs1 =>
    match (if node.metaStore (gs "usermeta-premis-data") = [] then some []
           else decode (node.metaStore (gs "usermeta-premis-data"))) with
    | none => Except.error (gs "error unmarshalling premis json array")
    | some evs2 =>
      if (evs1 ++ evs2).length = 0 then Except.ok (emptyPremisObject, [])
      else
        match buildEvents premisAgents (evs1 ++ evs2) with
        | Except.error e => Except.error e
        | Except.ok pevs =>
          Except.ok
            ({ premisObject with
               linkingEventIdentifiers :=
                 pevs.map (fun e => (e.identifierType, e.identifierValue)) },
             pevs)

/-- The combined decode of a node's two PREMIS metaStore keys: `none` on
a decode failure, otherwise the concatenated event list. -/
def nodeDecodedEvents (decode : GoStr → Option (List JObj))
    (node : TreeNode) : Option (List JObj) :=
  match (if node.metaStore (gs "premis") = [] then some []
         else decode (node.metaStore (gs "premis"))),
        (if node.metaStore (gs "usermeta-premis-data") = [] then some []
         else decode (node.metaStore (gs "usermeta-premis-data"))) with
  | some a, some b => some (a ++ b)
  | _, _ => none

/-- Whether a node carries at least one decodable PREMIS event. -/
def nodeHasEventsB (decode : GoStr → Option (List JObj))
    (node : TreeNode) : Bool :=
  match nodeDecodedEvents decode node with
  | some l => decide (l.length ≠ 0)
  | none => false

/-- The PREMIS agents of `constructMetadataFromNodesCollection`
(part_019 lines 123-153): the preservation system (with
`version.Identifier()` abstracted as `versionIdent`), the Cells user,
and — when the organization name is non-empty — the organization. -/
def basePremisAgents (versionIdent : GoStr) (userData : IdmUser)
    (organization : GoStr) : List Agent :=
  let agents : List Agent :=
    [{ identifier := ⟨gs "Preservation System", versionIdent⟩
       agentType := gs "Software"
       agentName := gs "Curate Preservation System" },
     { identifier := ⟨gs "Cells User UUID", userData.uuid⟩
       agentType := gs "Curate User"
       agentName := gs "Login=" ++ userData.login ++ gs ", GroupPath="
         ++ userData.groupPath }]
  if organization ≠ [] then
    agents ++ [{ identifier := ⟨gs "Organization Name", organization⟩
                 agentType := gs "Organization"
                 agentName := organization }]
  else agents

/-- The node loop of `constructMetadataFromNodesCollection` (part_019
lines 158-182): the accumulator is (objects, events, metadata array).
A node contributes its object and events only when its event list is
non-`nil`; the Dublin-Core/ISAD(G) metadata construction
(`constructMetadataJSONFromNode`) is abstracted as `metaJson` (`none` =
the Go function returned `nil`). -/
def metaLoop (decode : GoStr → Option (List JObj))
    (metaJson : TreeNode → GoStr → Option JObj)
    (premisAgents : List Agent) (nodePrefix : GoStr) :
    List TreeNode →
    List PremisObject × List PremisEvent × List JObj →
    Except GoStr (List PremisObject × List PremisEvent × List JObj)
  | [], acc => Except.ok acc
  | node :: rest, acc =>
    let objectPath := goReplaceFirst node.path nodePrefix
      (gs "objects/data")
    match constructPremisObjectsFromNode decode premisAgents node
        objectPath with
    | Except.error e =>
      Except.error (gs "error constructing PREMIS object: " ++ e)
    | Except.ok (pobj, pevents) =>
      let acc1 :=
        if pevents.length ≠ 0 then
          (acc.1 ++ [pobj], acc.2.1 ++ pevents, acc.2.2)
        else acc
      let acc2 :=
        match metaJson node objectPath with
        | some m => (acc1.1, acc1.2.1, acc1.2.2 ++ [m])
        | none => acc1
      metaLoop decode metaJson premisAgents nodePrefix rest acc2

/-- `constructMetadataFromNodesCollection` (part_019 lines 117-190):
iterate over `children ++ [parent]` with the object path rewritten under
`objects/data`, and attach the agents to the document only when at least
one event was collected. -/
def constructMetadataFromNodesCollection
    (decode : GoStr → Option (List JObj))
    (metaJson : TreeNode → GoStr → Option JObj)
    (versionIdent : GoStr) (coll : NodesCollection) (userData : IdmUser)
    (organization : GoStr) : Except GoStr (Premis × List JObj) :=
  let premisAgents := basePremisAgents versionIdent userData organization
  let nodePrefix := goDir coll.parent.path
  match metaLoop decode metaJson premisAgents nodePrefix
      (coll.children ++ [coll.parent]) ([], [], []) with
  | Except.error e => Except.error e
  | Except.ok (objs, evs, metas) =>
    Except.ok
      ({ xmlns := gs "http://www.loc.gov/premis/v3"
         xsi := gs "http://www.w3.org/2001/XMLSchema-instance"
         version := gs "3.0"
         schema := gs "http://www.loc.gov/premis/v3 https://www.loc.gov/standards/premis/premis.xsd"
         objects := objs
         events := evs
         agents := if evs.length ≠ 0 then premisAgents else [] }, metas)

/-- A metadata-directory write of `PreprocessPackage`, with its file
mode. -/
inductive MetaWrite where
  | premisXml (path : GoStr) (perm : Nat)
  | metadataJson (path : GoStr) (perm : Nat)
deriving DecidableEq

/-- The metadata phase of `PreprocessPackage` (part_019 lines 85-109):
construct the metadata; when the PREMIS document has at least one object
validate it (`premis.ValidatePremis`, abstracted as `validate`, `none` =
valid) and write `metadata/premis.xml` — `premis.WritePremis` uses
`os.WriteFile` with mode 0600; when the metadata array is non-empty
write `metadata/metadata.json` with mode 0600. -/
def preprocessMetadataPhase (validate : Premis → Option GoStr)
    (decode : GoStr → Option (List JObj))
    (metaJson : TreeNode → GoStr → Option JObj)
    (versionIdent metadataDir : GoStr) (coll : NodesCollection)
    (userData : IdmUser) (organization : GoStr) :
    Except GoStr (List MetaWrite) :=
  match constructMetadataFromNodesCollection decode metaJson versionIdent
      coll userData organization with
  | Except.error e =>
    Except.error (gs "error constructing PREMIS XML: " ++ e)
  | Except.ok (premisObj, metadataArray) =>
    if premisObj.objects.length ≠ 0 then
      match validate premisObj with
      | some e => Except.error (gs "error validating PREMIS XML: " ++ e)
      | none =>
        Except.ok
          ([MetaWrite.premisXml (goJoin2 metadataDir (gs "premis.xml"))
              0o600]
            ++ (if metadataArray.length > 0 then
                  [MetaWrite.metadataJson
                    (goJoin2 metadataDir (gs "metadata.json")) 0o600]
                else []))
    else
      Except.ok
        (if metadataArray.length > 0 then
          [MetaWrite.metadataJson
            (goJoin2 metadataDir (gs "metadata.json")) 0o600]
        else [])

/-! ### Cells path resolution (`internal/cells/cells.go`) -/

/-- `strings.Split(s, "/")[0]`: the prefix of `s` before the first
slash. -/
def firstSegment (s : GoStr) : GoStr :=
  s.takeWhile (fun c => !decide (c = '/'))

/-- Go `strings.TrimSuffix`. -/
def goTrimSuffix (s suf : GoStr) : GoStr :=
  if suf.isSuffixOf s then s.take (s.length - suf.length) else s

/-- A workspace root node: its path and metaStore (total map, absent key
= empty value). -/
structure RootNode where
  path : GoStr
  metaStore : GoStr → GoStr

/-- `models.IdmWorkspace`, restricted to the fields `ResolveCellsPath`
reads.  `rootNodes = none` models a `nil` RootNodes map; the association
list fixes one iteration order of the Go map. -/
structure Workspace where
  slug : GoStr
  rootNodes : Option (List (GoStr × RootNode))

/-- The client's workspace collection. -/
structure WorkspaceCollection where
  workspaces : List Workspace

/-- The slug-lookup loop of `ResolveCellsPath` (cells.go lines 273-280):
the first workspace whose slug equals the path's first segment. -/
def findWorkspace (ws : List Workspace) (slug : GoStr) : Option Workspace :=
  ws.find? (fun w => decide (w.slug = slug))

/-- The root-node loop of `ResolveCellsPath` (cells.go lines 297-304):
remember the trimmed path of every `DATASOURCE` root seen so far, and
break with the metaStore resolution of the first non-`DATASOURCE`
root. -/
def findResolutionLoop : List (GoStr × RootNode) → GoStr → GoStr × GoStr
  | [], ds => ([], ds)
  | (root, rn) :: rest, ds =>
    if (gs "DATASOURCE").isPrefixOf root then
      findResolutionLoop rest (goTrimSuffix rn.path (gs "/"))
    else (rn.metaStore (gs "resolution"), ds)

/-- Whitespace for Go's regexp `\s`: `[\t\n\f\r ]`. -/
def isSpaceB (c : Char) : Bool :=
  decide (c = ' ') || decide (c = '\t') || decide (c = '\n')
    || decide (c = Char.ofNat 12) || decide (c = '\r')

/-- The lazy capture `(.*?)\s*;` of the resolution regex: extend the
capture one character at a time (never across a newline, which `.` does
not match) until the rest, after a whitespace run, starts with `;`. -/
def capLoop : GoStr → GoStr → Option GoStr
  | [], _ => none
  | c :: rest, accRev =>
    if ((c :: rest).dropWhile isSpaceB).head? = some ';' then
      some accRev.reverse
    else if c = '\n' then none
    else capLoop rest (c :: accRev)

/-- One anchored attempt of the regex `Path\s*=\s*(.*?)\s*;`. -/
def matchResolutionAt (s : GoStr) : Option GoStr :=
  if (gs "Path").isPrefixOf s then
    match (s.drop 4).dropWhile isSpaceB with
    | '=' :: s2 => capLoop (s2.dropWhile isSpaceB) []
    | _ => none
  else none

/-- The leftmost match of the resolution regex. -/
def findMatchLoop : GoStr → Option GoStr
  | [] => none
  | c :: rest =>
    match matchResolutionAt (c :: rest) with
    | some cap => some cap
    | none => findMatchLoop rest

/-- `parseWorkspaceResolution` (cells.go lines 384-393): the first
capture of `Path\s*=\s*(.*?)\s*;` in the resolution string, or a parse
error when the regex does not match. -/
def parseWorkspaceResolution (resolution : GoStr) : Except GoStr GoStr :=
  match findMatchLoop resolution with
  | some cap => Except.ok cap
  | none => Except.error (gs "failed to parse resolution")

/-- The replacement pairs of `resolveResolution`'s `strings.NewReplacer`
(cells.go lines 400-405), in argument order; the second pattern is the
five characters `+"/"+`. -/
def replacerPatterns (username groupname : GoStr) : List (GoStr × GoStr) :=
  [(gs "DataSources.", []),
   (['+', Char.ofNat 34, '/', Char.ofNat 34, '+'], gs "/"),
   (gs "User.Name", username),
   (gs "User.Group", groupname)]

/-- The first pattern (in argument order) matching at the head of
`s`. -/
def tryPatterns (s : GoStr) :
    List (GoStr × GoStr) → Option (GoStr × GoStr)
  | [] => none
  | (pat, rep) :: rest =>
    if pat.isPrefixOf s then some (pat, rep) else tryPatterns s rest

/-- `strings.Replacer.Replace`: scan left to right, replacing the first
matching pattern without rescanning the replacement.  `fuel` bounds the
recursion; every step consumes at least one input character, so
`s.length` fuel suffices (an empty pattern never occurs among our
patterns and is skipped over one character). -/
def goReplacerFuel (pats : List (GoStr × GoStr)) :
    Nat → GoStr → GoStr
  | 0, s => s
  | _ + 1, [] => []
  | fuel + 1, c :: rest =>
    match tryPatterns (c :: rest) pats with
    | some (pat, rep) =>
      if pat = [] then c :: goReplacerFuel pats fuel rest
      else rep ++ goReplacerFuel pats fuel ((c :: rest).drop pat.length)
    | none => c :: goReplacerFuel pats fuel rest

/-- `strings.Replacer.Replace` on the whole string. -/
def goReplacerRun (pats : List (GoStr × GoStr)) (s : GoStr) : GoStr :=
  goReplacerFuel pats s.length s

/-- `resolveResolution` (cells.go lines 395-409): strip every space,
then apply the replacer (`DataSources.` removed, `+"/"+` collapsed to a
slash, `User.Name` and `User.Group` substituted). -/
def resolveResolution (resolutionPath username groupname : GoStr) :
    GoStr :=
  goReplacerRun (replacerPatterns username groupname)
    (goReplaceAllCh ' ' [] resolutionPath)

/-- A workspace with a resolution template, used to evaluate the
resolution pipeline on concrete input. -/
def wsExample : Workspace where
  slug := gs "ws"
  rootNodes := some [(gs "root-1",
    { path := gs "pydiods1/"
      metaStore := fun k =>
        if k = gs "resolution" then
          gs "Path = DataSources.personal + \"/\" + User.Name;"
        else [] })]

/-- A collection holding only `wsExample`. -/
def wsExampleCollection : WorkspaceCollection where
  workspaces := [wsExample]

/-- `Client.ResolveCellsPath` (cells.go lines 264-338).  The node-stat
probe of the datasource fallback (`GetNodeStats`) is abstracted as
`stat`. -/
def resolveCellsPath (stat : GoStr → Bool) (coll : WorkspaceCollection)
    (login group : GoStr) (cellsPath : GoStr) : Except GoStr GoStr :=
  let workspaceRoot := firstSegment cellsPath
  match findWorkspace coll.workspaces workspaceRoot with
  | none => Except.error (gs "workspace not found: " ++ workspaceRoot)
  | some workspace =>
    match workspace.rootNodes with
    | none =>
      Except.error (gs "workspace has no root nodes: " ++ workspaceRoot)
    | some roots =>
      match findResolutionLoop roots [] with
      | (resolution, datasource) =>
        if resolution = [] then
          if datasource = [] then
            Except.error
              (gs "no resolution or datasource found for workspace: "
                ++ workspaceRoot)
          else
            let resolvedPath :=
              goReplaceFirst cellsPath workspaceRoot datasource
            if stat resolvedPath then Except.ok resolvedPath
            else
              Except.error
                (gs "resolved path does not exist: " ++ resolvedPath)
        else
          match parseWorkspaceResolution resolution with
          | Except.error e =>
            Except.error (gs "error parsing resolution: " ++ e)
          | Except.ok resolutionPath =>
            Except.ok (goReplaceFirst cellsPath workspaceRoot
              (resolveResolution resolutionPath login group))

/-! ### APS admission control (`src/unnamed` a3m client,
`Client.SubmitPackage`) -/

/-- Where one `SubmitPackage` call stands in its life cycle (part_017
lines 97-113): blocked at the token `select`; token acquired but the
Submit RPC not yet issued; Submit RPC issued (processing / polling);
returned with the deferred token release executed; or returned with a
cancellation error from the `select` without ever acquiring a token. -/
inductive Phase where
  | waiting
  | acquired
  | submitted
  | done
  | cancelledWait
deriving DecidableEq

/-- An interleaving event of the concurrent callers, by caller index:
winning the `processingTokens <- struct{}{}` send; losing the `select`
to `ctx.Done()`; issuing the Submit RPC; or returning (any terminal
path), which runs the deferred `<-c.processingTokens` release. -/
inductive A3mEvent where
  | acquire (i : Nat)
  | cancelWait (i : Nat)
  | submitRPC (i : Nat)
  | finish (i : Nat)
deriving DecidableEq

/-- The caller an event belongs to. -/
def A3mEvent.idx : A3mEvent → Nat
  | acquire i => i
  | cancelWait i => i
  | submitRPC i => i
  | finish i => i

/-- The shared state: the channel capacity (`maxActive`), the number of
tokens currently in `processingTokens`, and each caller's phase. -/
structure A3mState where
  cap : Nat
  tokens : Nat
  callers : List Phase

/-- One interleaving step.  A buffered-channel send succeeds only while
`tokens < cap`; every guard mirrors the control flow of
`SubmitPackage`. -/
def a3mStep (st : A3mState) (e : A3mEvent) : Option A3mState :=
  match e with
  | A3mEvent.acquire i =>
    match st.callers[i]? with
    | some Phase.waiting =>
      if st.tokens < st.cap then
        some { st with tokens := st.tokens + 1,
                       callers := st.callers.set i Phase.acquired }
      else none
    | _ => none
  | A3mEvent.cancelWait i =>
    match st.callers[i]? with
    | some Phase.waiting =>
      some { st with callers := st.callers.set i Phase.cancelledWait }
    | _ => none
  | A3mEvent.submitRPC i =>
    match st.callers[i]? with
    | some Phase.acquired =>
      some { st with callers := st.callers.set i Phase.submitted }
    | _ => none
  | A3mEvent.finish i =>
    match st.callers[i]? with
    | some Phase.submitted =>
      some { st with tokens := st.tokens - 1,
                     callers := st.callers.set i Phase.done }
    | _ => none

/-- Run a sequence of interleaving events. -/
def a3mRun : A3mState → List A3mEvent → Option A3mState
  | st, [] => some st
  | st, e :: tr =>
    match a3mStep st e with
    | some st2 => a3mRun st2 tr
    | none => none

/-- The state before any caller moves: `NewClient` makes the channel
with capacity `cap` (1 by default) and it starts empty; `n` callers are
about to enter `SubmitPackage`. -/
def a3mInit (cap n : Nat) : A3mState :=
  ⟨cap, 0, List.replicate n Phase.waiting⟩

/-- 1 when a caller holds an admission token (acquired or submitted),
0 otherwise. -/
def holdB (p : Phase) : Nat :=
  if p = Phase.acquired ∨ p = Phase.submitted then 1 else 0

/-- How many callers currently hold an admission token. -/
def countHolding (ps : List Phase) : Nat := (ps.map holdB).sum

/-- The channel invariant: tokens in the channel match the callers
holding one, and never exceed the capacity. -/
def a3mInv (st : A3mState) : Prop :=
  st.tokens = countHolding st.callers ∧ st.tokens ≤ st.cap

/-! ### Directory trees and `CompressToZip` (archive.go lines 323-387) -/

mutual
/-- A directory tree: file nodes carry contents and a recorded mode,
directory nodes carry a recorded mode and children. -/
inductive FsTree where
  | file (name content : GoStr) (mode : Nat) : FsTree
  | dir (name : GoStr) (mode : Nat) (children : Forest) : FsTree
/-- The children of a directory, in `filepath.Walk` visiting order. -/
inductive Forest where
  | nil : Forest
  | cons (t : FsTree) (ts : Forest) : Forest
end

mutual
/-- The ZIP entries `CompressToZip` emits while walking a tree whose
relative path from the walk root is the segment list `psegs`: the walk
skips the root itself, visits a directory before its children, uses the
slash-joined relative path as the entry name (directories get a trailing
slash), records the node's mode in the header, and copies file
contents. -/
def entriesOfTree : List GoStr → FsTree → List ArchiveEntry
  | psegs, FsTree.file n c m => [⟨joinSl (psegs ++ [n]), false, c, m⟩]
  | psegs, FsTree.dir n m cs =>
    ⟨joinSl (psegs ++ [n]) ++ ['/'], true, [], m⟩
      :: entriesOfForest (psegs ++ [n]) cs
/-- `entriesOfTree` over a forest of siblings. -/
def entriesOfForest : List GoStr → Forest → List ArchiveEntry
  | _, Forest.nil => []
  | psegs, Forest.cons t ts =>
    entriesOfTree psegs t ++ entriesOfForest psegs ts
end

mutual
/-- Every node name is a plain path element (non-empty, slash-free, not
`.` or `..`) — what a real walk produces. -/
def wfTree : FsTree → Bool
  | FsTree.file n _ _ => decide (goodSeg n)
  | FsTree.dir n _ cs => decide (goodSeg n) && wfForest cs
/-- `wfTree` over a forest. -/
def wfForest : Forest → Bool
  | Forest.nil => true
  | Forest.cons t ts => wfTree t && wfForest ts
end

mutual
/-- The writes `ExtractZip` performs for the entries of one tree under
the cleaned destination `D`: directories via `CreateDir` (0755), files
via `CreateDir` on the parent (0755) and `os.Create` (0666) — the
recorded modes are not consulted. -/
def writesOfTree : GoStr → List GoStr → FsTree → List FsWrite
  | D, psegs, FsTree.file n c _ =>
    [FsWrite.mkdir (goDir (D ++ '/' :: joinSl (psegs ++ [n]))) 0o755,
     FsWrite.create (D ++ '/' :: joinSl (psegs ++ [n])) c 0o666]
  | D, psegs, FsTree.dir n _ cs =>
    FsWrite.mkdir (D ++ '/' :: joinSl (psegs ++ [n])) 0o755
      :: writesOfForest D (psegs ++ [n]) cs
/-- `writesOfTree` over a forest. -/
def writesOfForest : GoStr → List GoStr → Forest → List FsWrite
  | _, _, Forest.nil => []
  | D, psegs, Forest.cons t ts =>
    writesOfTree D psegs t ++ writesOfForest D psegs ts
end

/-- A sample tree (a directory with mode 0700 holding one file with mode
0600), used to evaluate the compression/extraction pipeline. -/
def zipExampleForest : Forest :=
  Forest.cons (FsTree.dir (gs "d") 0o700
    (Forest.cons (FsTree.file (gs "a") (gs "hi") 0o600) Forest.nil))
    Forest.nil

end Curate

namespace Curate

/-! ## Theorems -/

/-! ### Prefix order and list helpers -/

theorem hasPref_iff_append (pre s : GoStr) :
    hasPref pre s ↔ ∃ t, s = pre ++ t := by
  constructor
  · intro h
    refine ⟨s.drop pre.length, ?_⟩
    nth_rewrite 1 [← List.take_append_drop pre.length s]
    rw [h]
  · rintro ⟨t, rfl⟩
    unfold hasPref
    rw [List.take_append_eq_append_take, List.take_length,
      Nat.sub_self, List.take_zero, List.append_nil]

theorem isPrefixOf_iff_take (pre s : GoStr) :
    pre.isPrefixOf s = true ↔ s.take pre.length = pre := by
  induction pre generalizing s with
  | nil => simp [List.isPrefixOf]
  | cons c pre ih =>
    cases s with
    | nil => simp [List.isPrefixOf]
    | cons d s =>
      simp only [List.isPrefixOf, List.length_cons, List.take_succ_cons,
        Bool.and_eq_true, beq_iff_eq, List.cons.injEq, ih]
      tauto

theorem goHasPref_iff (s pre : GoStr) :
    goHasPref s pre = true ↔ hasPref pre s := by
  unfold goHasPref hasPref
  exact isPrefixOf_iff_take pre s

theorem lenDropWhileLe (p : Char → Bool) :
    ∀ l : List Char, (List.dropWhile p l).length ≤ l.length := by
  intro l
  induction l with
  | nil => simp [List.dropWhile]
  | cons c rest ih =>
    by_cases h : p c
    · simp only [List.dropWhile, h]
      exact Nat.le_succ_of_le ih
    · simp only [List.dropWhile, h]
      simp

/-! ### Step lemmas for `cleanLoop` -/

theorem cl_nil (r m : Bool) (dd : Nat) (out : List Char) :
    cleanLoop r m dd out [] = (m, dd, out) := by cases m <;> rfl

theorem cl_slash (r m : Bool) (dd : Nat) (out rest : List Char) :
    cleanLoop r m dd out ('/' :: rest) = cleanLoop r false dd out rest := by
  cases m <;> rfl

theorem cl_dot_nil (r : Bool) (dd : Nat) (out : List Char) :
    cleanLoop r false dd out ['.'] = (false, dd, out) := rfl

theorem cl_dot_slash (r : Bool) (dd : Nat) (out rest : List Char) :
    cleanLoop r false dd out ('.' :: '/' :: rest) =
      cleanLoop r false dd out rest := rfl

theorem cl_dd_nil (r : Bool) (dd : Nat) (out : List Char) :
    cleanLoop r false dd out ['.', '.'] =
      (false, (dotdotStep r dd out).1, (dotdotStep r dd out).2) := rfl

theorem cl_dd_slash (r : Bool) (dd : Nat) (out rest : List Char) :
    cleanLoop r false dd out ('.' :: '.' :: '/' :: rest) =
      cleanLoop r false (dotdotStep r dd out).1 (dotdotStep r dd out).2
        rest := rfl

theorem cl_mid (r : Bool) (dd : Nat) (out rest : List Char) (c : Char)
    (h : c ≠ '/') :
    cleanLoop r true dd out (c :: rest) =
      cleanLoop r true dd (c :: out) rest := by
  rw [cleanLoop.eq_def]
  split <;> simp_all

theorem cl_seg (r : Bool) (dd : Nat) (out rest : List Char) (c : Char)
    (h : c ≠ '/')
    (h2 : ¬(c = '.' ∧ (rest = [] ∨ rest.head? = some '/')))
    (h3 : ¬(c = '.' ∧ rest.head? = some '.' ∧
      (rest.tail = [] ∨ rest.tail.head? = some '/'))) :
    cleanLoop r false dd out (c :: rest) =
      cleanLoop r true dd
        (c :: (if (r = true ∧ out.length ≠ 1) ∨ (¬r = true ∧ out.length ≠ 0)
          then '/' :: out else out)) rest := by
  rw [cleanLoop.eq_def]
  split <;> simp_all

/-- Copying the inside of a path element byte by byte. -/
theorem cl_copy (r : Bool) (dd : Nat) (u : List Char) :
    ∀ (out rest : List Char), (∀ c ∈ u, c ≠ '/') →
    cleanLoop r true dd out (u ++ rest) =
      cleanLoop r true dd (u.reverse ++ out) rest := by
  induction u with
  | nil => intro out rest _; simp
  | cons c u ih =>
    intro out rest hu
    have hc : c ≠ '/' := hu c (by simp)
    rw [List.cons_append, cl_mid r dd out (u ++ rest) c hc,
      ih (c :: out) rest (fun x hx => hu x (by simp [hx]))]
    simp

/-- Processing one whole good path element: the element is copied and the
loop proceeds with what follows.  (No assumption on `rest` is needed: a good
element can never merge with the continuation into a `.` or `..` pattern.) -/
theorem cl_seg_run (r : Bool) (dd : Nat) (s : List Char)
    (out rest : List Char) (hs : goodSeg s) :
    cleanLoop r false dd out (s ++ rest) =
      cleanLoop r true dd
        (s.reverse ++
          (if (r = true ∧ out.length ≠ 1) ∨ (¬r = true ∧ out.length ≠ 0)
            then '/' :: out else out)) rest := by
  obtain ⟨hne, hnosl, hnd, hndd⟩ := hs
  cases s with
  | nil => exact absurd rfl hne
  | cons c u =>
    have hc : c ≠ '/' := hnosl c (by simp)
    have hg2 : ¬(c = '.' ∧ ((u ++ rest) = [] ∨ (u ++ rest).head? = some '/')) := by
      rintro ⟨rfl, hor⟩
      cases u with
      | nil => exact hnd (by simp)
      | cons d u' =>
        have hd : d ≠ '/' := hnosl d (by simp)
        rcases hor with h | h
        · simp at h
        · simp at h
          exact hd h
    have hg3 : ¬(c = '.' ∧ (u ++ rest).head? = some '.' ∧
        (((u ++ rest).tail = [] ∨ (u ++ rest).tail.head? = some '/'))) := by
      rintro ⟨rfl, hh, ht⟩
      cases u with
      | nil => exact hnd rfl
      | cons d u' =>
        simp at hh
        subst hh
        cases u' with
        | nil =>
          exact hndd (by simp)
        | cons e u'' =>
          have he : e ≠ '/' := hnosl e (by simp)
          rcases ht with h | h
          · simp at h
          · simp at h
            exact he h
    rw [List.cons_append, cl_seg r dd out (u ++ rest) c hc hg2 hg3,
      cl_copy r dd u _ rest (fun x hx => hnosl x (by simp [hx]))]
    simp

/-! ### `backRev` on rendered buffers -/

theorem backRev_stop_slash (d : Nat) (u rest2 : List Char) (hu : u ≠ [])
    (hnosl : ∀ c ∈ u, c ≠ '/') (hlen : d ≤ rest2.length) :
    backRev d (u ++ '/' :: rest2) = rest2 := by
  induction u with
  | nil => exact absurd rfl hu
  | cons c u ih =>
    have hc : c ≠ '/' := hnosl c (by simp)
    cases u with
    | nil =>
      simp only [List.nil_append, List.cons_append, backRev]
      rw [if_pos (by simp [hc]; omega)]
      simp [backRev]
    | cons e u' =>
      simp only [List.cons_append, backRev]
      rw [if_pos (by simp [hc]; omega)]
      exact ih (by simp) (fun x hx => hnosl x (by simp [hx]))

theorem backRev_stop_len (d : Nat) (u rest : List Char) (hu : u ≠ [])
    (hnosl : ∀ c ∈ u, c ≠ '/') (hlen : rest.length = d) :
    backRev d (u ++ rest) = rest := by
  induction u with
  | nil => exact absurd rfl hu
  | cons c u ih =>
    cases u with
    | nil =>
      simp only [List.nil_append, List.cons_append, backRev]
      rw [if_neg (by rintro ⟨h1, -⟩; simp at h1; omega)]
      simp
    | cons e u' =>
      have hc : c ≠ '/' := hnosl c (by simp)
      simp only [List.cons_append, backRev]
      rw [if_pos (by simp [hc]; omega)]
      exact ih (by simp) (fun x hx => hnosl x (by simp [hx]))

/-! ### `joinSl` structure -/

theorem joinSl_cons (s : List Char) (rest : List (List Char))
    (h : rest ≠ []) : joinSl (s :: rest) = s ++ '/' :: joinSl rest := by
  cases rest with
  | nil => exact absurd rfl h
  | cons t r => rfl

theorem joinSl_append (a b : List (List Char)) (ha : a ≠ []) (hb : b ≠ []) :
    joinSl (a ++ b) = joinSl a ++ '/' :: joinSl b := by
  induction a with
  | nil => exact absurd rfl ha
  | cons s a ih =>
    cases a with
    | nil =>
      cases b with
      | nil => exact absurd rfl hb
      | cons t r => simp [joinSl_cons, joinSl]
    | cons s' a' =>
      rw [List.cons_append, joinSl_cons s ((s' :: a') ++ b) (by simp),
        joinSl_cons s (s' :: a') (by simp), ih (by simp)]
      simp

theorem joinSl_ne_nil (comps : List (List Char)) (h : comps ≠ [])
    (h2 : ∀ s ∈ comps, s ≠ []) : joinSl comps ≠ [] := by
  cases comps with
  | nil => exact absurd rfl h
  | cons s rest =>
    cases rest with
    | nil => simpa [joinSl] using h2 s (by simp)
    | cons t r =>
      rw [joinSl_cons s (t :: r) (by simp)]
      simp

theorem len_joinSl_mono (a b : List (List Char)) :
    (joinSl a).length ≤ (joinSl (a ++ b)).length := by
  cases a with
  | nil => simp [joinSl]
  | cons s r =>
    cases b with
    | nil => simp
    | cons t r' =>
      rw [joinSl_append (s :: r) (t :: r') (by simp) (by simp)]
      simp

theorem goodSeg_ne_nil (s : List Char) (h : goodSeg s) : s ≠ [] := h.1

theorem replicate_dd_all_ne (k : Nat) :
    ∀ s ∈ List.replicate k ddSeg, s ≠ [] := by
  intro s hs
  rw [List.eq_of_mem_replicate hs]
  simp [ddSeg]

/-- Appending one good element to a boundary-state buffer, with the
separator-insertion rule of the `default:` branch. -/
theorem outForm_push (r : Bool) (k : Nat) (cur : List (List Char))
    (u : List Char) (hcur : ∀ s ∈ cur, s ≠ []) (hk : r = true → k = 0) :
    u.reverse ++
      (if (r = true ∧ (outForm r k cur).length ≠ 1) ∨
          (¬r = true ∧ (outForm r k cur).length ≠ 0)
        then '/' :: outForm r k cur else outForm r k cur) =
      outForm r k (cur ++ [u]) := by
  cases r with
  | true =>
    have hk0 : k = 0 := hk rfl
    subst hk0
    cases hc : cur with
    | nil =>
      simp [outForm, rendRoot, joinSl]
    | cons s rest =>
      have hne : joinSl cur ≠ [] := by
        rw [hc]; exact joinSl_ne_nil _ (by simp) (by rw [← hc]; exact hcur)
      rw [← hc]
      have hjlen : 1 ≤ (joinSl cur).length := List.length_pos.mpr hne
      have hleq : (outForm true 0 cur).length = (joinSl cur).length + 1 := by
        simp [outForm, rendRoot]
      have hlen : (outForm true 0 cur).length ≠ 1 := by
        rw [hleq]; omega
      rw [if_pos (Or.inl ⟨rfl, hlen⟩)]
      have hjoin : joinSl (cur ++ [u]) = joinSl cur ++ '/' :: u :=
        joinSl_append cur [u] (by rw [hc]; simp) (by simp)
      simp [outForm, rendRoot, hjoin]
  | false =>
    by_cases hz : k = 0 ∧ cur = []
    · obtain ⟨rfl, rfl⟩ := hz
      simp [outForm, rendRel, joinSl]
    · have hcomps : List.replicate k ddSeg ++ cur ≠ [] := by
        intro hc
        rcases List.append_eq_nil.mp hc with ⟨h1, h2⟩
        exact hz ⟨by simpa using congrArg List.length h1, h2⟩
      have hne : joinSl (List.replicate k ddSeg ++ cur) ≠ [] := by
        refine joinSl_ne_nil _ hcomps ?_
        intro s hs
        rcases List.mem_append.mp hs with h | h
        · rw [List.eq_of_mem_replicate h]; simp [ddSeg]
        · exact hcur s h
      have hlen : (outForm false k cur).length ≠ 0 := by
        simp only [outForm, rendRel]
        simp only [Bool.false_eq_true, if_false, List.length_reverse]
        intro hcon
        exact hne (List.length_eq_zero.mp hcon)
      rw [if_pos (Or.inr ⟨by simp, hlen⟩)]
      have hjoin : joinSl (List.replicate k ddSeg ++ (cur ++ [u])) =
          joinSl (List.replicate k ddSeg ++ cur) ++ '/' :: u := by
        rw [← List.append_assoc]
        exact joinSl_append _ [u] hcomps (by simp)
      simp [outForm, rendRel, hjoin]

theorem rendRel_nil_ne (j : Nat) (hj : j ≠ 0) : rendRel j [] ≠ [] := by
  simp only [rendRel, List.append_nil]
  apply joinSl_ne_nil
  · simpa [List.replicate_eq_nil_iff] using hj
  · exact replicate_dd_all_ne j

theorem rendRel_succ_nil (j : Nat) (hj : j ≠ 0) :
    rendRel (j + 1) [] = rendRel j [] ++ '/' :: ddSeg := by
  have hrep : List.replicate (j + 1) ddSeg =
      List.replicate j ddSeg ++ [ddSeg] := List.replicate_succ' ..
  simp only [rendRel, List.append_nil, hrep]
  apply joinSl_append
  · simpa [List.replicate_eq_nil_iff] using hj
  · simp

/-- The `..` element appends a literal `..` when the buffer holds only
`..` elements already (the not-rooted, cannot-backtrack branch). -/
theorem dotdotStep_dots (j : Nat) :
    dotdotStep false (ddLen j) ((rendRel j []).reverse) =
      (ddLen (j + 1), (rendRel (j + 1) []).reverse) := by
  have hlen : ((rendRel j []).reverse).length = ddLen j := by
    simp [ddLen]
  unfold dotdotStep
  rw [if_neg (by omega), if_pos (by simp)]
  by_cases hj : j = 0
  · subst hj
    simp [rendRel, ddLen, joinSl, ddSeg]
  · have hne : rendRel j [] ≠ [] := rendRel_nil_ne j hj
    have hpos : ((rendRel j []).reverse).length > 0 := by
      simp only [List.length_reverse]
      exact List.length_pos.mpr hne
    rw [if_pos hpos]
    have hjoin : rendRel (j + 1) [] = rendRel j [] ++ '/' :: ddSeg :=
      rendRel_succ_nil j hj
    have h2 : (rendRel (j + 1) []).reverse =
        '.' :: '.' :: '/' :: (rendRel j []).reverse := by
      rw [hjoin]
      simp [ddSeg]
    have h1 : ddLen (j + 1) =
        ('.' :: '.' :: '/' :: (rendRel j []).reverse).length := by
      simp only [ddLen, ← h2, List.length_reverse]
    exact Prod.ext h1.symm h2.symm

/-- The `..` element backtracks one element when the buffer holds one. -/
theorem dotdotStep_back (r : Bool) (k : Nat) (cur : List (List Char))
    (last : List Char) (hlast : last ≠ []) (hnosl : ∀ c ∈ last, c ≠ '/')
    (hcur : ∀ s ∈ cur, s ≠ []) (hk : r = true → k = 0) :
    dotdotStep r (ddForm r k) (outForm r k (cur ++ [last])) =
      (ddForm r k, outForm r k cur) := by
  have hlastrev : last.reverse ≠ [] := by simpa using hlast
  have hlastnosl : ∀ c ∈ last.reverse, c ≠ '/' := by
    intro c hc2; exact hnosl c (by simpa using hc2)
  have hlastlen : 1 ≤ last.length := List.length_pos.mpr hlast
  cases r with
  | true =>
    have hk0 : k = 0 := hk rfl
    subst hk0
    have hddf : ddForm true 0 = 1 := by simp [ddForm]
    cases hc : cur with
    | nil =>
      have hout : outForm true 0 ([] ++ [last]) = last.reverse ++ ['/'] := by
        simp [outForm, rendRoot, joinSl]
      have hcond : (1 : Nat) < (last.reverse ++ ['/']).length := by
        simp only [List.length_append, List.length_reverse,
          List.length_cons, List.length_nil]
        omega
      have hback : backRev 1 (last.reverse ++ ['/']) = ['/'] :=
        backRev_stop_len 1 last.reverse ['/'] hlastrev hlastnosl (by simp)
      unfold dotdotStep
      rw [hddf, hout, if_pos hcond, hback]
      simp [outForm, rendRoot, joinSl]
    | cons s rest =>
      rw [← hc]
      have hcurne : cur ≠ [] := by rw [hc]; simp
      have hjoin : joinSl (cur ++ [last]) = joinSl cur ++ '/' :: last :=
        joinSl_append cur [last] hcurne (by simp)
      have hout : outForm true 0 (cur ++ [last]) =
          last.reverse ++ '/' :: ((joinSl cur).reverse ++ ['/']) := by
        simp [outForm, rendRoot, hjoin]
      have hjne : joinSl cur ≠ [] := joinSl_ne_nil cur hcurne hcur
      have hjlen : 1 ≤ (joinSl cur).length := List.length_pos.mpr hjne
      have hcond : (1 : Nat) <
          (last.reverse ++ '/' :: ((joinSl cur).reverse ++ ['/'])).length := by
        simp only [List.length_append, List.length_cons,
          List.length_reverse, List.length_nil]
        omega
      have hback : backRev 1
          (last.reverse ++ '/' :: ((joinSl cur).reverse ++ ['/'])) =
          (joinSl cur).reverse ++ ['/'] := by
        refine backRev_stop_slash 1 last.reverse _ hlastrev hlastnosl ?_
        simp only [List.length_append, List.length_reverse,
          List.length_cons, List.length_nil]
        omega
      unfold dotdotStep
      rw [hddf, hout, if_pos hcond, hback]
      simp [outForm, rendRoot]
  | false =>
    have hddf : ddForm false k = ddLen k := by simp [ddForm]
    by_cases hz : k = 0 ∧ cur = []
    · obtain ⟨rfl, rfl⟩ := hz
      have hout : outForm false 0 ([] ++ [last]) = last.reverse := by
        simp [outForm, rendRel, joinSl]
      have hdd0 : ddLen 0 = 0 := by simp [ddLen, rendRel, joinSl]
      have hcond : ddLen 0 < (last.reverse).length := by
        rw [hdd0]; simpa using hlastlen
      have hback : backRev (ddLen 0) last.reverse = [] := by
        have := backRev_stop_len (ddLen 0) last.reverse [] hlastrev
          hlastnosl (by rw [hdd0]; simp)
        simpa using this
      unfold dotdotStep
      rw [hddf, hout, if_pos hcond, hback]
      simp [outForm, rendRel, joinSl]
    · have hcomps : List.replicate k ddSeg ++ cur ≠ [] := by
        intro hc
        rcases List.append_eq_nil.mp hc with ⟨h1, h2⟩
        exact hz ⟨by simpa using congrArg List.length h1, h2⟩
      have hallne : ∀ s ∈ List.replicate k ddSeg ++ cur, s ≠ [] := by
        intro s hs
        rcases List.mem_append.mp hs with h | h
        · rw [List.eq_of_mem_replicate h]; simp [ddSeg]
        · exact hcur s h
      have hjne : joinSl (List.replicate k ddSeg ++ cur) ≠ [] :=
        joinSl_ne_nil _ hcomps hallne
      have hjlen : 1 ≤ (joinSl (List.replicate k ddSeg ++ cur)).length :=
        List.length_pos.mpr hjne
      have hmono : ddLen k ≤
          (joinSl (List.replicate k ddSeg ++ cur)).length := by
        simpa [ddLen, rendRel] using
          len_joinSl_mono (List.replicate k ddSeg) cur
      have hjoin : joinSl (List.replicate k ddSeg ++ (cur ++ [last])) =
          joinSl (List.replicate k ddSeg ++ cur) ++ '/' :: last := by
        rw [← List.append_assoc]
        exact joinSl_append _ [last] hcomps (by simp)
      have hout : outForm false k (cur ++ [last]) =
          last.reverse ++ '/' ::
            (joinSl (List.replicate k ddSeg ++ cur)).reverse := by
        simp [outForm, rendRel, hjoin]
      have hcond : ddLen k <
          (last.reverse ++ '/' ::
            (joinSl (List.replicate k ddSeg ++ cur)).reverse).length := by
        simp only [List.length_append, List.length_cons,
          List.length_reverse]
        omega
      have hback : backRev (ddLen k)
          (last.reverse ++ '/' ::
            (joinSl (List.replicate k ddSeg ++ cur)).reverse) =
          (joinSl (List.replicate k ddSeg ++ cur)).reverse := by
        refine backRev_stop_slash _ last.reverse _ hlastrev hlastnosl ?_
        simp only [List.length_reverse]
        exact hmono
      unfold dotdotStep
      rw [hddf, hout, if_pos hcond, hback]
      simp [outForm, rendRel]

/-! ### Running `cleanLoop` over canonically rendered input -/

/-- Processing a run of good elements from a boundary state appends them to
the buffer; `dotdot` is untouched. -/
theorem cl_segs_run (r : Bool) (dd : Nat) :
    ∀ (segs : List (List Char)) (k : Nat) (cur : List (List Char))
      (rest : List Char),
      (∀ s ∈ segs, goodSeg s) → (∀ s ∈ cur, s ≠ []) → (r = true → k = 0) →
      ∃ m, cleanLoop r false dd (outForm r k cur) (joinSl segs ++ rest) =
        cleanLoop r m dd (outForm r k (cur ++ segs)) rest := by
  intro segs
  induction segs with
  | nil =>
    intro k cur rest _ _ _
    exact ⟨false, by simp [joinSl]⟩
  | cons s segs ih =>
    intro k cur rest hg hcur hk
    have hs : goodSeg s := hg s (by simp)
    have hpush := outForm_push r k cur s hcur hk
    cases hsegs : segs with
    | nil =>
      refine ⟨true, ?_⟩
      have : joinSl [s] = s := rfl
      rw [this, cl_seg_run r dd s (outForm r k cur) rest hs, hpush]
    | cons t segs' =>
      rw [← hsegs]
      have hsegs_ne : segs ≠ [] := by rw [hsegs]; simp
      rw [joinSl_cons s segs hsegs_ne, List.append_assoc, List.cons_append,
        cl_seg_run r dd s (outForm r k cur) ('/' :: (joinSl segs ++ rest)) hs,
        hpush, cl_slash]
      have hcur' : ∀ x ∈ cur ++ [s], x ≠ [] := by
        intro x hx
        rcases List.mem_append.mp hx with h | h
        · exact hcur x h
        · simp at h; subst h; exact hs.1
      obtain ⟨m, hm⟩ := ih k (cur ++ [s]) rest
        (fun x hx => hg x (by simp [hx])) hcur' hk
      rw [hm, List.append_assoc]
      exact ⟨m, rfl⟩

/-- Processing a run of `..` elements from an all-`..` relative state
appends them and advances `dotdot`.  The continuation must be empty or
slash-headed, or the last `..` would merge with it into a longer element. -/
theorem cl_dots_run :
    ∀ (k j : Nat) (rest : List Char),
      (rest = [] ∨ rest.head? = some '/') →
      ∃ m, cleanLoop false false (ddLen j) (outForm false j [])
          (joinSl (List.replicate k ddSeg) ++ rest) =
        cleanLoop false m (ddLen (j + k)) (outForm false (j + k) []) rest := by
  intro k
  induction k with
  | zero =>
    intro j rest _
    exact ⟨false, by simp [joinSl]⟩
  | succ k ih =>
    intro j rest hrest
    have hstep : dotdotStep false (ddLen j) (outForm false j []) =
        (ddLen (j + 1), outForm false (j + 1) []) := by
      simpa [outForm] using dotdotStep_dots j
    cases hk : k with
    | zero =>
      have hjs : joinSl (List.replicate 1 ddSeg) = ['.', '.'] := rfl
      rcases hrest with rfl | hh
      · refine ⟨false, ?_⟩
        simp only [hjs, List.append_nil]
        rw [cl_dd_nil, hstep, cl_nil]
      · obtain ⟨rest', rfl⟩ : ∃ r', rest = '/' :: r' := by
          cases rest with
          | nil => simp at hh
          | cons c r' => simp at hh; subst hh; exact ⟨r', rfl⟩
        refine ⟨false, ?_⟩
        simp only [hjs, List.cons_append, List.nil_append]
        rw [cl_dd_slash, hstep, cl_slash]
    | succ k' =>
      rw [← hk]
      have hrep : List.replicate (k + 1) ddSeg =
          ddSeg :: List.replicate k ddSeg := rfl
      have hrepne : List.replicate k ddSeg ≠ [] := by
        rw [hk]; simp
      rw [hrep, joinSl_cons ddSeg _ hrepne]
      have hdds : ddSeg ++ ('/' :: joinSl (List.replicate k ddSeg) ++ rest) =
          '.' :: '.' :: '/' :: (joinSl (List.replicate k ddSeg) ++ rest) := by
        simp [ddSeg]
      rw [List.append_assoc, hdds, cl_dd_slash, hstep]
      obtain ⟨m, hm⟩ := ih (j + 1) rest hrest
      rw [hm]
      refine ⟨m, ?_⟩
      have : j + 1 + k = j + (k + 1) := by omega
      rw [this]

/-- A full relative canonical run from the empty initial state. -/
theorem cl_rel_run (k : Nat) (cs : List (List Char)) (rest : List Char)
    (hg : ∀ s ∈ cs, goodSeg s) (hrest : rest = [] ∨ rest.head? = some '/') :
    ∃ m, cleanLoop false false 0 []
        (joinSl (List.replicate k ddSeg ++ cs) ++ rest) =
      cleanLoop false m (ddLen k) (outForm false k cs) rest := by
  have hdd0 : (0 : Nat) = ddLen 0 := by simp [ddLen, rendRel, joinSl]
  have hout0 : ([] : List Char) = outForm false 0 [] := by
    simp [outForm, rendRel, joinSl]
  cases hk : k with
  | zero =>
    simp only [List.replicate_zero, List.nil_append]
    obtain ⟨m, hm⟩ := cl_segs_run false 0 cs 0 [] rest hg
      (by simp) (by simp)
    have hout : outForm false 0 [] = ([] : List Char) := rfl
    rw [hout] at hm
    rw [hm]
    exact ⟨m, rfl⟩
  | succ k' =>
    cases hcs : cs with
    | nil =>
      rw [hdd0, hout0]
      simp only [List.append_nil]
      obtain ⟨m, hm⟩ := cl_dots_run (k' + 1) 0 rest hrest
      rw [hm]
      exact ⟨m, by simp⟩
    | cons c0 cs' =>
      rw [← hcs, ← hk]
      have hrepne : List.replicate k ddSeg ≠ [] := by rw [hk]; simp
      have hcsne : cs ≠ [] := by rw [hcs]; simp
      rw [joinSl_append _ cs hrepne hcsne, List.append_assoc,
        List.cons_append, hdd0, hout0]
      obtain ⟨m1, hm1⟩ := cl_dots_run k 0 ('/' :: (joinSl cs ++ rest))
        (by simp)
      rw [hm1, cl_slash]
      obtain ⟨m, hm⟩ := cl_segs_run false (ddLen (0 + k)) cs (0 + k) []
        rest hg (by simp) (by simp)
      rw [hm]
      exact ⟨m, by simp⟩

/-- A full rooted canonical run from the initial `['/']` state. -/
theorem cl_root_run (cs : List (List Char)) (rest : List Char)
    (hg : ∀ s ∈ cs, goodSeg s) :
    ∃ m, cleanLoop true false 1 ['/'] (joinSl cs ++ rest) =
      cleanLoop true m 1 (outForm true 0 cs) rest := by
  have hout0 : (['/'] : List Char) = outForm true 0 [] := by
    simp [outForm, rendRoot, joinSl]
  rw [hout0]
  obtain ⟨m, hm⟩ := cl_segs_run true 1 cs 0 [] rest hg (by simp) (by simp)
  rw [hm]
  exact ⟨m, by simp⟩

/-! ### `goClean` fixes canonical paths -/

theorem head?_joinSl (c0 : List Char) (rest : List (List Char))
    (h : c0 ≠ []) : (joinSl (c0 :: rest)).head? = c0.head? := by
  cases rest with
  | nil =>
    simp [joinSl]
  | cons t r =>
    rw [joinSl_cons c0 (t :: r) (by simp)]
    cases c0 with
    | nil => exact absurd rfl h
    | cons x xs => simp

theorem rendRoot_reverse_ne (segs : List (List Char)) :
    (rendRoot segs).reverse ≠ [] := by
  simp [rendRoot]

theorem goClean_root_fix (segs : List (List Char))
    (hg : ∀ s ∈ segs, goodSeg s) :
    goClean (rendRoot segs) = rendRoot segs := by
  obtain ⟨m, hm⟩ := cl_root_run segs [] hg
  rw [List.append_nil] at hm
  unfold goClean
  rw [if_neg (by simp [rendRoot])]
  have hhead : (rendRoot segs).head? = some '/' := by simp [rendRoot]
  have htail : (rendRoot segs).tail = joinSl segs := by simp [rendRoot]
  simp only [hhead, htail, if_pos rfl, reduceIte, hm, cl_nil, outForm]
  rw [if_neg (rendRoot_reverse_ne segs)]
  simp

theorem rendRel_ne_nil (k : Nat) (segs : List (List Char))
    (hg : ∀ s ∈ segs, goodSeg s) (h1 : 1 ≤ k + segs.length) :
    rendRel k segs ≠ [] := by
  apply joinSl_ne_nil
  · intro hc
    rcases List.append_eq_nil.mp hc with ⟨ha, hb⟩
    have : k = 0 := by simpa using congrArg List.length ha
    have : segs.length = 0 := by simpa using congrArg List.length hb
    omega
  · intro s hs
    rcases List.mem_append.mp hs with h | h
    · rw [List.eq_of_mem_replicate h]; simp [ddSeg]
    · exact (hg s h).1

theorem rendRel_head_ne_slash (k : Nat) (segs : List (List Char))
    (hg : ∀ s ∈ segs, goodSeg s) (h1 : 1 ≤ k + segs.length) :
    (rendRel k segs).head? ≠ some '/' := by
  unfold rendRel
  cases hk : k with
  | zero =>
    cases hsegs : segs with
    | nil => simp [hk, hsegs] at h1
    | cons s0 rest =>
      have hs0 : goodSeg s0 := hg s0 (by rw [hsegs]; simp)
      simp only [List.replicate_zero, List.nil_append]
      rw [head?_joinSl s0 rest hs0.1]
      cases hs : s0 with
      | nil => exact absurd hs hs0.1
      | cons x xs =>
        have hx : x ≠ '/' := hs0.2.1 x (by rw [hs]; simp)
        simpa using hx
  | succ k' =>
    have hrw : List.replicate (k' + 1) ddSeg ++ segs =
        ddSeg :: (List.replicate k' ddSeg ++ segs) := by
      rw [List.replicate_succ, List.cons_append]
    rw [hrw, head?_joinSl ddSeg _ (by simp [ddSeg])]
    simp [ddSeg]

theorem goClean_rel_fix (k : Nat) (segs : List (List Char))
    (hg : ∀ s ∈ segs, goodSeg s) (h1 : 1 ≤ k + segs.length) :
    goClean (rendRel k segs) = rendRel k segs := by
  obtain ⟨m, hm⟩ := cl_rel_run k segs [] hg (by simp)
  rw [List.append_nil] at hm
  have hne := rendRel_ne_nil k segs hg h1
  unfold goClean
  rw [if_neg hne]
  have hhead : ¬((rendRel k segs).head? = some '/') :=
    rendRel_head_ne_slash k segs hg h1
  simp only [if_neg hhead, reduceIte]
  have hmr : cleanLoop false false 0 [] (rendRel k segs) =
      cleanLoop false m (ddLen k) (outForm false k segs) [] := hm
  rw [hmr, cl_nil]
  simp only [outForm, reduceIte]
  rw [if_neg (by simpa [rendRel] using hne)]
  simp [rendRel]

theorem goClean_canon_fix (p : List Char) (h : Canonical p) :
    goClean p = p := by
  rcases h with rfl | ⟨segs, hg, rfl⟩ | ⟨k, segs, hg, h1, rfl⟩
  · decide
  · exact goClean_root_fix segs hg
  · exact goClean_rel_fix k segs hg h1

/-- Cleaning a canonical path with one separator appended gives the path
back (Go strips the trailing separator). -/
theorem goClean_canon_slash (p : List Char) (h : Canonical p) :
    goClean (p ++ ['/']) = p := by
  rcases h with rfl | ⟨segs, hg, rfl⟩ | ⟨k, segs, hg, h1, rfl⟩
  · decide
  · obtain ⟨m, hm⟩ := cl_root_run segs ['/'] hg
    unfold goClean
    rw [if_neg (by simp [rendRoot])]
    have hhead : (rendRoot segs ++ ['/']).head? = some '/' := by
      simp [rendRoot]
    have htail : (rendRoot segs ++ ['/']).tail = joinSl segs ++ ['/'] := by
      simp [rendRoot]
    simp only [hhead, htail, if_pos rfl, reduceIte, hm, cl_slash, cl_nil,
      outForm]
    rw [if_neg (rendRoot_reverse_ne segs)]
    simp
  · obtain ⟨m, hm⟩ := cl_rel_run k segs ['/'] hg (by simp)
    have hne := rendRel_ne_nil k segs hg h1
    unfold goClean
    rw [if_neg (by simp)]
    have hhead : ¬((rendRel k segs ++ ['/']).head? = some '/') := by
      have h2 := rendRel_head_ne_slash k segs hg h1
      cases hrr : rendRel k segs with
      | nil => exact absurd hrr hne
      | cons x xs =>
        rw [hrr] at h2
        simpa using h2
    simp only [if_neg hhead, reduceIte]
    have hmr : cleanLoop false false 0 [] (rendRel k segs ++ ['/']) =
        cleanLoop false m (ddLen k) (outForm false k segs) ['/'] := hm
    rw [hmr, cl_slash, cl_nil]
    simp only [outForm, reduceIte]
    rw [if_neg (by simpa [rendRel] using hne)]
    simp [rendRel]

/-! ### `goClean` always produces a canonical path -/

theorem takeWhile_nil_cases (p : Char → Bool) (l : List Char)
    (h : l.takeWhile p = []) :
    l = [] ∨ ∃ d t, l = d :: t ∧ p d = false := by
  cases l with
  | nil => exact Or.inl rfl
  | cons d t =>
    by_cases hp : p d
    · rw [List.takeWhile_cons_of_pos hp] at h
      simp at h
    · exact Or.inr ⟨d, t, rfl, by simpa using hp⟩

theorem takeWhile_cons_cases (p : Char → Bool) (l : List Char)
    (a : Char) (t : List Char) (h : l.takeWhile p = a :: t) :
    ∃ t', l = a :: t' ∧ p a = true ∧ t'.takeWhile p = t := by
  cases l with
  | nil => simp [List.takeWhile] at h
  | cons d t' =>
    by_cases hp : p d
    · rw [List.takeWhile_cons_of_pos hp] at h
      injection h with h1 h2
      subst h1
      exact ⟨t', rfl, hp, h2⟩
    · rw [List.takeWhile_cons_of_neg (by simpa using hp)] at h
      simp at h

theorem dropWhile_head_cases (p : Char → Bool) (l : List Char) :
    l.dropWhile p = [] ∨
      ∃ d t, l.dropWhile p = d :: t ∧ p d = false := by
  induction l with
  | nil => exact Or.inl rfl
  | cons c rest ih =>
    by_cases hp : p c
    · rw [List.dropWhile_cons_of_pos hp]
      exact ih
    · rw [List.dropWhile_cons_of_neg (by simpa using hp)]
      exact Or.inr ⟨c, rest, rfl, by simpa using hp⟩

/-- The full invariant: started at any element boundary whose buffer renders
a canonical partial path, `cleanLoop` ends at such a state. -/
theorem cleanLoop_canon (r : Bool) :
    ∀ (n : Nat) (input : List Char), input.length ≤ n →
    ∀ (k : Nat) (cur : List (List Char)),
      (∀ s ∈ cur, goodSeg s) → (r = true → k = 0) →
      ∃ m k' cur', (∀ s ∈ cur', goodSeg s) ∧ (r = true → k' = 0) ∧
        cleanLoop r false (ddForm r k) (outForm r k cur) input =
          (m, ddForm r k', outForm r k' cur') := by
  intro n
  induction n with
  | zero =>
    intro input hlen k cur hcur hk
    have hin : input = [] := List.length_eq_zero.mp (Nat.le_zero.mp hlen)
    subst hin
    exact ⟨false, k, cur, hcur, hk, by rw [cl_nil]⟩
  | succ n ih =>
    intro input hlen k cur hcur hk
    cases input with
    | nil => exact ⟨false, k, cur, hcur, hk, by rw [cl_nil]⟩
    | cons c rest =>
      have hlen' : rest.length ≤ n := by simp at hlen; omega
      by_cases hc : c = '/'
      · subst hc
        rw [cl_slash]
        exact ih rest hlen' k cur hcur hk
      by_cases hdot : c = '.' ∧ (rest = [] ∨ rest.head? = some '/')
      · obtain ⟨rfl, hor⟩ := hdot
        rcases hor with rfl | hh
        · rw [cl_dot_nil]
          exact ⟨false, k, cur, hcur, hk, rfl⟩
        · obtain ⟨r2, rfl⟩ : ∃ r2, rest = '/' :: r2 := by
            cases rest with
            | nil => simp at hh
            | cons d t =>
              simp at hh
              subst hh
              exact ⟨t, rfl⟩
          rw [cl_dot_slash]
          exact ih r2 (by simp at hlen'; omega) k cur hcur hk
      by_cases hdd : c = '.' ∧ rest.head? = some '.' ∧
          (rest.tail = [] ∨ rest.tail.head? = some '/')
      · obtain ⟨rfl, hh, ht⟩ := hdd
        obtain ⟨r2, rfl⟩ : ∃ r2, rest = '.' :: r2 := by
          cases rest with
          | nil => simp at hh
          | cons d t =>
            simp at hh
            subst hh
            exact ⟨t, rfl⟩
        have hstep : ∃ k2 cur2, (∀ s ∈ cur2, goodSeg s) ∧
            (r = true → k2 = 0) ∧
            dotdotStep r (ddForm r k) (outForm r k cur) =
              (ddForm r k2, outForm r k2 cur2) := by
          rcases List.eq_nil_or_concat cur with rfl | ⟨init, last, hcat⟩
          · cases r with
            | true =>
              have hk0 : k = 0 := hk rfl
              subst hk0
              exact ⟨0, [], by simp, by simp, by decide⟩
            | false =>
              refine ⟨k + 1, [], by simp, by simp, ?_⟩
              have := dotdotStep_dots k
              simpa [ddForm, outForm] using this
          · rw [List.concat_eq_append] at hcat
            subst hcat
            have hlast : goodSeg last := hcur last (by simp)
            refine ⟨k, init, ?_, hk, ?_⟩
            · intro s hs
              exact hcur s (by simp [hs])
            · exact dotdotStep_back r k init last hlast.1 hlast.2.1
                (fun s hs => (hcur s (by simp [hs])).1) hk
        obtain ⟨k2, cur2, hg2, hk2, hsv⟩ := hstep
        rcases ht with ht0 | hth
        · have hr2 : r2 = [] := by simpa using ht0
          subst hr2
          rw [cl_dd_nil, hsv]
          exact ⟨false, k2, cur2, hg2, hk2, rfl⟩
        · obtain ⟨r3, rfl⟩ : ∃ r3, r2 = '/' :: r3 := by
            cases r2 with
            | nil => simp at hth
            | cons d t =>
              simp at hth
              subst hth
              exact ⟨t, rfl⟩
          rw [cl_dd_slash, hsv]
          exact ih r3 (by simp at hlen'; omega) k2 cur2 hg2 hk2
      -- start of a real path element
      · have hpc : (fun x : Char => decide (x ≠ '/')) c = true := by
          simp [hc]
        have hu : (c :: rest).takeWhile (fun x => decide (x ≠ '/')) =
            c :: rest.takeWhile (fun x => decide (x ≠ '/')) :=
          List.takeWhile_cons_of_pos hpc
        have hv : (c :: rest).dropWhile (fun x => decide (x ≠ '/')) =
            rest.dropWhile (fun x => decide (x ≠ '/')) :=
          List.dropWhile_cons_of_pos hpc
        have hsplit :
            (c :: rest).takeWhile (fun x => decide (x ≠ '/')) ++
              (c :: rest).dropWhile (fun x => decide (x ≠ '/')) = c :: rest :=
          List.takeWhile_append_dropWhile ..
        have hgoodu : goodSeg ((c :: rest).takeWhile (fun x => decide (x ≠ '/'))) := by
          refine ⟨by rw [hu]; simp, ?_, ?_, ?_⟩
          · intro x hx
            have := List.mem_takeWhile_imp hx
            simpa using this
          · intro hdot1
            rw [hu] at hdot1
            injection hdot1 with h1 h2
            subst h1
            rcases takeWhile_nil_cases _ rest h2 with rfl | ⟨d, t, rfl, hpd⟩
            · exact hdot ⟨rfl, Or.inl rfl⟩
            · have hd : d = '/' := by simpa using hpd
              subst hd
              exact hdot ⟨rfl, Or.inr rfl⟩
          · intro hdot2
            rw [hu] at hdot2
            injection hdot2 with h1 h2
            subst h1
            obtain ⟨t', hrest2, hp2, htw⟩ :=
              takeWhile_cons_cases _ rest '.' [] h2
            subst hrest2
            rcases takeWhile_nil_cases _ t' htw with rfl | ⟨d, t, rfl, hpd⟩
            · exact hdd ⟨rfl, rfl, Or.inl rfl⟩
            · have hd : d = '/' := by simpa using hpd
              subst hd
              exact hdd ⟨rfl, rfl, Or.inr rfl⟩
        have hrun := cl_seg_run r (ddForm r k)
          ((c :: rest).takeWhile (fun x => decide (x ≠ '/'))) (outForm r k cur)
          ((c :: rest).dropWhile (fun x => decide (x ≠ '/'))) hgoodu
        have hpush := outForm_push r k cur
          ((c :: rest).takeWhile (fun x => decide (x ≠ '/')))
          (fun s hs => (hcur s hs).1) hk
        rw [← hsplit, hrun, hpush]
        have hcur' : ∀ s ∈ cur ++ [(c :: rest).takeWhile (fun x => decide (x ≠ '/'))],
            goodSeg s := by
          intro s hs
          rcases List.mem_append.mp hs with h | h
          · exact hcur s h
          · have hseq := List.mem_singleton.mp h
            subst hseq
            exact hgoodu
        rcases dropWhile_head_cases (fun x => decide (x ≠ '/')) (c :: rest) with
            hve | ⟨d, t, hve, hpd⟩
        · rw [hve, cl_nil]
          exact ⟨true, k,
            cur ++ [(c :: rest).takeWhile (fun x => decide (x ≠ '/'))],
            hcur', hk, rfl⟩
        · have hd : d = '/' := by simpa using hpd
          subst hd
          rw [hve, cl_slash]
          have hlt : t.length ≤ n := by
            have h1 := lenDropWhileLe (fun x => decide (x ≠ '/')) rest
            rw [hv] at hve
            have h2 : (rest.dropWhile (fun x => decide (x ≠ '/'))).length =
                t.length + 1 := by
              rw [hve]
              simp
            omega
          exact ih t hlt k
            (cur ++ [(c :: rest).takeWhile (fun x => decide (x ≠ '/'))])
            hcur' hk

/-- `goClean` output is canonical. -/
theorem goClean_canonical (p : List Char) : Canonical (goClean p) := by
  by_cases hp : p = []
  · subst hp
    exact Or.inl (by decide)
  cases p with
  | nil => exact absurd rfl hp
  | cons c t =>
    by_cases hc : c = '/'
    · subst hc
      obtain ⟨m, k', cur', hg', hk', heq⟩ :=
        cleanLoop_canon true t.length t le_rfl 0 [] (by simp) (by simp)
      have hk0 : k' = 0 := hk' rfl
      subst hk0
      have hdd1 : ddForm true 0 = 1 := rfl
      have hout1 : outForm true 0 [] = ['/'] := rfl
      rw [hdd1, hout1] at heq
      unfold goClean
      rw [if_neg (by simp)]
      simp only [List.head?_cons, List.tail_cons, if_pos rfl, reduceIte,
        heq]
      have : outForm true 0 cur' = (rendRoot cur').reverse := rfl
      rw [this, if_neg (rendRoot_reverse_ne cur')]
      simp only [List.reverse_reverse]
      exact Or.inr (Or.inl ⟨cur', hg', rfl⟩)
    · obtain ⟨m, k', cur', hg', hk', heq⟩ :=
        cleanLoop_canon false (c :: t).length (c :: t) le_rfl 0 []
          (by simp) (by simp)
      have hdd0 : ddForm false 0 = 0 := rfl
      have hout0 : outForm false 0 [] = [] := rfl
      rw [hdd0, hout0] at heq
      unfold goClean
      rw [if_neg (by simp)]
      have hhead : ¬((c :: t).head? = some '/') := by simpa using hc
      simp only [if_neg hhead, reduceIte, heq]
      have hof : outForm false k' cur' = (rendRel k' cur').reverse := rfl
      rw [hof]
      by_cases hnil : (rendRel k' cur').reverse = []
      · rw [if_pos hnil]
        exact Or.inl rfl
      · rw [if_neg hnil]
        simp only [List.reverse_reverse]
        refine Or.inr (Or.inr ⟨k', cur', hg', ?_, rfl⟩)
        by_contra hcon
        push_neg at hcon
        have hk0 : k' = 0 := by omega
        have hc0 : cur' = [] := List.length_eq_zero.mp (by omega)
        subst hk0
        subst hc0
        exact hnil (by simp [rendRel, joinSl])

/-- `filepath.Clean` is idempotent. -/
theorem goClean_idem (p : List Char) : goClean (goClean p) = goClean p :=
  goClean_canon_fix _ (goClean_canonical p)

/-- Cleaning `Clean(p) + "/"` gives `Clean(p)` back. -/
theorem goClean_clean_slash (p : List Char) :
    goClean (goClean p ++ ['/']) = goClean p :=
  goClean_canon_slash _ (goClean_canonical p)

/-! ### `goDir` of a validated path stays inside the destination -/

theorem snoc_inj (a b : List (List Char)) (x y : List Char)
    (h : a ++ [x] = b ++ [y]) : a = b ∧ x = y := by
  have h2 : x :: a.reverse = y :: b.reverse := by
    simpa using congrArg List.reverse h
  injection h2 with hxy har
  exact ⟨by simpa using congrArg List.reverse har, hxy⟩

theorem dropWhile_all_pos (p : Char → Bool) (a b : List Char)
    (h : ∀ x ∈ a, p x = true) :
    (a ++ b).dropWhile p = b.dropWhile p := by
  induction a with
  | nil => simp
  | cons c t ih =>
    rw [List.cons_append, List.dropWhile_cons_of_pos (h c (by simp))]
    exact ih (fun x hx => h x (by simp [hx]))

/-- The buffer `filepath.Dir` hands to `Clean`, computed from the
last-separator decomposition. -/
theorem keepLast_eq (p q r : List Char) (hsplit : p = q ++ '/' :: r)
    (hr : ∀ c ∈ r, c ≠ '/') :
    (p.reverse.dropWhile (fun c => decide (c ≠ '/'))).reverse =
      q ++ ['/'] := by
  subst hsplit
  have hrev : (q ++ '/' :: r).reverse = r.reverse ++ '/' :: q.reverse := by
    simp
  rw [hrev, dropWhile_all_pos _ r.reverse ('/' :: q.reverse)
    (by intro x hx; simp; exact hr x (by simpa using hx))]
  rw [List.dropWhile_cons_of_neg (by simp)]
  simp

theorem goDir_of_split (p q r : List Char) (hsplit : p = q ++ '/' :: r)
    (hr : ∀ c ∈ r, c ≠ '/') : goDir p = goClean (q ++ ['/']) := by
  unfold goDir
  rw [keepLast_eq p q r hsplit hr]

theorem exists_last_slash (p : List Char) (h : '/' ∈ p) :
    ∃ q r, p = q ++ '/' :: r ∧ ∀ c ∈ r, c ≠ '/' := by
  induction p with
  | nil => simp at h
  | cons c t ih =>
    by_cases ht : '/' ∈ t
    · obtain ⟨q, r, heq, hr⟩ := ih ht
      exact ⟨c :: q, r, by rw [heq]; simp, hr⟩
    · have hc : c = '/' := by
        rcases List.mem_cons.mp h with h1 | h1
        · exact h1.symm
        · exact absurd h1 ht
      subst hc
      exact ⟨[], t, rfl, fun x hx hx2 => ht (hx2 ▸ hx)⟩

theorem last_slash_unique (p q1 r1 q2 r2 : List Char)
    (h1 : p = q1 ++ '/' :: r1) (hr1 : ∀ c ∈ r1, c ≠ '/')
    (h2 : p = q2 ++ '/' :: r2) (hr2 : ∀ c ∈ r2, c ≠ '/') :
    q1 = q2 ∧ r1 = r2 := by
  have k1 := keepLast_eq p q1 r1 h1 hr1
  have k2 := keepLast_eq p q2 r2 h2 hr2
  have hq : q1 = q2 := List.append_cancel_right (k1.symm.trans k2)
  refine ⟨hq, ?_⟩
  subst hq
  have h3 := List.append_cancel_left (h1.symm.trans h2)
  injection h3

/-- Chopping a canonical path at its last separator leaves either nothing
or another canonical path. -/
theorem canon_dir_split (p : List Char) (hp : Canonical p)
    (q r : List Char) (hsplit : p = q ++ '/' :: r) (hr : ∀ c ∈ r, c ≠ '/') :
    q = [] ∨ Canonical q := by
  have hmem : '/' ∈ p := by rw [hsplit]; simp
  rcases hp with hdot | ⟨segs, hg, hrend⟩ | ⟨k, segs, hg, h1, hrend⟩
  · rw [hdot] at hmem
    simp at hmem
  · -- rooted
    rcases List.eq_nil_or_concat segs with rfl | ⟨init, last, hcat⟩
    · left
      rw [hrend] at hsplit
      have := congrArg List.length hsplit
      simp [rendRoot, joinSl] at this
      exact List.length_eq_zero.mp (by omega)
    · rw [List.concat_eq_append] at hcat
      subst hcat
      have hlast : goodSeg last := hg last (by simp)
      cases hinit : init with
      | nil =>
        left
        have hpl : p = [] ++ '/' :: last := by
          rw [hrend, hinit]
          simp [rendRoot, joinSl]
        exact (last_slash_unique p q r [] last hsplit hr hpl
          (fun c hc => hlast.2.1 c hc)).1
      | cons i0 is =>
        right
        have hinitne : init ≠ [] := by rw [hinit]; simp
        have hpl : p = rendRoot init ++ '/' :: last := by
          rw [hrend]
          simp only [rendRoot]
          rw [joinSl_append init [last] hinitne (by simp)]
          simp [joinSl]
        have hu := last_slash_unique p q r (rendRoot init) last hsplit hr
          hpl (fun c hc => hlast.2.1 c hc)
        rw [hu.1]
        exact Or.inr (Or.inl ⟨init, fun s hs => hg s (by simp [hs]), rfl⟩)
  · -- relative
    rcases List.eq_nil_or_concat (List.replicate k ddSeg ++ segs) with
        hnil | ⟨initC, lastC, hcat⟩
    · rw [hrend] at hmem
      simp only [rendRel, hnil, joinSl] at hmem
      simp at hmem
    · rw [List.concat_eq_append] at hcat
      have hlastC : lastC ≠ [] ∧ ∀ c ∈ lastC, c ≠ '/' := by
        have hmemC : lastC ∈ List.replicate k ddSeg ++ segs := by
          rw [hcat]; simp
        rcases List.mem_append.mp hmemC with h | h
        · rw [List.eq_of_mem_replicate h]
          refine ⟨by simp [ddSeg], ?_⟩
          intro c hcm
          rcases List.mem_cons.mp hcm with h2 | h2
          · subst h2; decide
          · have : c = '.' := by simpa [ddSeg] using h2
            subst this; decide
        · exact ⟨(hg lastC h).1, (hg lastC h).2.1⟩
      cases hinitC : initC with
      | nil =>
        exfalso
        rw [hinitC] at hcat
        rw [hrend] at hmem
        simp only [rendRel, hcat, List.nil_append, joinSl] at hmem
        exact hlastC.2 '/' hmem rfl
      | cons i0 is =>
        right
        have hinitne : initC ≠ [] := by rw [hinitC]; simp
        have hpl : p = joinSl initC ++ '/' :: lastC := by
          rw [hrend]
          simp only [rendRel, hcat]
          rw [joinSl_append initC [lastC] hinitne (by simp)]
          simp [joinSl]
        have hu := last_slash_unique p q r (joinSl initC) lastC hsplit hr
          hpl hlastC.2
        rw [hu.1]
        rcases List.eq_nil_or_concat segs with rfl | ⟨segInit, lastS, hseg⟩
        · -- all components are `..`: initC is one `..` shorter
          rw [List.append_nil] at hcat
          have hk2 : k ≠ 0 := by
            intro hk0
            rw [hk0] at hcat
            simp at hcat
          obtain ⟨k', rfl⟩ : ∃ k', k = k' + 1 := ⟨k - 1, by omega⟩
          have hrep : List.replicate (k' + 1) ddSeg =
              List.replicate k' ddSeg ++ [ddSeg] := List.replicate_succ' ..
          rw [hrep] at hcat
          obtain ⟨hi, -⟩ := snoc_inj _ _ _ _ hcat
          have hkpos : k' ≠ 0 := by
            intro hk0
            rw [hk0] at hi
            simp at hi
            exact hinitne (hi.symm ▸ rfl)
          refine Or.inr (Or.inr ⟨k', [], by simp, by omega, ?_⟩)
          rw [← hi]
          simp [rendRel]
        · -- last component is a good segment
          rw [List.concat_eq_append] at hseg
          rw [hseg, ← List.append_assoc] at hcat
          obtain ⟨hi, -⟩ := snoc_inj _ _ _ _ hcat
          have hlen : 1 ≤ k + segInit.length := by
            have := congrArg List.length hi
            simp at this
            have hi0 : 1 ≤ initC.length := by
              rw [hinitC]; simp
            omega
          refine Or.inr (Or.inr ⟨k, segInit, ?_, hlen, ?_⟩)
          · intro s hs
            exact hg s (by rw [hseg]; simp [hs])
          · rw [← hi]
            rfl

/-- `goDir` of a canonical path strictly below a canonical `D` is `D`
itself or again strictly below it. -/
theorem goDir_inside (D p : List Char) (hD : Canonical D)
    (hp : Canonical p) (hpref : hasPref (D ++ ['/']) p) :
    goDir p = D ∨ hasPref (D ++ ['/']) (goDir p) := by
  obtain ⟨t, hpt⟩ := (hasPref_iff_append (D ++ ['/']) p).mp hpref
  have hpt' : p = D ++ '/' :: t := by
    rw [hpt]
    simp
  have hDne : D ≠ [] := by
    rintro rfl
    rcases hD with h | ⟨segs, _, h⟩ | ⟨k, segs, hg, h1, h⟩
    · simp at h
    · simp [rendRoot] at h
    · exact rendRel_ne_nil k segs hg h1 h.symm
  have hmem : '/' ∈ p := by rw [hpt']; simp
  obtain ⟨q, r, hqr, hrns⟩ := exists_last_slash p hmem
  rcases canon_dir_split p hp q r hqr hrns with rfl | hq
  · -- p = '/' :: r with r separator-free: impossible below a nonempty D
    exfalso
    obtain ⟨d0, D', rfl⟩ : ∃ d0 D', D = d0 :: D' := by
      cases D with
      | nil => exact absurd rfl hDne
      | cons d0 D' => exact ⟨d0, D', rfl⟩
    rw [List.nil_append] at hqr
    rw [hqr] at hpt'
    injection hpt' with h1 h2
    exact hrns '/' (by rw [h2]; simp) rfl
  · have hdir : goDir p = q := by
      rw [goDir_of_split p q r hqr hrns]
      exact goClean_canon_slash q hq
    rw [hdir]
    rcases Nat.lt_trichotomy D.length q.length with hlt | heq | hgt
    · right
      rw [hasPref_iff_append] at hpref ⊢
      have hqtake : q = p.take q.length := by
        rw [hqr]
        rw [List.take_append_eq_append_take, List.take_length,
          Nat.sub_self, List.take_zero, List.append_nil]
      have htake1 : p.take (D.length + 1) = D ++ ['/'] := by
        rw [hpt', List.take_append_eq_append_take,
          List.take_of_length_le (by omega : D.length ≤ D.length + 1)]
        have h11 : D.length + 1 - D.length = 1 := by omega
        rw [h11]
        rfl
      refine ⟨q.drop (D.length + 1), ?_⟩
      have : q.take (D.length + 1) = D ++ ['/'] := by
        rw [hqtake, List.take_take]
        have hmin : (D.length + 1) ⊓ q.length = D.length + 1 := by omega
        rw [hmin, htake1]
      rw [← this, List.take_append_drop]
    · left
      have hqtake : q = p.take q.length := by
        rw [hqr, List.take_append_eq_append_take, List.take_length,
          Nat.sub_self, List.take_zero, List.append_nil]
      have hDtake : D = p.take D.length := by
        rw [hpt', List.take_append_eq_append_take, List.take_length,
          Nat.sub_self, List.take_zero, List.append_nil]
      rw [hqtake, hDtake, heq]
    · exfalso
      have hdropq : p.drop (q.length + 1) = r := by
        rw [hqr]
        have : q.length + 1 = (q ++ ['/']).length := by simp
        rw [this]
        have hassoc : q ++ '/' :: r = (q ++ ['/']) ++ r := by simp
        rw [hassoc, List.drop_left]
      have hdropD : p.drop D.length = '/' :: t := by
        rw [hpt', List.drop_left]
      have hdd2 : p.drop D.length =
          r.drop (D.length - (q.length + 1)) := by
        rw [← hdropq, List.drop_drop]
        have : q.length + 1 + (D.length - (q.length + 1)) = D.length := by
          omega
        rw [this]
      have : '/' ∈ r := by
        apply List.mem_of_mem_drop
        rw [← hdd2, hdropD]
        simp
      exact hrns '/' this rfl

/-! ### Zip-slip safety (claim C1) -/

theorem validatePath_iff (dest t : GoStr) :
    validatePath t (goClean dest ++ ['/']) = true ↔
      hasPref (goClean dest ++ ['/']) (goClean t) := by
  unfold validatePath
  rw [goClean_clean_slash]
  exact goHasPref_iff ..

theorem goJoin2_canonical (a b : GoStr) (ha : a ≠ []) :
    Canonical (goJoin2 a b) := by
  unfold goJoin2
  rw [if_neg (by rintro ⟨h, -⟩; exact ha h)]
  by_cases hb : b = []
  · rw [if_neg ha, if_pos hb]
    exact goClean_canonical a
  · rw [if_neg ha, if_neg hb]
    exact goClean_canonical _

theorem goDir_canonical (p : GoStr) : Canonical (goDir p) := by
  unfold goDir
  exact goClean_canonical _

theorem insideDest_of_validated (dest name : GoStr)
    (hv : validatePath (goJoin2 (goClean dest ++ ['/']) name)
      (goClean dest ++ ['/']) = true) :
    insideDest dest (goJoin2 (goClean dest ++ ['/']) name) :=
  Or.inr ((validatePath_iff dest _).mp hv)

theorem insideDest_dir_of_validated (dest name : GoStr)
    (hv : validatePath (goJoin2 (goClean dest ++ ['/']) name)
      (goClean dest ++ ['/']) = true) :
    insideDest dest (goDir (goJoin2 (goClean dest ++ ['/']) name)) := by
  have hcd : (goClean dest ++ ['/'] : GoStr) ≠ [] := by simp
  have hp : Canonical (goJoin2 (goClean dest ++ ['/']) name) :=
    goJoin2_canonical _ _ hcd
  have hfix : goClean (goJoin2 (goClean dest ++ ['/']) name) =
      goJoin2 (goClean dest ++ ['/']) name := goClean_canon_fix _ hp
  have hpref : hasPref (goClean dest ++ ['/'])
      (goJoin2 (goClean dest ++ ['/']) name) := by
    rw [← hfix]
    exact (validatePath_iff dest _).mp hv
  have hdirfix : goClean (goDir (goJoin2 (goClean dest ++ ['/']) name)) =
      goDir (goJoin2 (goClean dest ++ ['/']) name) :=
    goClean_canon_fix _ (goDir_canonical _)
  rcases goDir_inside (goClean dest) (goJoin2 (goClean dest ++ ['/']) name)
      (goClean_canonical dest) hp hpref with h | h
  · left
    rw [hdirfix, h]
  · right
    rw [hdirfix]
    exact h

theorem extractZipLoop_err (dest : GoStr) (entries : List ArchiveEntry)
    (hbad : ∃ e ∈ entries, escapes dest e.name) :
    (extractZipLoop (goClean dest ++ ['/']) entries).1.isSome = true := by
  induction entries with
  | nil => simp at hbad
  | cons e rest ih =>
    by_cases hv : validatePath (goJoin2 (goClean dest ++ ['/']) e.name)
        (goClean dest ++ ['/']) = false
    · simp only [extractZipLoop, hv, if_pos rfl]
      rfl
    · have hvt : validatePath (goJoin2 (goClean dest ++ ['/']) e.name)
          (goClean dest ++ ['/']) = true := by
        cases h : validatePath (goJoin2 (goClean dest ++ ['/']) e.name)
            (goClean dest ++ ['/'])
        · exact absurd h hv
        · rfl
      have hnesc : ¬ escapes dest e.name := by
        intro hesc
        exact hesc ((validatePath_iff dest _).mp hvt)
      have hbad' : ∃ e' ∈ rest, escapes dest e'.name := by
        obtain ⟨e', he', hesc⟩ := hbad
        rcases List.mem_cons.mp he' with rfl | hmem
        · exact absurd hesc hnesc
        · exact ⟨e', hmem, hesc⟩
      simp only [extractZipLoop, hv, if_neg, if_false]
      by_cases hd : e.isDir
      · simp only [hd, if_pos rfl]
        exact ih hbad'
      · simp only [hd, if_neg, if_false]
        exact ih hbad'

theorem extractZipLoop_inside (dest : GoStr) (entries : List ArchiveEntry) :
    ∀ w ∈ (extractZipLoop (goClean dest ++ ['/']) entries).2,
      insideDest dest w.path := by
  induction entries with
  | nil =>
    intro w hw
    simp [extractZipLoop] at hw
  | cons e rest ih =>
    intro w hw
    by_cases hv : validatePath (goJoin2 (goClean dest ++ ['/']) e.name)
        (goClean dest ++ ['/']) = false
    · simp only [extractZipLoop, hv, if_pos rfl] at hw
      simp at hw
    · have hvt : validatePath (goJoin2 (goClean dest ++ ['/']) e.name)
          (goClean dest ++ ['/']) = true := by
        cases h : validatePath (goJoin2 (goClean dest ++ ['/']) e.name)
            (goClean dest ++ ['/'])
        · exact absurd h hv
        · rfl
      simp only [extractZipLoop, hv, if_false] at hw
      by_cases hd : e.isDir
      · simp only [hd, if_pos rfl] at hw
        rcases List.mem_cons.mp hw with rfl | hmem
        · exact insideDest_of_validated dest e.name hvt
        · exact ih w hmem
      · simp only [hd, if_false] at hw
        rcases List.mem_cons.mp hw with rfl | hmem
        · exact insideDest_dir_of_validated dest e.name hvt
        rcases List.mem_cons.mp hmem with rfl | hmem2
        · exact insideDest_of_validated dest e.name hvt
        · exact ih w hmem2

theorem extract7zLoop_err (dest : GoStr) (entries : List ArchiveEntry)
    (hbad : ∃ e ∈ entries, escapes dest e.name) :
    (extract7zLoop (goClean dest ++ ['/']) entries).1.isSome = true := by
  induction entries with
  | nil => simp at hbad
  | cons e rest ih =>
    by_cases hv : validatePath (goJoin2 (goClean dest ++ ['/']) e.name)
        (goClean dest ++ ['/']) = false
    · simp only [extract7zLoop, hv, if_pos rfl]
      rfl
    · have hvt : validatePath (goJoin2 (goClean dest ++ ['/']) e.name)
          (goClean dest ++ ['/']) = true := by
        cases h : validatePath (goJoin2 (goClean dest ++ ['/']) e.name)
            (goClean dest ++ ['/'])
        · exact absurd h hv
        · rfl
      have hnesc : ¬ escapes dest e.name := by
        intro hesc
        exact hesc ((validatePath_iff dest _).mp hvt)
      have hbad' : ∃ e' ∈ rest, escapes dest e'.name := by
        obtain ⟨e', he', hesc⟩ := hbad
        rcases List.mem_cons.mp he' with rfl | hmem
        · exact absurd hesc hnesc
        · exact ⟨e', hmem, hesc⟩
      simp only [extract7zLoop, hv, if_false]
      by_cases hd : e.isDir
      · simp only [hd, if_pos rfl]
        exact ih hbad'
      · simp only [hd, if_false]
        exact ih hbad'

theorem extract7zLoop_inside (dest : GoStr) (entries : List ArchiveEntry) :
    ∀ w ∈ (extract7zLoop (goClean dest ++ ['/']) entries).2,
      insideDest dest w.path := by
  induction entries with
  | nil =>
    intro w hw
    simp [extract7zLoop] at hw
  | cons e rest ih =>
    intro w hw
    by_cases hv : validatePath (goJoin2 (goClean dest ++ ['/']) e.name)
        (goClean dest ++ ['/']) = false
    · simp only [extract7zLoop, hv, if_pos rfl] at hw
      simp at hw
    · have hvt : validatePath (goJoin2 (goClean dest ++ ['/']) e.name)
          (goClean dest ++ ['/']) = true := by
        cases h : validatePath (goJoin2 (goClean dest ++ ['/']) e.name)
            (goClean dest ++ ['/'])
        · exact absurd h hv
        · rfl
      simp only [extract7zLoop, hv, if_false] at hw
      by_cases hd : e.isDir
      · simp only [hd, if_pos rfl] at hw
        rcases List.mem_cons.mp hw with rfl | hmem
        · exact insideDest_of_validated dest e.name hvt
        · exact ih w hmem
      · simp only [hd, if_false] at hw
        rcases List.mem_cons.mp hw with rfl | hmem
        · exact insideDest_dir_of_validated dest e.name hvt
        rcases List.mem_cons.mp hmem with rfl | hmem2
        · exact insideDest_of_validated dest e.name hvt
        · exact ih w hmem2

theorem extractTarLoop_err (dest : GoStr) (entries : List TarEntry)
    (hbad : ∃ e ∈ entries, escapes dest e.name) :
    (extractTarLoop (goClean dest ++ ['/']) entries).1.isSome = true := by
  induction entries with
  | nil => simp at hbad
  | cons e rest ih =>
    by_cases hv : validatePath (goJoin2 (goClean dest ++ ['/']) e.name)
        (goClean dest ++ ['/']) = false
    · simp only [extractTarLoop, hv, if_pos rfl]
      rfl
    · have hvt : validatePath (goJoin2 (goClean dest ++ ['/']) e.name)
          (goClean dest ++ ['/']) = true := by
        cases h : validatePath (goJoin2 (goClean dest ++ ['/']) e.name)
            (goClean dest ++ ['/'])
        · exact absurd h hv
        · rfl
      have hnesc : ¬ escapes dest e.name := by
        intro hesc
        exact hesc ((validatePath_iff dest _).mp hvt)
      have hbad' : ∃ e' ∈ rest, escapes dest e'.name := by
        obtain ⟨e', he', hesc⟩ := hbad
        rcases List.mem_cons.mp he' with rfl | hmem
        · exact absurd hesc hnesc
        · exact ⟨e', hmem, hesc⟩
      simp only [extractTarLoop, hv, if_false]
      by_cases h5 : e.typeflag = '5'
      · simp only [h5, if_pos rfl]
        exact ih hbad'
      · simp only [h5, if_false]
        by_cases h0 : e.typeflag = '0'
        · simp only [h0, if_pos rfl]
          exact ih hbad'
        · simp only [h0, if_false]
          exact ih hbad'

theorem extractTarLoop_inside (dest : GoStr) (entries : List TarEntry) :
    ∀ w ∈ (extractTarLoop (goClean dest ++ ['/']) entries).2,
      insideDest dest w.path := by
  induction entries with
  | nil =>
    intro w hw
    simp [extractTarLoop] at hw
  | cons e rest ih =>
    intro w hw
    by_cases hv : validatePath (goJoin2 (goClean dest ++ ['/']) e.name)
        (goClean dest ++ ['/']) = false
    · simp only [extractTarLoop, hv, if_pos rfl] at hw
      simp at hw
    · have hvt : validatePath (goJoin2 (goClean dest ++ ['/']) e.name)
          (goClean dest ++ ['/']) = true := by
        cases h : validatePath (goJoin2 (goClean dest ++ ['/']) e.name)
            (goClean dest ++ ['/'])
        · exact absurd h hv
        · rfl
      simp only [extractTarLoop, hv, if_false] at hw
      by_cases h5 : e.typeflag = '5'
      · simp only [h5, if_pos rfl] at hw
        rcases List.mem_cons.mp hw with rfl | hmem
        · exact insideDest_of_validated dest e.name hvt
        · exact ih w hmem
      · simp only [h5, if_false] at hw
        by_cases h0 : e.typeflag = '0'
        · simp only [h0, if_pos rfl] at hw
          rcases List.mem_cons.mp hw with rfl | hmem
          · exact insideDest_dir_of_validated dest e.name hvt
          rcases List.mem_cons.mp hmem with rfl | hmem2
          · exact insideDest_of_validated dest e.name hvt
          · exact ih w hmem2
        · simp only [h0, if_false] at hw
          exact ih w hw

theorem insideDest_self (dest : GoStr) : insideDest dest dest :=
  Or.inl rfl

/-- **C1.**  For every archive (ZIP, 7z, TAR or TAR.GZ — the TAR.GZ reader
feeds the same per-header loop) containing an entry whose path, after
joining with the destination directory and cleaning, does not have the
destination directory as a prefix, extraction fails with an error, and
every file-system write the extraction performs (including the parent
directories it creates) is on a path that, after cleaning, is the
destination directory or strictly below it — so nothing is created
outside the destination directory. -/
theorem zip_slip_safety :
    (∀ (dest : GoStr) (entries : List ArchiveEntry),
      (∃ e ∈ entries, escapes dest e.name) →
      (extractZip dest entries).1.isSome = true ∧
      ∀ w ∈ (extractZip dest entries).2, insideDest dest w.path) ∧
    (∀ (dest : GoStr) (entries : List ArchiveEntry),
      (∃ e ∈ entries, escapes dest e.name) →
      (extract7z dest entries).1.isSome = true ∧
      ∀ w ∈ (extract7z dest entries).2, insideDest dest w.path) ∧
    (∀ (dest : GoStr) (entries : List TarEntry),
      (∃ e ∈ entries, escapes dest e.name) →
      (extractTar dest entries).1.isSome = true ∧
      ∀ w ∈ (extractTar dest entries).2, insideDest dest w.path) := by
  refine ⟨?_, ?_, ?_⟩
  · intro dest entries hbad
    constructor
    · exact extractZipLoop_err dest entries hbad
    · intro w hw
      simp only [extractZip] at hw
      rcases List.mem_cons.mp hw with rfl | hmem
      · exact insideDest_self dest
      · exact extractZipLoop_inside dest entries w hmem
  · intro dest entries hbad
    constructor
    · exact extract7zLoop_err dest entries hbad
    · intro w hw
      simp only [extract7z] at hw
      rcases List.mem_cons.mp hw with rfl | hmem
      · exact insideDest_self dest
      · exact extract7zLoop_inside dest entries w hmem
  · intro dest entries hbad
    constructor
    · exact extractTarLoop_err dest entries hbad
    · intro w hw
      simp only [extractTar] at hw
      rcases List.mem_cons.mp hw with rfl | hmem
      · exact insideDest_self dest
      · exact extractTarLoop_inside dest entries w hmem

/-- Witness for C1 at a concrete archive: a ZIP with the classic
`../evil` entry against destination `/tmp/out`. -/
theorem zip_slip_safety_witness :
    (extractZip (gs "/tmp/out")
        [⟨gs "../evil", false, gs "x", 420⟩]).1.isSome = true ∧
    ∀ w ∈ (extractZip (gs "/tmp/out")
        [⟨gs "../evil", false, gs "x", 420⟩]).2,
      insideDest (gs "/tmp/out") w.path :=
  zip_slip_safety.1 (gs "/tmp/out") [⟨gs "../evil", false, gs "x", 420⟩]
    ⟨⟨gs "../evil", false, gs "x", 420⟩, by simp, by decide⟩

/-! ### Retry policy (claim C4) -/

/-- **C4.**  With the default policy (`DefaultRetryAttempts = 3`, the
delays not affecting the result), an operation that fails with a transient
error `N < 3` times and then succeeds makes `WithRetry` return success
after exactly `N + 1` invocations; an operation whose first failure is
non-transient makes `WithRetry` return that error after exactly 1
invocation. -/
theorem withRetry_spec :
    (∀ (ops : Nat → Option GoError) (N : Nat), N < 3 →
      (∀ i < N, ∃ e, ops i = some e ∧ isTransientError (some e) = true) →
      ops N = none →
      withRetry ops = (none, N + 1)) ∧
    (∀ (ops : Nat → Option GoError) (e : GoError), ops 0 = some e →
      isTransientError (some e) = false →
      withRetry ops = (some e, 1)) := by
  constructor
  · intro ops N hN htr hsucc
    interval_cases N
    · simp [withRetry, goRetry, DefaultRetryAttempts, retryLoop, hsucc]
    · obtain ⟨e0, he0, ht0⟩ := htr 0 (by omega)
      simp [withRetry, goRetry, DefaultRetryAttempts, retryLoop, he0, ht0,
        hsucc]
    · obtain ⟨e0, he0, ht0⟩ := htr 0 (by omega)
      obtain ⟨e1, he1, ht1⟩ := htr 1 (by omega)
      simp [withRetry, goRetry, DefaultRetryAttempts, retryLoop, he0, ht0,
        he1, ht1, hsucc]
  · intro ops e h0 hnt
    simp [withRetry, goRetry, DefaultRetryAttempts, retryLoop, h0, hnt]

/-- Witness for C4: an operation that times out once then succeeds takes
two invocations; a fatal error returns in one. -/
theorem withRetry_spec_witness :
    withRetry (fun i => if i = 0
        then some ⟨gs "timeout", false, none⟩ else none) = (none, 2) ∧
    withRetry (fun _ => some ⟨gs "fatal", false, none⟩) =
      (some ⟨gs "fatal", false, none⟩, 1) := by
  constructor
  · refine withRetry_spec.1 _ 1 (by omega) ?_ (by simp)
    intro i hi
    have hi0 : i = 0 := by omega
    subst hi0
    exact ⟨⟨gs "timeout", false, none⟩, by simp, by decide⟩
  · exact withRetry_spec.2 _ _ rfl (by decide)

/-! ### Failure tagging (claim C6) -/

theorem length_goReplaceAllCh (old : Char) (c2 : Char) (s : GoStr) :
    (goReplaceAllCh old [c2] s).length = s.length := by
  induction s with
  | nil => rfl
  | cons c rest ih =>
    by_cases hc : c = old <;> simp [goReplaceAllCh, hc, ih]

theorem not_mem_goReplaceAllCh (old : Char) (c2 : Char) (hne : c2 ≠ old)
    (s : GoStr) : old ∉ goReplaceAllCh old [c2] s := by
  induction s with
  | nil => simp [goReplaceAllCh]
  | cons c rest ih =>
    by_cases hc : c = old
    · simp only [goReplaceAllCh, hc, if_pos rfl]
      intro hmem
      rcases List.mem_append.mp hmem with h | h
      · exact hne (List.mem_singleton.mp h).symm
      · exact ih h
    · simp only [goReplaceAllCh, if_neg hc]
      intro hmem
      rcases List.mem_append.mp hmem with h | h
      · exact hc (List.mem_singleton.mp h).symm
      · exact ih h

/-- C6-counterexample: during the DIP stage, the DIP tag written for the
error `boom` is not `<DIP-failed constant>: boom` — the code prefixes the
DIP tag with the plain failed constant, not the DIP-failed one. -/
theorem dip_failure_tag_counterexample :
    ¬ ((runFailureTags true (gs "boom")).2 =
      some (preservationTagDipFailed ++ gs ": " ++
        TruncateError (gs "boom") 100)) := by
  decide

/-- **C6 (amended).**  On a pipeline failure with message `errMsg`:
before the DIP stage began, the preservation tag is set to
`<failed>: <m>` and the DIP tag is untouched; during the DIP stage, the
DIP tag is set to `<failed>: <m>` (the same `Failed` constant as the
preservation failure tag, not the `DIP Failed` one) and the preservation
tag is set to the `DIP Failed` constant — where `m` is the error message
with line breaks replaced by spaces and truncated to at most 100
bytes. -/
theorem run_failure_tags_spec (errMsg : GoStr) :
    (runFailureTags false errMsg).1 =
      some (preservationTagFailed ++ gs ": " ++ TruncateError errMsg 100) ∧
    (runFailureTags false errMsg).2 = none ∧
    (runFailureTags true errMsg).1 = some preservationTagDipFailed ∧
    (runFailureTags true errMsg).2 =
      some (dipTagFailed ++ gs ": " ++ TruncateError errMsg 100) ∧
    (TruncateError errMsg 100).length ≤ 100 ∧
    '\n' ∉ TruncateError errMsg 100 := by
  refine ⟨by simp [runFailureTags], by simp [runFailureTags],
    by simp [runFailureTags], by simp [runFailureTags], ?_, ?_⟩
  · unfold TruncateError
    by_cases hlen : (goReplaceAllCh '\n' [' '] errMsg).length ≤ 100
    · rw [if_pos hlen]
      exact hlen
    · rw [if_neg hlen]
      have h1 : ((goReplaceAllCh '\n' [' '] errMsg).take (100 - 3)).length ≤
          97 := by
        simp [List.length_take]
      simp only [List.length_append, h1]
      have h2 : (gs "...").length = 3 := by decide
      omega
  · unfold TruncateError
    by_cases hlen : (goReplaceAllCh '\n' [' '] errMsg).length ≤ 100
    · rw [if_pos hlen]
      exact not_mem_goReplaceAllCh '\n' ' ' (by decide) errMsg
    · rw [if_neg hlen]
      intro hmem
      rcases List.mem_append.mp hmem with h | h
      · exact not_mem_goReplaceAllCh '\n' ' ' (by decide) errMsg
          (List.mem_of_mem_take h)
      · revert h
        decide

/-! ### Request fingerprints and in-flight deduplication (claim C3) -/

theorem foldl_colon_map (ns : List CellsNode) (a : GoStr) :
    ns.foldl (fun acc n => acc ++ ':' :: n.path) a
      = (ns.map CellsNode.path).foldl (fun acc p => acc ++ ':' :: p) a := by
  induction ns generalizing a with
  | nil => rfl
  | cons n tl ih =>
    simp only [List.foldl_cons, List.map_cons]
    exact ih _

/-- Claim C3 counterexample: `generateRequestID` concatenates the paths
in the order they are listed, so two requests for the same user and the
same collection of paths in different orders get different fingerprints —
the fingerprint is not order-independent. -/
theorem request_dedup_counterexample :
    generateRequestID ⟨gs "u", [gs "a", gs "b"], []⟩ ≠
      generateRequestID ⟨gs "u", [gs "b", gs "a"], []⟩ := by
  decide

/-- Claim C3 (amended): the fingerprint computed by `generateRequestID`
depends only on the username, the path list in its listed order, and the
node paths in their listed order; while a fingerprint is in flight an
identical request is rejected with HTTP 409 and the active set is left
unchanged; a fresh fingerprint is admitted and recorded, and the deferred
delete on completion restores the active set. -/
theorem request_dedup_spec :
    (∀ r1 r2 : ServiceArgs, r1.cellsUsername = r2.cellsUsername →
      r1.cellsPaths = r2.cellsPaths →
      r1.cellsNodes.map CellsNode.path = r2.cellsNodes.map CellsNode.path →
      generateRequestID r1 = generateRequestID r2) ∧
    (∀ (active : List GoStr) (r : ServiceArgs),
      generateRequestID r ∈ active →
      handleDedup active r = (some 409, active)) ∧
    (∀ (active : List GoStr) (r : ServiceArgs),
      generateRequestID r ∉ active →
      (handleDedup active r).1 = none ∧
      generateRequestID r ∈ (handleDedup active r).2 ∧
      completeRequest (handleDedup active r).2 r = active) := by
  refine ⟨?_, ?_, ?_⟩
  · intro r1 r2 hu hp hn
    have e1 : generateRequestID r1
        = r1.cellsNodes.foldl (fun acc n => acc ++ ':' :: n.path)
            (r1.cellsPaths.foldl (fun acc p => acc ++ ':' :: p)
              r1.cellsUsername) := rfl
    have e2 : generateRequestID r2
        = r2.cellsNodes.foldl (fun acc n => acc ++ ':' :: n.path)
            (r2.cellsPaths.foldl (fun acc p => acc ++ ':' :: p)
              r2.cellsUsername) := rfl
    rw [e1, e2, foldl_colon_map, foldl_colon_map, hu, hp, hn]
  · intro active r h
    simp [handleDedup, h]
  · intro active r h
    refine ⟨?_, ?_, ?_⟩ <;> simp [handleDedup, completeRequest, h]

theorem request_dedup_spec_witness :
    handleDedup [generateRequestID ⟨gs "u", [gs "a"], []⟩]
        ⟨gs "u", [gs "a"], []⟩
      = (some 409, [generateRequestID ⟨gs "u", [gs "a"], []⟩]) :=
  request_dedup_spec.2.1 [generateRequestID ⟨gs "u", [gs "a"], []⟩]
    ⟨gs "u", [gs "a"], []⟩ (by decide)

/-! ### Tag-namespace stickiness (claim C10) -/

theorem gatherNamespaces_pres_sticky (st : TagNamespaceState)
    (m : GoStr → GoStr)
    (h : st.preservationTagNamespace = gs "usermeta-a3m-progress") :
    (gatherNamespaces st m).preservationTagNamespace
      = gs "usermeta-a3m-progress" := by
  by_cases h1 : m (gs "usermeta-a3m-progress") = [] <;>
    by_cases h2 : m (gs "usermeta-dip-progress") = [] <;>
      simp [gatherNamespaces, h1, h2, h]

theorem gatherNamespaces_dip_sticky (st : TagNamespaceState)
    (m : GoStr → GoStr)
    (h : st.dipTagNamespace = gs "usermeta-dip-progress") :
    (gatherNamespaces st m).dipTagNamespace
      = gs "usermeta-dip-progress" := by
  by_cases h1 : m (gs "usermeta-a3m-progress") = [] <;>
    by_cases h2 : m (gs "usermeta-dip-progress") = [] <;>
      simp [gatherNamespaces, h1, h2, h]

theorem gatherNamespaces_pres_set (st : TagNamespaceState)
    (m : GoStr → GoStr) (h : m (gs "usermeta-a3m-progress") ≠ []) :
    (gatherNamespaces st m).preservationTagNamespace
      = gs "usermeta-a3m-progress" := by
  by_cases h2 : m (gs "usermeta-dip-progress") = [] <;>
    simp [gatherNamespaces, h, h2]

theorem gatherNamespaces_dip_set (st : TagNamespaceState)
    (m : GoStr → GoStr) (h : m (gs "usermeta-dip-progress") ≠ []) :
    (gatherNamespaces st m).dipTagNamespace
      = gs "usermeta-dip-progress" := by
  by_cases h1 : m (gs "usermeta-a3m-progress") = [] <;>
    simp [gatherNamespaces, h, h1]

theorem foldRuns_pres_sticky (ms : List (GoStr → GoStr))
    (st : TagNamespaceState)
    (h : st.preservationTagNamespace = gs "usermeta-a3m-progress") :
    (foldRuns st ms).preservationTagNamespace
      = gs "usermeta-a3m-progress" := by
  induction ms generalizing st with
  | nil => exact h
  | cons m tl ih => exact ih _ (gatherNamespaces_pres_sticky _ _ h)

theorem foldRuns_dip_sticky (ms : List (GoStr → GoStr))
    (st : TagNamespaceState)
    (h : st.dipTagNamespace = gs "usermeta-dip-progress") :
    (foldRuns st ms).dipTagNamespace = gs "usermeta-dip-progress" := by
  induction ms generalizing st with
  | nil => exact h
  | cons m tl ih => exact ih _ (gatherNamespaces_dip_sticky _ _ h)

theorem foldRuns_append (a b : List (GoStr → GoStr))
    (st : TagNamespaceState) :
    foldRuns st (a ++ b) = foldRuns (foldRuns st a) b := by
  induction a generalizing st with
  | nil => rfl
  | cons m tl ih => exact ih _

/-- Claim C10: the tag-namespace choices live in package-level variables
shared by every run in the process.  A run that sees the corresponding
variable already set to the legacy namespace leaves it there (the step
never resets it); and as soon as any run in the process history observes
a non-empty `usermeta-a3m-progress` (resp. `usermeta-dip-progress`) key
on its parent node, the preservation (resp. DIP) tag namespace is the
legacy one for that run and every subsequent run, whatever their own
parent keys are. -/
theorem tag_namespace_stickiness :
    (∀ (st : TagNamespaceState) (m : GoStr → GoStr),
      st.preservationTagNamespace = gs "usermeta-a3m-progress" →
      (gatherNamespaces st m).preservationTagNamespace
        = gs "usermeta-a3m-progress") ∧
    (∀ (st : TagNamespaceState) (m : GoStr → GoStr),
      st.dipTagNamespace = gs "usermeta-dip-progress" →
      (gatherNamespaces st m).dipTagNamespace
        = gs "usermeta-dip-progress") ∧
    (∀ (pre : List (GoStr → GoStr)) (m : GoStr → GoStr)
      (post : List (GoStr → GoStr)),
      m (gs "usermeta-a3m-progress") ≠ [] →
      (foldRuns initialTagNamespaces
          (pre ++ m :: post)).preservationTagNamespace
        = gs "usermeta-a3m-progress") ∧
    (∀ (pre : List (GoStr → GoStr)) (m : GoStr → GoStr)
      (post : List (GoStr → GoStr)),
      m (gs "usermeta-dip-progress") ≠ [] →
      (foldRuns initialTagNamespaces (pre ++ m :: post)).dipTagNamespace
        = gs "usermeta-dip-progress") := by
  refine ⟨gatherNamespaces_pres_sticky, gatherNamespaces_dip_sticky,
    ?_, ?_⟩
  · intro pre m post h
    rw [foldRuns_append]
    exact foldRuns_pres_sticky post _ (gatherNamespaces_pres_set _ _ h)
  · intro pre m post h
    rw [foldRuns_append]
    exact foldRuns_dip_sticky post _ (gatherNamespaces_dip_set _ _ h)

theorem tag_namespace_stickiness_witness :
    (foldRuns initialTagNamespaces
        ([fun _ => []]
          ++ (fun k =>
                if k = gs "usermeta-a3m-progress" then gs "1" else [])
            :: [fun _ => []])).preservationTagNamespace
      = gs "usermeta-a3m-progress" :=
  tag_namespace_stickiness.2.2.1 [fun _ => []]
    (fun k => if k = gs "usermeta-a3m-progress" then gs "1" else [])
    [fun _ => []] (by decide)

/-! ### CEC argument sanitisation (claim C9) -/

theorem not_mem_removeCh (old : Char) (s : GoStr) :
    old ∉ goReplaceAllCh old [] s := by
  induction s with
  | nil => simp [goReplaceAllCh]
  | cons a rest ih =>
    by_cases ha : a = old
    · simp only [goReplaceAllCh, if_pos ha, List.nil_append]
      exact ih
    · simp only [goReplaceAllCh, if_neg ha, List.singleton_append,
        List.mem_cons]
      intro h
      rcases h with h | h
      · exact ha h.symm
      · exact ih h

theorem mem_removeCh_subset (old c : Char) (s : GoStr)
    (h : c ∈ goReplaceAllCh old [] s) : c ∈ s := by
  induction s with
  | nil => simp [goReplaceAllCh] at h
  | cons a rest ih =>
    by_cases ha : a = old
    · simp only [goReplaceAllCh, if_pos ha, List.nil_append] at h
      exact List.mem_cons_of_mem _ (ih h)
    · simp only [goReplaceAllCh, if_neg ha, List.singleton_append,
        List.mem_cons] at h
      rcases h with h | h
      · exact h ▸ List.mem_cons_self _ _
      · exact List.mem_cons_of_mem _ (ih h)

theorem sanitizePathArg_no_meta (p : GoStr) (c : Char)
    (hc : c ∈ pathBadChars) : c ∉ sanitizePathArg p := by
  have hc5 : c = ';' ∨ c = '&' ∨ c = '|' ∨ c = Char.ofNat 96 ∨ c = '$' := by
    simpa [pathBadChars] using hc
  intro hmem
  have e : sanitizePathArg p
      = goReplaceAllCh '$' []
          (goReplaceAllCh (Char.ofNat 96) []
            (goReplaceAllCh '|' []
              (goReplaceAllCh '&' []
                (goReplaceAllCh ';' [] (goClean p))))) := rfl
  rw [e] at hmem
  rcases hc5 with h | h | h | h | h <;> subst h
  · exact not_mem_removeCh ';' _
      (mem_removeCh_subset _ _ _ (mem_removeCh_subset _ _ _
        (mem_removeCh_subset _ _ _ (mem_removeCh_subset _ _ _ hmem))))
  · exact not_mem_removeCh '&' _
      (mem_removeCh_subset _ _ _ (mem_removeCh_subset _ _ _
        (mem_removeCh_subset _ _ _ hmem)))
  · exact not_mem_removeCh '|' _
      (mem_removeCh_subset _ _ _ (mem_removeCh_subset _ _ _ hmem))
  · exact not_mem_removeCh (Char.ofNat 96) _
      (mem_removeCh_subset _ _ _ hmem)
  · exact not_mem_removeCh '$' _ hmem

theorem sanitizeStringArg_no_meta (a : GoStr) (c : Char)
    (hc : c ∈ strBadChars) : c ∉ sanitizeStringArg a := by
  have hc7 : c = ';' ∨ c = '&' ∨ c = '|' ∨ c = Char.ofNat 96 ∨ c = '$'
      ∨ c = Char.ofNat 34 ∨ c = Char.ofNat 39 := by
    simpa [strBadChars] using hc
  intro hmem
  have e : sanitizeStringArg a
      = goReplaceAllCh (Char.ofNat 39) []
          (goReplaceAllCh (Char.ofNat 34) []
            (goReplaceAllCh '$' []
              (goReplaceAllCh (Char.ofNat 96) []
                (goReplaceAllCh '|' []
                  (goReplaceAllCh '&' []
                    (goReplaceAllCh ';' [] a)))))) := rfl
  rw [e] at hmem
  rcases hc7 with h | h | h | h | h | h | h <;> subst h
  · exact not_mem_removeCh ';' _
      (mem_removeCh_subset _ _ _ (mem_removeCh_subset _ _ _
        (mem_removeCh_subset _ _ _ (mem_removeCh_subset _ _ _
          (mem_removeCh_subset _ _ _ (mem_removeCh_subset _ _ _ hmem))))))
  · exact not_mem_removeCh '&' _
      (mem_removeCh_subset _ _ _ (mem_removeCh_subset _ _ _
        (mem_removeCh_subset _ _ _ (mem_removeCh_subset _ _ _
          (mem_removeCh_subset _ _ _ hmem)))))
  · exact not_mem_removeCh '|' _
      (mem_removeCh_subset _ _ _ (mem_removeCh_subset _ _ _
        (mem_removeCh_subset _ _ _ (mem_removeCh_subset _ _ _ hmem))))
  · exact not_mem_removeCh (Char.ofNat 96) _
      (mem_removeCh_subset _ _ _ (mem_removeCh_subset _ _ _
        (mem_removeCh_subset _ _ _ hmem)))
  · exact not_mem_removeCh '$' _
      (mem_removeCh_subset _ _ _ (mem_removeCh_subset _ _ _ hmem))
  · exact not_mem_removeCh (Char.ofNat 34) _ (mem_removeCh_subset _ _ _ hmem)
  · exact not_mem_removeCh (Char.ofNat 39) _ hmem

theorem pathBad_subset_strBad : ∀ c ∈ pathBadChars, c ∈ strBadChars := by
  decide

theorem fixed_args_clean :
    ∀ c ∈ pathBadChars,
      c ∉ gs "scp" ∧ c ∉ gs "-n" ∧ c ∉ gs "--url" ∧
      c ∉ gs "--skip-verify" ∧ c ∉ gs "--login" ∧ c ∉ gs "--token" ∧
      c ∉ gs "cells://" ∧ c ∉ gs "/" := by
  decide

/-- Claim C9 counterexample: `sanitizePathArg` removes only `;`, `&`,
`|`, the backquote and `$`; the double-quote survives path sanitisation,
so the quote characters are not removed from path arguments. -/
theorem cec_sanitization_counterexample :
    Char.ofNat 34 ∈ sanitizePathArg (gs "a\"b") := by
  decide

/-- Claim C9 (amended): path arguments are cleaned and stripped of the
shell metacharacters `;`, `&`, `|`, backquote and `$` (but not of the
quote characters); the address and username are stripped of those five
plus both quote characters; and in both the download and the upload
argument vectors every argument other than the token is free of the five
path metacharacters — the token is passed through unsanitised. -/
theorem cec_sanitization_spec :
    (∀ (p : GoStr) (c : Char), c ∈ pathBadChars →
      c ∉ sanitizePathArg p) ∧
    (∀ (a : GoStr) (c : Char), c ∈ strBadChars →
      c ∉ sanitizeStringArg a) ∧
    (∀ (cecPath address username token cellsSrc dest : GoStr)
      (c : Char) (arg : GoStr), c ∈ pathBadChars →
      arg ∈ cecDownloadArgs cecPath address username token cellsSrc dest →
      arg ≠ token → c ∉ arg) ∧
    (∀ (cecPath address username token src cellsDest : GoStr)
      (c : Char) (arg : GoStr), c ∈ pathBadChars →
      arg ∈ cecUploadArgs cecPath address username token src cellsDest →
      arg ≠ token → c ∉ arg) := by
  refine ⟨sanitizePathArg_no_meta, sanitizeStringArg_no_meta, ?_, ?_⟩
  · intro cp ad un tok src dst c arg hc harg hne
    obtain ⟨f1, f2, f3, f4, f5, f6, f7, f8⟩ := fixed_args_clean c hc
    have hcs := pathBad_subset_strBad c hc
    simp only [cecDownloadArgs, List.mem_cons, List.not_mem_nil,
      or_false] at harg
    rcases harg with h | h | h | h | h | h | h | h | h | h | h
    · exact h ▸ sanitizePathArg_no_meta cp c hc
    · exact h ▸ f1
    · exact h ▸ f2
    · exact h ▸ f3
    · exact h ▸ sanitizeStringArg_no_meta ad c hcs
    · exact h ▸ f4
    · exact h ▸ f5
    · exact h ▸ sanitizeStringArg_no_meta un c hcs
    · exact h ▸ f6
    · exact absurd h hne
    · rcases h with h | h
      · subst h
        intro hm
        rcases List.mem_append.mp hm with hm | hm
        · rcases List.mem_append.mp hm with hm | hm
          · exact f7 hm
          · exact sanitizePathArg_no_meta src c hc hm
        · exact f8 hm
      · exact h ▸ sanitizePathArg_no_meta dst c hc
  · intro cp ad un tok src dst c arg hc harg hne
    obtain ⟨f1, f2, f3, f4, f5, f6, f7, f8⟩ := fixed_args_clean c hc
    have hcs := pathBad_subset_strBad c hc
    simp only [cecUploadArgs, List.mem_cons, List.not_mem_nil,
      or_false] at harg
    rcases harg with h | h | h | h | h | h | h | h | h | h | h
    · exact h ▸ sanitizePathArg_no_meta cp c hc
    · exact h ▸ f1
    · exact h ▸ f2
    · exact h ▸ f3
    · exact h ▸ sanitizeStringArg_no_meta ad c hcs
    · exact h ▸ f4
    · exact h ▸ f5
    · exact h ▸ sanitizeStringArg_no_meta un c hcs
    · exact h ▸ f6
    · exact absurd h hne
    · rcases h with h | h
      · exact h ▸ sanitizePathArg_no_meta src c hc
      · subst h
        intro hm
        rcases List.mem_append.mp hm with hm | hm
        · rcases List.mem_append.mp hm with hm | hm
          · exact f7 hm
          · exact sanitizePathArg_no_meta dst c hc hm
        · exact f8 hm

theorem cec_sanitization_spec_witness :
    ';' ∉ sanitizePathArg (gs "a;b") :=
  cec_sanitization_spec.1 (gs "a;b") ';' (by decide)

/-! ### PREMIS preprocessing (claim C8) -/

theorem buildEvents_ok_length (ags : List Agent) (l : List JObj)
    (es : List PremisEvent) (h : buildEvents ags l = Except.ok es) :
    es.length = l.length := by
  induction l generalizing es with
  | nil =>
    simp only [buildEvents, Except.ok.injEq] at h
    subst h
    rfl
  | cons ev rest ih =>
    simp only [buildEvents] at h
    cases hb : buildPremisEvent ags ev with
    | error e => rw [hb] at h; exact absurd h (by simp)
    | ok pe =>
      rw [hb] at h
      cases hr : buildEvents ags rest with
      | error e => rw [hr] at h; exact absurd h (by simp)
      | ok pes =>
        rw [hr] at h
        simp only [Except.ok.injEq] at h
        subst h
        simp [ih pes hr]

theorem cpon_ok_events (decode : GoStr → Option (List JObj))
    (ags : List Agent) (node : TreeNode) (op : GoStr)
    (pobj : PremisObject) (pevents : List PremisEvent)
    (h : constructPremisObjectsFromNode decode ags node op
      = Except.ok (pobj, pevents)) :
    (pevents.length ≠ 0) ↔ nodeHasEventsB decode node = true := by
  simp only [constructPremisObjectsFromNode] at h
  unfold nodeHasEventsB nodeDecodedEvents
  cases h1 : (if node.metaStore (gs "premis") = [] then some []
      else decode (node.metaStore (gs "premis"))) with
  | none => rw [h1] at h; exact absurd h (by simp)
  | some evs1 =>
    rw [h1] at h
    dsimp only [] at h
    cases h2 : (if node.metaStore (gs "usermeta-premis-data") = []
        then some []
        else decode (node.metaStore (gs "usermeta-premis-data"))) with
    | none => rw [h2] at h; exact absurd h (by simp)
    | some evs2 =>
      rw [h2] at h
      dsimp only [] at h
      dsimp only []
      by_cases he : (evs1 ++ evs2).length = 0
      · rw [if_pos he] at h
        simp only [Except.ok.injEq, Prod.mk.injEq] at h
        simp [← h.2, he]
      · rw [if_neg he] at h
        cases hb : buildEvents ags (evs1 ++ evs2) with
        | error e => rw [hb] at h; exact absurd h (by simp)
        | ok pevs =>
          rw [hb] at h
          dsimp only [] at h
          simp only [Except.ok.injEq, Prod.mk.injEq] at h
          have hlen := buildEvents_ok_length ags _ _ hb
          simp [← h.2, hlen, he]

theorem metaLoop_len (decode : GoStr → Option (List JObj))
    (metaJson : TreeNode → GoStr → Option JObj)
    (ags : List Agent) (npfx : GoStr) (nodes : List TreeNode) :
    ∀ (acc res : List PremisObject × List PremisEvent × List JObj),
    metaLoop decode metaJson ags npfx nodes acc = Except.ok res →
    res.1.length = acc.1.length
      + (nodes.filter (fun n => nodeHasEventsB decode n)).length := by
  induction nodes with
  | nil =>
    intro acc res h
    simp only [metaLoop, Except.ok.injEq] at h
    subst h
    simp
  | cons node rest ih =>
    intro acc res h
    simp only [metaLoop] at h
    cases hc : constructPremisObjectsFromNode decode ags node
        (goReplaceFirst node.path npfx (gs "objects/data")) with
    | error e => rw [hc] at h; exact absurd h (by simp)
    | ok pr =>
      obtain ⟨pobj, pevents⟩ := pr
      rw [hc] at h
      dsimp only [] at h
      have hev := cpon_ok_events decode ags node _ pobj pevents hc
      by_cases hpe : pevents.length ≠ 0
      · have hnb : nodeHasEventsB decode node = true := hev.mp hpe
        have hfe : (node :: rest).filter (fun n => nodeHasEventsB decode n)
            = node :: rest.filter (fun n => nodeHasEventsB decode n) := by
          simp [List.filter_cons, hnb]
        rw [hfe, List.length_cons]
        rw [if_pos hpe] at h
        cases hm : metaJson node
            (goReplaceFirst node.path npfx (gs "objects/data")) with
        | none =>
          rw [hm] at h
          dsimp only [] at h
          have hres := ih _ _ h
          simp only [List.length_append, List.length_cons,
            List.length_nil] at hres
          omega
        | some m =>
          rw [hm] at h
          dsimp only [] at h
          have hres := ih _ _ h
          simp only [List.length_append, List.length_cons,
            List.length_nil] at hres
          omega
      · have hnb : nodeHasEventsB decode node = false := by
          cases hx : nodeHasEventsB decode node
          · rfl
          · exact absurd (hev.mpr hx) hpe
        have hfe : (node :: rest).filter (fun n => nodeHasEventsB decode n)
            = rest.filter (fun n => nodeHasEventsB decode n) := by
          simp [List.filter_cons, hnb]
        rw [hfe]
        rw [if_neg hpe] at h
        cases hm : metaJson node
            (goReplaceFirst node.path npfx (gs "objects/data")) with
        | none =>
          rw [hm] at h
          dsimp only [] at h
          exact ih _ _ h
        | some m =>
          rw [hm] at h
          dsimp only [] at h
          have hres := ih _ _ h
          exact hres

theorem construct_objects_count (decode : GoStr → Option (List JObj))
    (metaJson : TreeNode → GoStr → Option JObj)
    (versionIdent : GoStr) (coll : NodesCollection) (userData : IdmUser)
    (organization : GoStr) (pr : Premis) (metas : List JObj)
    (h : constructMetadataFromNodesCollection decode metaJson
      versionIdent coll userData organization = Except.ok (pr, metas)) :
    pr.objects.length = ((coll.children ++ [coll.parent]).filter
      (fun n => nodeHasEventsB decode n)).length := by
  simp only [constructMetadataFromNodesCollection] at h
  cases hm : metaLoop decode metaJson
      (basePremisAgents versionIdent userData organization)
      (goDir coll.parent.path) (coll.children ++ [coll.parent])
      ([], [], []) with
  | error e => rw [hm] at h; exact absurd h (by simp)
  | ok trip =>
    obtain ⟨objs, evs, metas2⟩ := trip
    rw [hm] at h
    dsimp only [] at h
    simp only [Except.ok.injEq, Prod.mk.injEq] at h
    have hlen := metaLoop_len decode metaJson
      (basePremisAgents versionIdent userData organization)
      (goDir coll.parent.path) (coll.children ++ [coll.parent]) _ _ hm
    rw [← h.1]
    simpa using hlen

/-- Claim C8: whenever the metadata phase of `PreprocessPackage`
completes successfully, `metadata/premis.xml` is among the writes iff at
least one node of the collection (children and parent) carries at least
one PREMIS event decoded from `metaStore["premis"]` or the legacy
`metaStore["usermeta-premis-data"]`; every `premis.xml` write targets
`metadata/premis.xml` with file mode 0600; and the PREMIS document holds
exactly one object per node with events, so a node whose two keys yield
no events contributes no object. -/
theorem preprocess_premis_spec (validate : Premis → Option GoStr)
    (decode : GoStr → Option (List JObj))
    (metaJson : TreeNode → GoStr → Option JObj)
    (versionIdent metadataDir : GoStr) (coll : NodesCollection)
    (userData : IdmUser) (organization : GoStr) :
    (∀ writes, preprocessMetadataPhase validate decode metaJson
        versionIdent metadataDir coll userData organization
        = Except.ok writes →
      ((MetaWrite.premisXml (goJoin2 metadataDir (gs "premis.xml")) 0o600
          ∈ writes) ↔
        ∃ node ∈ coll.children ++ [coll.parent],
          nodeHasEventsB decode node = true) ∧
      (∀ p m, MetaWrite.premisXml p m ∈ writes →
        p = goJoin2 metadataDir (gs "premis.xml") ∧ m = 0o600)) ∧
    (∀ (pr : Premis) (metas : List JObj),
      constructMetadataFromNodesCollection decode metaJson versionIdent
          coll userData organization = Except.ok (pr, metas) →
      pr.objects.length = ((coll.children ++ [coll.parent]).filter
        (fun n => nodeHasEventsB decode n)).length) := by
  constructor
  · intro writes h
    simp only [preprocessMetadataPhase] at h
    cases hc : constructMetadataFromNodesCollection decode metaJson
        versionIdent coll userData organization with
    | error e => rw [hc] at h; exact absurd h (by simp)
    | ok pm =>
      obtain ⟨pr, metas⟩ := pm
      rw [hc] at h
      dsimp only [] at h
      have hcount := construct_objects_count decode metaJson versionIdent
        coll userData organization pr metas hc
      have hexist : pr.objects.length ≠ 0 ↔
          ∃ node ∈ coll.children ++ [coll.parent],
            nodeHasEventsB decode node = true := by
        rw [hcount]
        constructor
        · intro hne
          have : (coll.children ++ [coll.parent]).filter
              (fun n => nodeHasEventsB decode n) ≠ [] := by
            intro hnil
            rw [hnil] at hne
            exact hne rfl
          obtain ⟨x, hx⟩ := List.exists_mem_of_ne_nil _ this
          exact ⟨x, List.mem_of_mem_filter hx,
            List.of_mem_filter hx⟩
        · intro ⟨node, hmem, hB⟩
          have : node ∈ (coll.children ++ [coll.parent]).filter
              (fun n => nodeHasEventsB decode n) :=
            List.mem_filter.mpr ⟨hmem, hB⟩
          intro hzero
          rw [List.length_eq_zero] at hzero
          rw [hzero] at this
          exact absurd this (List.not_mem_nil _)
      by_cases hno : pr.objects.length ≠ 0
      · rw [if_pos hno] at h
        cases hv : validate pr with
        | some e => rw [hv] at h; exact absurd h (by simp)
        | none =>
          rw [hv] at h
          dsimp only [] at h
          simp only [Except.ok.injEq] at h
          subst h
          constructor
          · constructor
            · intro _
              exact hexist.mp hno
            · intro _
              exact List.mem_append_left _ (List.mem_singleton.mpr rfl)
          · intro p m hmem
            rcases List.mem_append.mp hmem with hm1 | hm1
            · have h1 := List.mem_singleton.mp hm1
              injection h1 with hp hm2
              exact ⟨hp, hm2⟩
            · by_cases hma : metas.length > 0
              · rw [if_pos hma] at hm1
                exact absurd (List.mem_singleton.mp hm1) (by simp)
              · rw [if_neg hma] at hm1
                exact absurd hm1 (List.not_mem_nil _)
      · rw [if_neg hno] at h
        simp only [Except.ok.injEq] at h
        subst h
        have hnotin : MetaWrite.premisXml
            (goJoin2 metadataDir (gs "premis.xml")) 0o600
            ∉ (if metas.length > 0 then
                [MetaWrite.metadataJson
                  (goJoin2 metadataDir (gs "metadata.json")) 0o600]
              else []) := by
          by_cases hma : metas.length > 0
          · rw [if_pos hma]
            intro hmem
            exact absurd (List.mem_singleton.mp hmem) (by simp)
          · rw [if_neg hma]
            exact List.not_mem_nil _
        constructor
        · constructor
          · intro hmem
            exact absurd hmem hnotin
          · intro hex
            exact absurd (hexist.mpr hex) hno
        · intro p m hmem
          by_cases hma : metas.length > 0
          · rw [if_pos hma] at hmem
            exact absurd (List.mem_singleton.mp hmem) (by simp)
          · rw [if_neg hma] at hmem
            exact absurd hmem (List.not_mem_nil _)
  · intro pr metas hc
    exact construct_objects_count decode metaJson versionIdent coll
      userData organization pr metas hc

theorem preprocess_premis_spec_witness :
    ((MetaWrite.premisXml (goJoin2 (gs "/t/metadata") (gs "premis.xml"))
        0o600 ∈ ([] : List MetaWrite)) ↔
      ∃ node ∈ ([] : List TreeNode)
          ++ [(⟨gs "/p", gs "u", fun _ => []⟩ : TreeNode)],
        nodeHasEventsB (fun _ => none) node = true) ∧
    (∀ p m, MetaWrite.premisXml p m ∈ ([] : List MetaWrite) →
      p = goJoin2 (gs "/t/metadata") (gs "premis.xml") ∧ m = 0o600) :=
  (preprocess_premis_spec (fun _ => none) (fun _ => none)
    (fun _ _ => none) (gs "v") (gs "/t/metadata")
    ⟨⟨gs "/p", gs "u", fun _ => []⟩, []⟩
    ⟨gs "uu", gs "l", gs "g"⟩ (gs "o")).1 [] rfl

/-! ### Cells path resolution (claim C7) -/

theorem firstSegment_append (pre t : GoStr) (h : '/' ∉ pre) :
    firstSegment (pre ++ '/' :: t) = pre := by
  induction pre with
  | nil =>
    simp only [firstSegment, List.nil_append]
    rw [List.takeWhile_cons_of_neg]
    simp
  | cons c cs ih =>
    have hc : ¬c = '/' := fun hh => h (hh ▸ List.mem_cons_self c cs)
    have hcs : '/' ∉ cs := fun hh => h (List.mem_cons_of_mem _ hh)
    simp only [firstSegment, List.cons_append]
    rw [List.takeWhile_cons_of_pos (by simp [hc])]
    have := ih hcs
    simp only [firstSegment] at this
    rw [this]

theorem replaceFirst_of_pref (pre t new : GoStr) (h : pre ≠ []) :
    goReplaceFirst (pre ++ t) pre new = new ++ t := by
  unfold goReplaceFirst
  rw [if_neg h]
  cases pre with
  | nil => exact absurd rfl h
  | cons c cs =>
    simp only [List.cons_append, replaceFirstLoop, List.append_eq]
    rw [if_pos]
    · rw [← List.cons_append, List.drop_left]
    · rw [isPrefixOf_iff_take]
      rw [← List.cons_append]
      rw [List.take_append_eq_append_take, List.take_length,
        Nat.sub_self, List.take_zero, List.append_nil]

/-- Claim C7: for an input path `wsRoot ++ "/" ++ rest` whose first
segment `wsRoot` (non-empty, slash-free) matches a known workspace, a
successful `ResolveCellsPath` rewrites only the leading component —
the tail `"/" ++ rest` is preserved verbatim — and when the workspace
carries a resolution template the leading component becomes exactly the
template with `DataSources.<ds>` collapsed, and `User.Name` /
`User.Group` substituted by the caller's login and group. -/
theorem resolve_cells_path_spec (stat : GoStr → Bool)
    (coll : WorkspaceCollection) (login group wsRoot rest out : GoStr)
    (hne : wsRoot ≠ []) (hns : '/' ∉ wsRoot)
    (hok : resolveCellsPath stat coll login group (wsRoot ++ '/' :: rest)
      = Except.ok out) :
    (∃ head, out = head ++ '/' :: rest) ∧
    (∀ ws roots resolution datasource,
      findWorkspace coll.workspaces wsRoot = some ws →
      ws.rootNodes = some roots →
      findResolutionLoop roots [] = (resolution, datasource) →
      resolution ≠ [] →
      ∀ template, parseWorkspaceResolution resolution
        = Except.ok template →
      out = resolveResolution template login group ++ '/' :: rest) := by
  have hseg := firstSegment_append wsRoot rest hns
  simp only [resolveCellsPath, hseg] at hok
  cases hfw : findWorkspace coll.workspaces wsRoot with
  | none => rw [hfw] at hok; exact absurd hok (by simp)
  | some ws =>
    rw [hfw] at hok
    dsimp only [] at hok
    cases hrn : ws.rootNodes with
    | none => rw [hrn] at hok; exact absurd hok (by simp)
    | some roots =>
      rw [hrn] at hok
      dsimp only [] at hok
      cases hp : findResolutionLoop roots [] with
      | mk resolution datasource =>
        rw [hp] at hok
        dsimp only [] at hok
        by_cases hres : resolution = []
        · rw [if_pos hres] at hok
          by_cases hds : datasource = []
          · rw [if_pos hds] at hok
            exact absurd hok (by simp)
          · rw [if_neg hds] at hok
            by_cases hst : stat (goReplaceFirst (wsRoot ++ '/' :: rest)
                wsRoot datasource) = true
            · rw [if_pos hst] at hok
              simp only [Except.ok.injEq] at hok
              constructor
              · exact ⟨datasource, by
                  rw [← hok, replaceFirst_of_pref _ _ _ hne]⟩
              · intro ws' roots' res' ds' h1 h2 h3 h4 t' h5
                injection h1 with h1
                subst h1
                rw [hrn] at h2
                injection h2 with h2
                subst h2
                rw [hp] at h3
                injection h3 with h3a h3b
                exact absurd (h3a ▸ hres) h4
            · rw [if_neg hst] at hok
              exact absurd hok (by simp)
        · rw [if_neg hres] at hok
          cases hpw : parseWorkspaceResolution resolution with
          | error e => rw [hpw] at hok; exact absurd hok (by simp)
          | ok template =>
            rw [hpw] at hok
            dsimp only [] at hok
            simp only [Except.ok.injEq] at hok
            have hout : out = resolveResolution template login group
                ++ '/' :: rest := by
              rw [← hok, replaceFirst_of_pref _ _ _ hne]
            constructor
            · exact ⟨resolveResolution template login group, hout⟩
            · intro ws' roots' res' ds' h1 h2 h3 h4 t' h5
              injection h1 with h1
              subst h1
              rw [hrn] at h2
              injection h2 with h2
              subst h2
              rw [hp] at h3
              injection h3 with h3a h3b
              subst h3a
              rw [hpw] at h5
              injection h5 with h5
              subst h5
              exact hout

theorem resolve_cells_path_spec_witness :
    (∃ head, gs "personal/alice/x/y" = head ++ '/' :: gs "x/y") ∧
    (∀ ws roots resolution datasource,
      findWorkspace wsExampleCollection.workspaces (gs "ws")
        = some ws →
      ws.rootNodes = some roots →
      findResolutionLoop roots [] = (resolution, datasource) →
      resolution ≠ [] →
      ∀ template, parseWorkspaceResolution resolution
        = Except.ok template →
      gs "personal/alice/x/y"
        = resolveResolution template (gs "alice") (gs "grp")
          ++ '/' :: gs "x/y") :=
  resolve_cells_path_spec (fun _ => true) wsExampleCollection
    (gs "alice") (gs "grp") (gs "ws") (gs "x/y")
    (gs "personal/alice/x/y") (by decide) (by decide) (by rfl)

/-! ### APS admission control (claim C2) -/

theorem getElem?_some_lt (l : List Phase) (i : Nat) (p : Phase)
    (h : l[i]? = some p) : i < l.length := by
  by_contra hk
  rw [List.getElem?_eq_none (by omega)] at h
  exact absurd h (by simp)

theorem countHolding_set (ps : List Phase) (i : Nat) (p q : Phase)
    (h : ps[i]? = some p) :
    countHolding (ps.set i q) + holdB p = countHolding ps + holdB q := by
  induction ps generalizing i with
  | nil => simp at h
  | cons a tl ih =>
    cases i with
    | zero =>
      simp only [List.getElem?_cons_zero, Option.some.injEq] at h
      subst h
      simp only [List.set, countHolding, List.map_cons, List.sum_cons]
      omega
    | succ n =>
      simp only [List.getElem?_cons_succ] at h
      have := ih n h
      simp only [List.set, countHolding, List.map_cons,
        List.sum_cons] at this ⊢
      omega

theorem one_holding (ps : List Phase) (i : Nat) (p : Phase)
    (hp : holdB p = 1) (h : ps[i]? = some p) : 1 ≤ countHolding ps := by
  induction ps generalizing i with
  | nil => simp at h
  | cons a tl ih =>
    cases i with
    | zero =>
      simp only [List.getElem?_cons_zero, Option.some.injEq] at h
      subst h
      simp only [countHolding, List.map_cons, List.sum_cons]
      omega
    | succ n =>
      simp only [List.getElem?_cons_succ] at h
      have := ih n h
      simp only [countHolding, List.map_cons, List.sum_cons] at this ⊢
      omega

theorem two_holding (ps : List Phase) (i j : Nat) (p q : Phase)
    (hij : i ≠ j) (hpi : holdB p = 1) (hqj : holdB q = 1)
    (hi : ps[i]? = some p) (hj : ps[j]? = some q) :
    2 ≤ countHolding ps := by
  induction ps generalizing i j with
  | nil => simp at hi
  | cons a tl ih =>
    cases i with
    | zero =>
      cases j with
      | zero => exact absurd rfl hij
      | succ m =>
        simp only [List.getElem?_cons_zero, Option.some.injEq] at hi
        simp only [List.getElem?_cons_succ] at hj
        subst hi
        have := one_holding tl m q hqj hj
        simp only [countHolding, List.map_cons, List.sum_cons] at this ⊢
        omega
    | succ n =>
      cases j with
      | zero =>
        simp only [List.getElem?_cons_zero, Option.some.injEq] at hj
        simp only [List.getElem?_cons_succ] at hi
        subst hj
        have := one_holding tl n p hpi hi
        simp only [countHolding, List.map_cons, List.sum_cons] at this ⊢
        omega
      | succ m =>
        simp only [List.getElem?_cons_succ] at hi hj
        have := ih n m (fun hh => hij (by omega)) hi hj
        simp only [countHolding, List.map_cons, List.sum_cons] at this ⊢
        omega

theorem a3mStep_inv (st st' : A3mState) (e : A3mEvent)
    (h : a3mStep st e = some st') (hI : a3mInv st) :
    a3mInv st' ∧ st'.cap = st.cap := by
  obtain ⟨htok, hcap⟩ := hI
  cases e with
  | acquire i =>
    simp only [a3mStep] at h
    cases hc : st.callers[i]? with
    | none => rw [hc] at h; exact absurd h (by simp)
    | some p =>
      rw [hc] at h
      cases p <;> dsimp only [] at h
      case waiting =>
        by_cases hlt : st.tokens < st.cap
        · rw [if_pos hlt] at h
          simp only [Option.some.injEq] at h
          subst h
          have hset := countHolding_set st.callers i Phase.waiting
            Phase.acquired hc
          have e1 : holdB Phase.waiting = 0 := rfl
          have e2 : holdB Phase.acquired = 1 := rfl
          exact ⟨⟨by dsimp only []; omega, by dsimp only []; omega⟩, rfl⟩
        · rw [if_neg hlt] at h; exact absurd h (by simp)
      all_goals exact absurd h (by simp)
  | cancelWait i =>
    simp only [a3mStep] at h
    cases hc : st.callers[i]? with
    | none => rw [hc] at h; exact absurd h (by simp)
    | some p =>
      rw [hc] at h
      cases p <;> dsimp only [] at h
      case waiting =>
        simp only [Option.some.injEq] at h
        subst h
        have hset := countHolding_set st.callers i Phase.waiting
          Phase.cancelledWait hc
        have e1 : holdB Phase.waiting = 0 := rfl
        have e2 : holdB Phase.cancelledWait = 0 := rfl
        exact ⟨⟨by dsimp only []; omega, by dsimp only []; omega⟩, rfl⟩
      all_goals exact absurd h (by simp)
  | submitRPC i =>
    simp only [a3mStep] at h
    cases hc : st.callers[i]? with
    | none => rw [hc] at h; exact absurd h (by simp)
    | some p =>
      rw [hc] at h
      cases p <;> dsimp only [] at h
      case acquired =>
        simp only [Option.some.injEq] at h
        subst h
        have hset := countHolding_set st.callers i Phase.acquired
          Phase.submitted hc
        have e1 : holdB Phase.acquired = 1 := rfl
        have e2 : holdB Phase.submitted = 1 := rfl
        exact ⟨⟨by dsimp only []; omega, by dsimp only []; omega⟩, rfl⟩
      all_goals exact absurd h (by simp)
  | finish i =>
    simp only [a3mStep] at h
    cases hc : st.callers[i]? with
    | none => rw [hc] at h; exact absurd h (by simp)
    | some p =>
      rw [hc] at h
      cases p <;> dsimp only [] at h
      case submitted =>
        simp only [Option.some.injEq] at h
        subst h
        have hset := countHolding_set st.callers i Phase.submitted
          Phase.done hc
        have e1 : holdB Phase.submitted = 1 := rfl
        have e2 : holdB Phase.done = 0 := rfl
        exact ⟨⟨by dsimp only []; omega, by dsimp only []; omega⟩, rfl⟩
      all_goals exact absurd h (by simp)

theorem a3mRun_inv (tr : List A3mEvent) (st st' : A3mState)
    (h : a3mRun st tr = some st') (hI : a3mInv st) :
    a3mInv st' ∧ st'.cap = st.cap := by
  induction tr generalizing st with
  | nil =>
    simp only [a3mRun, Option.some.injEq] at h
    subst h
    exact ⟨hI, rfl⟩
  | cons e tl ih =>
    simp only [a3mRun] at h
    cases hs : a3mStep st e with
    | none => rw [hs] at h; exact absurd h (by simp)
    | some st2 =>
      rw [hs] at h
      obtain ⟨h2, hcap2⟩ := a3mStep_inv st st2 e hs hI
      obtain ⟨h3, hcap3⟩ := ih st2 h h2
      exact ⟨h3, hcap3.trans hcap2⟩

theorem a3mRun_append (a b : List A3mEvent) (st : A3mState) :
    a3mRun st (a ++ b) = (match a3mRun st a with
      | some st2 => a3mRun st2 b
      | none => none) := by
  induction a generalizing st with
  | nil => rfl
  | cons e tl ih =>
    simp only [List.cons_append, a3mRun]
    cases a3mStep st e with
    | none => rfl
    | some st2 => exact ih st2

theorem a3mStep_other (st st' : A3mState) (e : A3mEvent) (i : Nat)
    (h : a3mStep st e = some st') (hne : e.idx ≠ i) :
    st'.callers[i]? = st.callers[i]? := by
  cases e with
  | acquire j =>
    simp only [A3mEvent.idx] at hne
    simp only [a3mStep] at h
    cases hc : st.callers[j]? with
    | none => rw [hc] at h; exact absurd h (by simp)
    | some p =>
      rw [hc] at h
      cases p <;> dsimp only [] at h
      case waiting =>
        by_cases hlt : st.tokens < st.cap
        · rw [if_pos hlt] at h
          simp only [Option.some.injEq] at h
          subst h
          exact List.getElem?_set_ne hne
        · rw [if_neg hlt] at h; exact absurd h (by simp)
      all_goals exact absurd h (by simp)
  | cancelWait j =>
    simp only [A3mEvent.idx] at hne
    simp only [a3mStep] at h
    cases hc : st.callers[j]? with
    | none => rw [hc] at h; exact absurd h (by simp)
    | some p =>
      rw [hc] at h
      cases p <;> dsimp only [] at h
      case waiting =>
        simp only [Option.some.injEq] at h
        subst h
        exact List.getElem?_set_ne hne
      all_goals exact absurd h (by simp)
  | submitRPC j =>
    simp only [A3mEvent.idx] at hne
    simp only [a3mStep] at h
    cases hc : st.callers[j]? with
    | none => rw [hc] at h; exact absurd h (by simp)
    | some p =>
      rw [hc] at h
      cases p <;> dsimp only [] at h
      case acquired =>
        simp only [Option.some.injEq] at h
        subst h
        exact List.getElem?_set_ne hne
      all_goals exact absurd h (by simp)
  | finish j =>
    simp only [A3mEvent.idx] at hne
    simp only [a3mStep] at h
    cases hc : st.callers[j]? with
    | none => rw [hc] at h; exact absurd h (by simp)
    | some p =>
      rw [hc] at h
      cases p <;> dsimp only [] at h
      case submitted =>
        simp only [Option.some.injEq] at h
        subst h
        exact List.getElem?_set_ne hne
      all_goals exact absurd h (by simp)

theorem submit_step_inv (st st' : A3mState) (i : Nat)
    (h : a3mStep st (A3mEvent.submitRPC i) = some st') :
    st.callers[i]? = some Phase.acquired ∧
    st'.callers[i]? = some Phase.submitted := by
  simp only [a3mStep] at h
  cases hc : st.callers[i]? with
  | none => rw [hc] at h; exact absurd h (by simp)
  | some p =>
    rw [hc] at h
    cases p <;> dsimp only [] at h
    case acquired =>
      simp only [Option.some.injEq] at h
      subst h
      exact ⟨rfl, List.getElem?_set_self (getElem?_some_lt _ _ _ hc)⟩
    all_goals exact absurd h (by simp)

theorem cancel_step_inv (st st' : A3mState) (i : Nat)
    (h : a3mStep st (A3mEvent.cancelWait i) = some st') :
    st.callers[i]? = some Phase.waiting ∧
    st'.callers[i]? = some Phase.cancelledWait := by
  simp only [a3mStep] at h
  cases hc : st.callers[i]? with
  | none => rw [hc] at h; exact absurd h (by simp)
  | some p =>
    rw [hc] at h
    cases p <;> dsimp only [] at h
    case waiting =>
      simp only [Option.some.injEq] at h
      subst h
      exact ⟨rfl, List.getElem?_set_self (getElem?_some_lt _ _ _ hc)⟩
    all_goals exact absurd h (by simp)

theorem a3mStep_cancel_stuck (st st' : A3mState) (e : A3mEvent) (i : Nat)
    (h : a3mStep st e = some st')
    (hp : st.callers[i]? = some Phase.cancelledWait) :
    st'.callers[i]? = some Phase.cancelledWait := by
  by_cases hidx : e.idx = i
  · cases e <;> simp only [A3mEvent.idx] at hidx <;> subst hidx <;>
      simp [a3mStep, hp] at h
  · rw [a3mStep_other st st' e i h hidx]
    exact hp

theorem a3mRun_cancel_stuck (tr : List A3mEvent) (st st' : A3mState)
    (i : Nat) (h : a3mRun st tr = some st')
    (hp : st.callers[i]? = some Phase.cancelledWait) :
    A3mEvent.submitRPC i ∉ tr := by
  induction tr generalizing st with
  | nil => simp
  | cons e tl ih =>
    simp only [a3mRun] at h
    cases hs : a3mStep st e with
    | none => rw [hs] at h; exact absurd h (by simp)
    | some st2 =>
      rw [hs] at h
      have hp2 := a3mStep_cancel_stuck st st2 e i hs hp
      have hnot := ih st2 h hp2
      simp only [List.mem_cons, not_or]
      refine ⟨?_, hnot⟩
      intro he
      subst he
      simp [a3mStep, hp] at hs

theorem a3mStep_not_waiting (st st' : A3mState) (e : A3mEvent) (i : Nat)
    (h : a3mStep st e = some st')
    (hp : st.callers[i]? ≠ some Phase.waiting) :
    st'.callers[i]? ≠ some Phase.waiting := by
  by_cases hidx : e.idx = i
  · cases e with
    | acquire j =>
      simp only [A3mEvent.idx] at hidx
      subst hidx
      simp only [a3mStep] at h
      exact absurd h (by simp)
    | cancelWait j =>
      simp only [A3mEvent.idx] at hidx
      subst hidx
      simp only [a3mStep] at h
      exact absurd h (by simp)
    | submitRPC j =>
      simp only [A3mEvent.idx] at hidx
      subst hidx
      have := (submit_step_inv st st' j h).2
      rw [this]
      simp
    | finish j =>
      simp only [A3mEvent.idx] at hidx
      subst hidx
      simp only [a3mStep] at h
      cases hc : st.callers[j]? with
      | none => rw [hc] at h; exact absurd h (by simp)
      | some p =>
        rw [hc] at h
        cases p <;> dsimp only [] at h
        · exact absurd h (by simp)
        · exact absurd h (by simp)
        · simp only [Option.some.injEq] at h
          subst h
          rw [List.getElem?_set_self (getElem?_some_lt _ _ _ hc)]
          simp
        · exact absurd h (by simp)
        · exact absurd h (by simp)
  · rw [a3mStep_other st st' e i h hidx]
    exact hp

theorem a3mRun_not_waiting (tr : List A3mEvent) (st st' : A3mState)
    (i : Nat) (h : a3mRun st tr = some st')
    (hp : st.callers[i]? ≠ some Phase.waiting) :
    st'.callers[i]? ≠ some Phase.waiting := by
  induction tr generalizing st with
  | nil =>
    simp only [a3mRun, Option.some.injEq] at h
    subst h
    exact hp
  | cons e tl ih =>
    simp only [a3mRun] at h
    cases hs : a3mStep st e with
    | none => rw [hs] at h; exact absurd h (by simp)
    | some st2 =>
      rw [hs] at h
      exact ih st2 h (a3mStep_not_waiting st st2 e i hs hp)

theorem a3mStep_submitted_stable (st st' : A3mState) (e : A3mEvent)
    (i : Nat) (h : a3mStep st e = some st')
    (hp : st.callers[i]? = some Phase.submitted)
    (hne : e ≠ A3mEvent.finish i) :
    st'.callers[i]? = some Phase.submitted := by
  by_cases hidx : e.idx = i
  · cases e with
    | acquire j =>
      simp only [A3mEvent.idx] at hidx
      subst hidx
      simp [a3mStep, hp] at h
    | cancelWait j =>
      simp only [A3mEvent.idx] at hidx
      subst hidx
      simp [a3mStep, hp] at h
    | submitRPC j =>
      simp only [A3mEvent.idx] at hidx
      subst hidx
      simp [a3mStep, hp] at h
    | finish j =>
      simp only [A3mEvent.idx] at hidx
      subst hidx
      exact absurd rfl hne
  · rw [a3mStep_other st st' e i h hidx]
    exact hp

theorem a3mRun_submitted_stable (tr : List A3mEvent) (st st' : A3mState)
    (i : Nat) (h : a3mRun st tr = some st')
    (hp : st.callers[i]? = some Phase.submitted)
    (hnf : A3mEvent.finish i ∉ tr) :
    st'.callers[i]? = some Phase.submitted := by
  induction tr generalizing st with
  | nil =>
    simp only [a3mRun, Option.some.injEq] at h
    subst h
    exact hp
  | cons e tl ih =>
    simp only [List.mem_cons, not_or] at hnf
    simp only [a3mRun] at h
    cases hs : a3mStep st e with
    | none => rw [hs] at h; exact absurd h (by simp)
    | some st2 =>
      rw [hs] at h
      exact ih st2 h
        (a3mStep_submitted_stable st st2 e i hs hp
          (fun he => hnf.1 he.symm)) hnf.2

/-- Claim C2: with admission capacity 1 (the `NewClient` default), in
every interleaving of any number of concurrent `SubmitPackage` calls at
most one caller holds the admission token — hence at most one Submit RPC
is outstanding — at any time; a caller that loses the admission `select`
to its cancelled context never issues a Submit RPC; and when two
distinct callers both issue Submit RPCs, the earlier caller finishes
(releasing its slot via the deferred receive) strictly between the two
RPCs. -/
theorem a3m_admission_spec :
    (∀ (n : Nat) (tr : List A3mEvent) (st : A3mState),
      a3mRun (a3mInit 1 n) tr = some st →
      countHolding st.callers ≤ 1 ∧ st.tokens ≤ 1) ∧
    (∀ (n : Nat) (tr : List A3mEvent) (st : A3mState) (i : Nat),
      a3mRun (a3mInit 1 n) tr = some st →
      A3mEvent.cancelWait i ∈ tr → A3mEvent.submitRPC i ∉ tr) ∧
    (∀ (n : Nat) (pre mid post : List A3mEvent) (i j : Nat)
      (st : A3mState),
      a3mRun (a3mInit 1 n)
        (pre ++ A3mEvent.submitRPC i
          :: (mid ++ A3mEvent.submitRPC j :: post)) = some st →
      i ≠ j → A3mEvent.finish i ∈ mid) := by
  have hinit : ∀ n : Nat, a3mInv (a3mInit 1 n) := by
    intro n
    constructor
    · show (0 : Nat) = countHolding (List.replicate n Phase.waiting)
      simp [countHolding, List.map_replicate, holdB, List.sum_replicate]
    · show (0 : Nat) ≤ 1
      omega
  refine ⟨?_, ?_, ?_⟩
  · intro n tr st h
    obtain ⟨⟨htok, hle⟩, hcap⟩ := a3mRun_inv tr _ st h (hinit n)
    have hc1 : st.cap = 1 := by rw [hcap]; rfl
    constructor
    · omega
    · omega
  · intro n tr st i h hmemC hmemS
    obtain ⟨l1, l2, rfl⟩ := List.append_of_mem hmemC
    rcases List.mem_append.mp hmemS with hS | hS
    · obtain ⟨a, b, rfl⟩ := List.append_of_mem hS
      rw [a3mRun_append] at h
      cases hr1 : a3mRun (a3mInit 1 n)
          (a ++ A3mEvent.submitRPC i :: b) with
      | none => rw [hr1] at h; exact absurd h (by simp)
      | some st1 =>
        rw [hr1] at h
        dsimp only [] at h
        rw [a3mRun_append] at hr1
        cases hr2 : a3mRun (a3mInit 1 n) a with
        | none => rw [hr2] at hr1; exact absurd hr1 (by simp)
        | some st0 =>
          rw [hr2] at hr1
          dsimp only [] at hr1
          simp only [a3mRun] at hr1
          cases hs1 : a3mStep st0 (A3mEvent.submitRPC i) with
          | none => rw [hs1] at hr1; exact absurd hr1 (by simp)
          | some st0' =>
            rw [hs1] at hr1
            have hsub := (submit_step_inv st0 st0' i hs1).2
            have hnw : st1.callers[i]? ≠ some Phase.waiting :=
              a3mRun_not_waiting b st0' st1 i hr1
                (by rw [hsub]; simp)
            simp only [a3mRun] at h
            cases hs2 : a3mStep st1 (A3mEvent.cancelWait i) with
            | none => rw [hs2] at h; exact absurd h (by simp)
            | some st2 =>
              exact absurd (cancel_step_inv st1 st2 i hs2).1 hnw
    · rcases List.mem_cons.mp hS with hS | hS
      · exact absurd hS (by simp)
      · rw [a3mRun_append] at h
        cases hr1 : a3mRun (a3mInit 1 n) l1 with
        | none => rw [hr1] at h; exact absurd h (by simp)
        | some st1 =>
          rw [hr1] at h
          dsimp only [] at h
          simp only [a3mRun] at h
          cases hs1 : a3mStep st1 (A3mEvent.cancelWait i) with
          | none => rw [hs1] at h; exact absurd h (by simp)
          | some st2 =>
            rw [hs1] at h
            have hcw := (cancel_step_inv st1 st2 i hs1).2
            exact absurd hS (a3mRun_cancel_stuck l2 st2 st i h hcw)
  · intro n pre mid post i j st h hij
    by_contra hfin
    rw [a3mRun_append] at h
    cases hr1 : a3mRun (a3mInit 1 n) pre with
    | none => rw [hr1] at h; exact absurd h (by simp)
    | some st1 =>
      rw [hr1] at h
      dsimp only [] at h
      simp only [a3mRun] at h
      cases hs1 : a3mStep st1 (A3mEvent.submitRPC i) with
      | none => rw [hs1] at h; exact absurd h (by simp)
      | some st2 =>
        rw [hs1] at h
        dsimp only [] at h
        have hi2 := (submit_step_inv st1 st2 i hs1).2
        rw [a3mRun_append] at h
        cases hr2 : a3mRun st2 mid with
        | none => rw [hr2] at h; exact absurd h (by simp)
        | some st3 =>
          rw [hr2] at h
          dsimp only [] at h
          have hi3 : st3.callers[i]? = some Phase.submitted :=
            a3mRun_submitted_stable mid st2 st3 i hr2 hi2 hfin
          simp only [a3mRun] at h
          cases hs2 : a3mStep st3 (A3mEvent.submitRPC j) with
          | none => rw [hs2] at h; exact absurd h (by simp)
          | some st4 =>
            have hj3 := (submit_step_inv st3 st4 j hs2).1
            have h2c := two_holding st3.callers i j Phase.submitted
              Phase.acquired hij rfl rfl hi3 hj3
            have hinv1 := a3mRun_inv pre _ st1 hr1 (hinit n)
            have hinv2 := a3mStep_inv st1 st2 _ hs1 hinv1.1
            have hinv3 := a3mRun_inv mid st2 st3 hr2 hinv2.1
            have hcap : st3.cap = 1 := by
              rw [hinv3.2, hinv2.2, hinv1.2]
              rfl
            obtain ⟨htok, hle⟩ := hinv3.1
            omega

theorem a3m_admission_spec_witness :
    countHolding
        (⟨1, 1, [Phase.submitted, Phase.waiting]⟩ : A3mState).callers
      ≤ 1 ∧
    (⟨1, 1, [Phase.submitted, Phase.waiting]⟩ : A3mState).tokens ≤ 1 :=
  a3m_admission_spec.1 2 [A3mEvent.acquire 0, A3mEvent.submitRPC 0]
    ⟨1, 1, [Phase.submitted, Phase.waiting]⟩ (by rfl)

/-! ### ZIP round-trip (claim C5) -/

theorem goClean_under (D : GoStr) (hD : Canonical D) (hD1 : D ≠ ['.'])
    (hD2 : D ≠ ['/']) (segs : List GoStr) (tl : GoStr)
    (hg : ∀ s ∈ segs, goodSeg s) (hne : segs ≠ [])
    (htl : tl = [] ∨ tl = ['/']) :
    goClean (D ++ '/' :: '/' :: (joinSl segs ++ tl))
      = D ++ '/' :: joinSl segs := by
  rcases hD with rfl | ⟨segsD, hgD, rfl⟩ | ⟨k, segsD, hgD, h1, rfl⟩
  · exact absurd rfl hD1
  · have hDne : segsD ≠ [] := by
      intro hnil
      subst hnil
      exact hD2 rfl
    obtain ⟨m, hm⟩ := cl_root_run segsD
      ('/' :: '/' :: (joinSl segs ++ tl)) hgD
    unfold goClean
    rw [if_neg (by simp [rendRoot])]
    have hhead : (rendRoot segsD
        ++ '/' :: '/' :: (joinSl segs ++ tl)).head? = some '/' := by
      simp [rendRoot]
    have htail : (rendRoot segsD
        ++ '/' :: '/' :: (joinSl segs ++ tl)).tail
        = joinSl segsD ++ '/' :: '/' :: (joinSl segs ++ tl) := by
      simp [rendRoot]
    obtain ⟨m2, hm2⟩ := cl_segs_run true 1 segs 0 segsD tl hg
      (fun s hs => (hgD s hs).1) (by simp)
    have hfin : cleanLoop true false 1 (outForm true 0 segsD)
        (joinSl segs ++ tl)
        = (cleanLoop true m2 1 (outForm true 0 (segsD ++ segs)) tl) := hm2
    simp only [hhead, htail, if_pos rfl, reduceIte, hm, cl_slash, hfin]
    rcases htl with rfl | rfl
    · simp only [cl_nil, outForm, reduceIte]
      rw [if_neg (rendRoot_reverse_ne _)]
      simp only [List.reverse_reverse]
      simp [rendRoot, joinSl_append segsD segs hDne hne]
    · simp only [cl_slash, cl_nil, outForm, reduceIte]
      rw [if_neg (rendRoot_reverse_ne _)]
      simp only [List.reverse_reverse]
      simp [rendRoot, joinSl_append segsD segs hDne hne]
  · obtain ⟨m, hm⟩ := cl_rel_run k segsD
      ('/' :: '/' :: (joinSl segs ++ tl)) hgD (by simp)
    have hne2 := rendRel_ne_nil k segsD hgD h1
    unfold goClean
    rw [if_neg (by simp [hne2])]
    have hhead : ¬((rendRel k segsD
        ++ '/' :: '/' :: (joinSl segs ++ tl)).head? = some '/') := by
      have h2 := rendRel_head_ne_slash k segsD hgD h1
      cases hrr : rendRel k segsD with
      | nil => exact absurd hrr hne2
      | cons x xs =>
        rw [hrr] at h2
        simpa using h2
    simp only [if_neg hhead, reduceIte]
    have hmr : cleanLoop false false 0 []
        (rendRel k segsD ++ '/' :: '/' :: (joinSl segs ++ tl))
        = cleanLoop false m (ddLen k) (outForm false k segsD)
            ('/' :: '/' :: (joinSl segs ++ tl)) := hm
    rw [hmr, cl_slash, cl_slash]
    obtain ⟨m2, hm2⟩ := cl_segs_run false (ddLen k) segs k segsD tl hg
      (fun s hs => (hgD s hs).1) (by simp)
    rw [hm2]
    have hLne : List.replicate k ddSeg ++ segsD ≠ [] := by
      intro hc
      rcases List.append_eq_nil.mp hc with ⟨ha, hb⟩
      have hk0 : k = 0 := by simpa using congrArg List.length ha
      have hs0 : segsD.length = 0 := by simpa using congrArg List.length hb
      omega
    have hne3 : rendRel k (segsD ++ segs) ≠ [] := by
      apply rendRel_ne_nil
      · intro s hs
        rcases List.mem_append.mp hs with h | h
        · exact hgD s h
        · exact hg s h
      · simp
        omega
    have hsplit : rendRel k (segsD ++ segs)
        = rendRel k segsD ++ '/' :: joinSl segs := by
      unfold rendRel
      rw [← List.append_assoc, joinSl_append _ segs hLne hne]
    rcases htl with rfl | rfl
    · rw [cl_nil]
      simp only [outForm]
      rw [if_neg (show ¬(false = true) by simp)]
      rw [if_neg (fun hc => hne3 (List.reverse_eq_nil_iff.mp hc))]
      simp only [List.reverse_reverse]
      exact hsplit
    · rw [cl_slash, cl_nil]
      simp only [outForm]
      rw [if_neg (show ¬(false = true) by simp)]
      rw [if_neg (fun hc => hne3 (List.reverse_eq_nil_iff.mp hc))]
      simp only [List.reverse_reverse]
      exact hsplit

theorem goJoin2_under_file (D : GoStr) (hD : Canonical D)
    (hD1 : D ≠ ['.']) (hD2 : D ≠ ['/']) (segs : List GoStr)
    (hg : ∀ s ∈ segs, goodSeg s) (hne : segs ≠ []) :
    goJoin2 (D ++ ['/']) (joinSl segs) = D ++ '/' :: joinSl segs := by
  have hjne : joinSl segs ≠ [] :=
    joinSl_ne_nil segs hne (fun s hs => (hg s hs).1)
  unfold goJoin2
  rw [if_neg (by simp), if_neg (by simp), if_neg hjne]
  have heq : (D ++ ['/']) ++ '/' :: joinSl segs
      = D ++ '/' :: '/' :: (joinSl segs ++ []) := by simp
  rw [heq, goClean_under D hD hD1 hD2 segs [] hg hne (Or.inl rfl)]

theorem goJoin2_under_dir (D : GoStr) (hD : Canonical D)
    (hD1 : D ≠ ['.']) (hD2 : D ≠ ['/']) (segs : List GoStr)
    (hg : ∀ s ∈ segs, goodSeg s) (hne : segs ≠ []) :
    goJoin2 (D ++ ['/']) (joinSl segs ++ ['/'])
      = D ++ '/' :: joinSl segs := by
  unfold goJoin2
  rw [if_neg (by simp), if_neg (by simp), if_neg (by simp)]
  have heq : (D ++ ['/']) ++ '/' :: (joinSl segs ++ ['/'])
      = D ++ '/' :: '/' :: (joinSl segs ++ ['/']) := by simp
  rw [heq, goClean_under D hD hD1 hD2 segs ['/'] hg hne (Or.inr rfl)]

theorem validate_under (D : GoStr) (hD : Canonical D) (hD1 : D ≠ ['.'])
    (hD2 : D ≠ ['/']) (segs : List GoStr)
    (hg : ∀ s ∈ segs, goodSeg s) (hne : segs ≠ []) :
    validatePath (D ++ '/' :: joinSl segs) (D ++ ['/']) = true := by
  unfold validatePath
  rw [goClean_canon_slash D hD]
  have hcanon : Canonical (D ++ '/' :: joinSl segs) := by
    have h2 := goClean_canonical (D ++ '/' :: '/' :: (joinSl segs ++ []))
    rw [goClean_under D hD hD1 hD2 segs [] hg hne (Or.inl rfl)] at h2
    exact h2
  rw [goClean_canon_fix _ hcanon]
  rw [goHasPref_iff]
  rw [hasPref_iff_append]
  exact ⟨joinSl segs, by simp⟩

theorem extractZipLoop_append (cd : GoStr) (a b : List ArchiveEntry) :
    extractZipLoop cd (a ++ b)
      = (match extractZipLoop cd a with
         | (some e, w) => (some e, w)
         | (none, w) =>
           ((extractZipLoop cd b).1, w ++ (extractZipLoop cd b).2)) := by
  induction a with
  | nil => simp [extractZipLoop]
  | cons e rest ih =>
    simp only [List.cons_append, extractZipLoop, List.append_eq]
    by_cases hv : validatePath (goJoin2 cd e.name) cd = false
    · rw [if_pos hv, if_pos hv]
    · rw [if_neg hv, if_neg hv]
      by_cases hd : e.isDir = true
      · rw [if_pos hd, if_pos hd, ih]
        cases hres : extractZipLoop cd rest with
        | mk err ws =>
          cases err with
          | none => simp
          | some er => simp
      · rw [if_neg hd, if_neg hd, ih]
        cases hres : extractZipLoop cd rest with
        | mk err ws =>
          cases err with
          | none => simp
          | some er => simp

mutual
/-- Extracting the entries of one well-formed tree under a canonical
destination succeeds and performs exactly the expected writes. -/
theorem extract_tree_ok (D : GoStr) (hD : Canonical D) (hD1 : D ≠ ['.'])
    (hD2 : D ≠ ['/']) (psegs : List GoStr) (t : FsTree)
    (hp : ∀ s ∈ psegs, goodSeg s) (hw : wfTree t = true) :
    extractZipLoop (D ++ ['/']) (entriesOfTree psegs t)
      = (none, writesOfTree D psegs t) := by
  cases t with
  | file n c m =>
    have hgn : goodSeg n := by simpa [wfTree] using hw
    have hgood : ∀ s ∈ psegs ++ [n], goodSeg s := by
      intro s hs
      rcases List.mem_append.mp hs with h | h
      · exact hp s h
      · rw [List.mem_singleton.mp h]
        exact hgn
    have hfp := goJoin2_under_file D hD hD1 hD2 (psegs ++ [n]) hgood
      (by simp)
    have hval := validate_under D hD hD1 hD2 (psegs ++ [n]) hgood
      (by simp)
    simp [entriesOfTree, extractZipLoop, hfp, hval, writesOfTree]
  | dir n m cs =>
    have hw2 : decide (goodSeg n) = true ∧ wfForest cs = true := by
      simpa [wfTree, Bool.and_eq_true] using hw
    have hgn : goodSeg n := of_decide_eq_true hw2.1
    have hgood : ∀ s ∈ psegs ++ [n], goodSeg s := by
      intro s hs
      rcases List.mem_append.mp hs with h | h
      · exact hp s h
      · rw [List.mem_singleton.mp h]
        exact hgn
    have hfp := goJoin2_under_dir D hD hD1 hD2 (psegs ++ [n]) hgood
      (by simp)
    have hval := validate_under D hD hD1 hD2 (psegs ++ [n]) hgood
      (by simp)
    have hrec := extract_forest_ok D hD hD1 hD2 (psegs ++ [n]) cs
      hgood hw2.2
    simp [entriesOfTree, extractZipLoop, hfp, hval, hrec, writesOfTree]
/-- `extract_tree_ok` over a forest of siblings. -/
theorem extract_forest_ok (D : GoStr) (hD : Canonical D)
    (hD1 : D ≠ ['.']) (hD2 : D ≠ ['/']) (psegs : List GoStr)
    (f : Forest) (hp : ∀ s ∈ psegs, goodSeg s)
    (hw : wfForest f = true) :
    extractZipLoop (D ++ ['/']) (entriesOfForest psegs f)
      = (none, writesOfForest D psegs f) := by
  cases f with
  | nil => simp [entriesOfForest, extractZipLoop, writesOfForest]
  | cons t ts =>
    have hw2 : wfTree t = true ∧ wfForest ts = true := by
      simpa [wfForest, Bool.and_eq_true] using hw
    have h1 := extract_tree_ok D hD hD1 hD2 psegs t hp hw2.1
    have h2 := extract_forest_ok D hD hD1 hD2 psegs ts hp hw2.2
    simp only [entriesOfForest, writesOfForest]
    rw [extractZipLoop_append, h1]
    dsimp only []
    rw [h2]
end

/-- Claim C5 counterexample: `CompressToZip` records each node's mode in
the archive header, but `ExtractZip` ignores the recorded modes — the
file recorded with mode 0600 is written by `os.Create` with 0666, and no
write ever uses the recorded mode — so mode bits are not preserved even
though they are recorded. -/
theorem zip_roundtrip_mode_counterexample :
    (∃ e ∈ entriesOfForest [] zipExampleForest,
      e.isDir = false ∧ e.mode = 0o600) ∧
    FsWrite.create (gs "/out/d/a") (gs "hi") 0o666
      ∈ (extractZip (gs "/out") (entriesOfForest [] zipExampleForest)).2 ∧
    (∀ w ∈ (extractZip (gs "/out")
        (entriesOfForest [] zipExampleForest)).2,
      w ≠ FsWrite.create (gs "/out/d/a") (gs "hi") 0o600) := by
  decide

/-- Claim C5 (amended): for every well-formed directory tree and every
destination whose cleaned path is neither `.` nor `/`, extracting the
archive produced by `CompressToZip` succeeds and reproduces the tree —
one directory creation per directory node and one content write per file
node, each at the destination joined with the node's relative path, with
the file's exact contents — but with fixed modes (0755 for directories
and parents, 0666 for file writes), not the recorded mode bits. -/
theorem zip_roundtrip_spec (dest : GoStr) (f : Forest)
    (h1 : goClean dest ≠ ['.']) (h2 : goClean dest ≠ ['/'])
    (hw : wfForest f = true) :
    extractZip dest (entriesOfForest [] f)
      = (none, FsWrite.mkdir dest 0o755
          :: writesOfForest (goClean dest) [] f) := by
  simp only [extractZip]
  rw [extract_forest_ok (goClean dest) (goClean_canonical dest) h1 h2 []
    f (by simp) hw]

theorem zip_roundtrip_spec_witness :
    extractZip (gs "/out") (entriesOfForest [] zipExampleForest)
      = (none, FsWrite.mkdir (gs "/out") 0o755
          :: writesOfForest (goClean (gs "/out")) [] zipExampleForest) :=
  zip_roundtrip_spec (gs "/out") zipExampleForest (by decide) (by decide)
    (by decide)

/-! ### Evaluation checks for the path model (cross-checked against Go) -/

example : goClean (gs "/a/b/../c//./d/") = gs "/a/c/d" := by decide
example : goClean (gs "../../x") = gs "../../x" := by decide
example : goClean (gs "") = gs "." := by decide
example : goClean (gs "/..") = gs "/" := by decide
example : goClean (gs "a/..") = gs "." := by decide
example : goDir (gs "/a/b") = gs "/a" := by decide
example : goDir (gs "a") = gs "." := by decide
example : goJoin2 (gs "/tmp/out/") (gs "../evil") = gs "/tmp/evil" := by decide
example : validatePath (gs "/tmp/out/x") (gs "/tmp/out") = true := by decide
example : validatePath (gs "/tmp/evil") (gs "/tmp/out/") = false := by decide

end Curate
